import Mathlib

/-! i18nvalidate: localized validation messages.

A shallow embedding of the Go package `i18nvalidate` (files `i18nvalidate.go`,
`translator.go`, `errors.go`) and the properties of its registration walk and
message merge.

Go strings are modelled as lists of Unicode code points (`List Char`), which is
what the functions of package `strings` used here see on valid UTF-8 text.
-/

set_option linter.dupNamespace false

namespace I18nValidate

/-! ## Package `strings` -/

/-- A Go `string`, as the sequence of its code points. -/
abbrev GoString := List Char

/-- Go `strings.Index(s, substr)`: position of the leftmost occurrence of `substr` in `s`;
`none` stands for `-1`. -/
def Index : GoString → GoString → Option Nat
  | [], substr => if substr = [] then some 0 else none
  | c :: s, substr =>
    if substr.isPrefixOf (c :: s) then some 0
    else (Index s substr).map (· + 1)

/-- Go `strings.Contains(s, substr)`: `Index(s, substr) >= 0`. -/
def Contains (s substr : GoString) : Bool := (Index s substr).isSome

/-- The loop of Go `strings.Count` for a non-empty `substr`; `fuel` bounds the iterations
(every iteration consumes at least one character of `s`). -/
def countLoop : Nat → GoString → GoString → Nat → Nat
  | 0, _, _, n => n
  | fuel + 1, s, substr, n =>
    match Index s substr with
    | none => n
    | some i => countLoop fuel (s.drop (i + substr.length)) substr (n + 1)

/-- Go `strings.Count(s, substr)`: number of non-overlapping occurrences; for the empty
`substr` it is the number of code points plus one. -/
def Count (s substr : GoString) : Nat :=
  if substr = [] then s.length + 1 else countLoop (s.length + 1) s substr 0

/-- Go `strings.explode(s, n)`: split into single code points, at most `n` pieces
(`n < 0` means no limit), the last piece holding the rest. -/
def explode (s : GoString) (n : Int) : List GoString :=
  let l := s.length
  let n : Nat := if n < 0 ∨ n > l then l else n.toNat
  if n = 0 then [] else (s.take (n - 1)).map (fun c => [c]) ++ [s.drop (n - 1)]

/-- The `for i < n` loop of Go `strings.genSplit` (with `sepSave = 0`); the first argument
is the number of iterations left, `n - i`. -/
def genSplitLoop : Nat → GoString → GoString → List GoString
  | 0, s, _ => [s]
  | k + 1, s, sep =>
    match Index s sep with
    | none => [s]
    | some m => s.take m :: genSplitLoop k (s.drop (m + sep.length)) sep

/-- Go `strings.genSplit(s, sep, 0, n)`. The bound `len(s) + 1` counts bytes in Go and code
points here; it is reached only by the empty `s` or by an `n` above the number of
pieces, where both give the same pieces. -/
def genSplit (s sep : GoString) (n : Int) : List GoString :=
  if n = 0 then []
  else if sep = [] then explode s n
  else
    let n : Nat := if n < 0 then Count s sep + 1 else n.toNat
    let n : Nat := if n > s.length + 1 then s.length + 1 else n
    genSplitLoop (n - 1) s sep

/-- Go `strings.Split(s, sep)`. -/
def Split (s sep : GoString) : List GoString := genSplit s sep (-1)

/-- Go `strings.SplitN(s, sep, n)`. -/
def SplitN (s sep : GoString) (n : Int) : List GoString := genSplit s sep n

/-- Go `unicode.IsSpace`: the code points with the White_Space property. -/
def isSpace (c : Char) : Bool :=
  let n := c.toNat
  (9 ≤ n ∧ n ≤ 13) ∨ n = 0x20 ∨ n = 0x85 ∨ n = 0xA0 ∨ n = 0x1680 ∨
    (0x2000 ≤ n ∧ n ≤ 0x200a) ∨ n = 0x2028 ∨ n = 0x2029 ∨ n = 0x202f ∨
    n = 0x205f ∨ n = 0x3000

/-- Go `strings.TrimSpace(s)`: `s` without leading and trailing white space. -/
def TrimSpace (s : GoString) : GoString :=
  ((s.dropWhile isSpace).reverse.dropWhile isSpace).reverse

/-- The loop `for i := 0; i < n; i++` of Go `strings.Replace` followed by the final
`b.WriteString(s[start:])`: the first argument is the number of iterations left, `i` the
loop counter and `rest` the text `s[start:]`. For the empty `old` the match is before
the first code point when `i == 0` and after it otherwise. -/
def replaceLoop : Nat → Nat → GoString → GoString → GoString → GoString
  | 0, _, rest, _, _ => rest
  | k + 1, i, rest, old, new =>
    let j :=
      if old = [] then (if i > 0 then min 1 rest.length else 0)
      else (Index rest old).getD 0
    rest.take j ++ new ++ replaceLoop k (i + 1) (rest.drop (j + old.length)) old new

/-- Go `strings.Replace(s, old, new, n)`: `s` with the first `n` non-overlapping
occurrences of `old` replaced by `new` (all of them when `n < 0`). -/
def Replace (s old new : GoString) (n : Int) : GoString :=
  if old = new ∨ n = 0 then s
  else
    let m := Count s old
    if m = 0 then s
    else
      let n : Nat := if n < 0 ∨ (m : Int) < n then m else n.toNat
      replaceLoop n 0 s old new

/-- Go `strings.Join(elems, sep)`. -/
def Join : List GoString → GoString → GoString
  | [], _ => []
  | [a], _ => a
  | a :: b :: rest, sep => a ++ sep ++ Join (b :: rest) sep

/-! ## The `trans` tag -/

/-- One fragment of a `trans` tag (source lines 175-181):
`kv := strings.SplitN(strings.TrimSpace(part), ":", 2)`, skipped when `len(kv) != 2`,
else the pair `(TrimSpace(kv[0]), TrimSpace(kv[1]))`. -/
def parsePart (part : GoString) : Option (GoString × GoString) :=
  match SplitN (TrimSpace part) [':'] 2 with
  | [langCode, translatedName] => some (TrimSpace langCode, TrimSpace translatedName)
  | _ => none

/-- The pairs `(langCode, translatedName)` the walk reads off a `trans` tag value
(source lines 172-181): nothing for the empty tag, else the fragments of
`strings.Split(tagValue, ";")` that `parsePart` accepts, in order. -/
def fieldTranslationSpec (tagValue : GoString) : List (GoString × GoString) :=
  if tagValue = [] then [] else (Split tagValue [';']).filterMap parsePart

/-! ## Go maps -/

/-- Go `m[k]` with the comma-ok form, for a map kept as an association list
(the first entry with the key is the live one). -/
def mapLookup {β : Type} : List (GoString × β) → GoString → Option β
  | [], _ => none
  | (k', b) :: rest, k => if k' = k then some b else mapLookup rest k

/-- Go `m[k] = b`: overwrite the entry of `k`, or add one. -/
def mapStore {β : Type} : List (GoString × β) → GoString → β → List (GoString × β)
  | [], k, b => [(k, b)]
  | (k', b') :: rest, k, b =>
    if k' = k then (k, b) :: rest else (k', b') :: mapStore rest k b

/-! ## Package `reflect` -/

/-- Identity of a `reflect.Type`. -/
abbrev TypeId := Nat

/-- The kinds of `reflect.Kind` the package tells apart. -/
inductive Kind
  | Struct
  | Pointer
  | Other
  deriving DecidableEq, Repr

/-- A `reflect.StructField`: its `Name`, `Tag.Get("trans")` and `Type`. -/
structure StructField where
  Name : GoString
  Tag : GoString
  Typ : TypeId
  deriving DecidableEq

/-- What `reflect` reports about one type: `Kind()`, `Name()` (empty for an unnamed
type), `Elem()` (read for pointers only) and the fields `Field(0..NumField()-1)` (read
for structs only). -/
structure TypeInfo where
  Kind : Kind
  Name : GoString
  Elem : TypeId
  Fields : List StructField
  deriving DecidableEq

/-- The types of the program. Types refer to each other by identity, so a type may reach
itself (`type T struct { Next *T }`, `type P *P`). -/
abbrev TypeEnv := TypeId → TypeInfo

/-- A non-nil `any`: its dynamic type and its contents, which only the rule engine reads. -/
structure AnyValue where
  typ : TypeId
  val : Nat
  deriving DecidableEq

/-- Why a run has no ordinary return: the model ran out of `fuel` (the Go code is still
running), or the Go code called a method on a nil `ut.Translator`. -/
inductive Abort
  | outOfFuel
  | nilDeref
  deriving DecidableEq, Repr

/-! ## Collaborators: translation engine and rule engine -/

/-- An error value made by a collaborator (translation engine, rule engine, callback). -/
structure ExternalError where
  msg : GoString
  deriving DecidableEq

/-- Modelled from the spec: the translation context `ut.Translator` of the external
translation engine, "the per-language store of message templates and field-name
registrations" keyed by message id. -/
structure ut.Translator where
  locale : GoString
  translations : List (GoString × GoString)
  deriving DecidableEq

/-- Modelled from the spec: `context.lookup(messageId) → string?`, Go `trans.T(key)`;
`none` is the non-nil error of an unknown id. -/
def ut.Translator.T (trans : ut.Translator) (key : GoString) : Option GoString :=
  mapLookup trans.translations key

/-- When the translation engine refuses a registration: a function of the context, the
message id, the text and the override flag. It belongs to the external engine and is a
parameter of the development. -/
abbrev AddFailure := ut.Translator → GoString → GoString → Bool → Option ExternalError

/-- Modelled from the spec: `context.register(messageId, value, overwrite) → Error?`,
Go `trans.Add(key, text, override)`: either the engine refuses and nothing is stored, or
`text` is stored under `key`. -/
def ut.Translator.Add (refuse : AddFailure) (trans : ut.Translator) (key text : GoString)
    (override : Bool) : ut.Translator × Option ExternalError :=
  match refuse trans key text override with
  | some e => (trans, some e)
  | none => ({ trans with translations := mapStore trans.translations key text }, none)

/-- A `validator.FieldError` as the package reads it: `StructNamespace()`,
`StructField()` and `Translate(trans)` (the engine's rendering through a context,
which may be nil). -/
structure validator.FieldError where
  StructNamespace : GoString
  StructField : GoString
  Translate : Option ut.Translator → GoString

/-- A non-nil error of `(*validator.Validate).Struct`: a `validator.ValidationErrors`, or
any other error. -/
inductive validator.StructError
  | ValidationErrors (verrs : List validator.FieldError)
  | other (e : ExternalError)

/-- The rule engine `*validator.Validate` as the package uses it: `Struct(data)`. -/
structure validator.Validate where
  Struct : AnyValue → Option validator.StructError

/-- The environment of a run: the program's types and the refusal policy of the
translation engine. -/
structure Runtime where
  types : TypeEnv
  refuse : AddFailure

/-! ## `errors.go`, `translator.go` -/

/-- The struct `ValidationErrors`: the engine's violations and the translated messages
by field namespace. -/
structure ValidationErrors where
  ValidationErrors : List validator.FieldError
  TranslatedErrors : List (GoString × GoString)

/-- A non-nil Go `error` seen at the package boundary: one made by `fmt.Errorf` in `New`,
one handed over unchanged from a collaborator, or a `*ValidationErrors`. -/
inductive GoError
  | errorf (msg : GoString)
  | external (e : ExternalError)
  | validationErrors (e : ValidationErrors)

/-- The struct `Translator` of `translator.go`: `Locale` is `t.Translator.Locale()`;
`RegisterTranslations(v, trans)` may change the engine and the context and returns an
error or nil. Both fields are taken to be non-nil. -/
structure Translator where
  Locale : GoString
  RegisterTranslations :
    validator.Validate → ut.Translator → validator.Validate × ut.Translator × Option ExternalError

/-- The struct `Validator` (the field `Uni` shares its contexts with `translators` and is
left out; `registeredTypes` is the `sync.Map` used as a set). -/
structure Validator where
  Validator : validator.Validate
  translators : List (GoString × ut.Translator)
  defaultLang : GoString
  registeredTypes : List TypeId

/-! ## `New` -/

/-- Modelled from the spec: the "shared multi-locale translation coordinator" built by
`ut.New(fallback, supported...)`: one fresh context per supplied locale code. -/
structure ut.UniversalTranslator where
  translators : List (GoString × ut.Translator)

/-- Modelled from the spec: `ut.New`, see `ut.UniversalTranslator`. -/
def ut.New (_fallback : GoString) (supportedLocales : List GoString) : ut.UniversalTranslator :=
  ⟨supportedLocales.foldl (fun m l => mapStore m l ⟨l, []⟩) []⟩

/-- Modelled from the spec: `uni.GetTranslator(locale)`, "obtains that locale's context";
`none` is `found == false`. -/
def ut.UniversalTranslator.GetTranslator (uni : ut.UniversalTranslator) (locale : GoString) :
    Option ut.Translator :=
  mapLookup uni.translators locale

/-- What a call of `New` did: the two results, and (ghost) the calls of
`RegisterTranslations` in the order they were made, each with the position of its entry
in the argument list and the error it returned. -/
structure NewRun where
  validator : Option Validator
  err : Option GoError
  calls : List (Nat × Option ExternalError)

/-- The error of source line 35. -/
def errNoLocale : GoError :=
  .errorf "at least one locale must be supplied".toList

/-- The error of source lines 46-49. -/
def errDefaultNotFound (defaultLang : GoString) : GoError :=
  .errorf ("default language '".toList ++ defaultLang ++ "' not found in supplied locales".toList)

/-- The loop of source lines 62-72 over the entries from position `i` on. A context is
shared by reference between `uni` and `translatorMap`, so what a callback does to it is
written to both. -/
def newLoop (defaultLang : GoString) :
    List Translator → Nat → validator.Validate → ut.UniversalTranslator →
    List (GoString × ut.Translator) → List (Nat × Option ExternalError) → NewRun
  | [], _, v, _, translatorMap, calls =>
    ⟨some ⟨v, translatorMap, defaultLang, []⟩, none, calls⟩
  | t :: rest, i, v, uni, translatorMap, calls =>
    match uni.GetTranslator t.Locale with
    | none => newLoop defaultLang rest (i + 1) v uni translatorMap calls
    | some tr =>
      match t.RegisterTranslations v tr with
      | (_, _, some err) => ⟨none, some (.external err), calls ++ [(i, some err)]⟩
      | (v', trans', none) =>
        newLoop defaultLang rest (i + 1) v' ⟨mapStore uni.translators t.Locale trans'⟩
          (mapStore translatorMap t.Locale trans') (calls ++ [(i, none)])

/-- The function `New(defaultLang, translators...)`; `v0` is the engine `validator.New()`
returns. -/
def New (v0 : validator.Validate) (defaultLang : GoString) (translators : List Translator) :
    NewRun :=
  if translators.length = 0 then ⟨none, some errNoLocale, []⟩
  else
    match translators.find? (fun t => t.Locale = defaultLang) with
    | none => ⟨none, some (errDefaultNotFound defaultLang), []⟩
    | some fallback =>
      let args := fallback.Locale :: translators.map (·.Locale)
      let uni := ut.New (args.headD []) args
      newLoop defaultLang translators 0 v0 uni [] []

/-! ## The registration walk -/

/-- The `trans` contexts of a Validator, by locale code. -/
abbrev Translators := List (GoString × ut.Translator)

/-- Body of the loop over the fragments of a tag (source lines 175-188), for the field
`fieldName` of the struct type named `typeName`. -/
def registerPart (rt : Runtime) (translators : Translators) (typeName fieldName part : GoString) :
    Translators × Option ExternalError :=
  match parsePart part with
  | none => (translators, none)
  | some (langCode, translatedName) =>
    match mapLookup translators langCode with
    | none => (translators, none)
    | some tr =>
      let key := typeName ++ ['.'] ++ fieldName
      let r := tr.Add rt.refuse key translatedName true
      (mapStore translators langCode r.1, r.2)

/-- The loop `for _, part := range parts` (source lines 174-189). -/
def registerParts (rt : Runtime) (typeName fieldName : GoString) :
    Translators → List GoString → Translators × Option ExternalError
  | translators, [] => (translators, none)
  | translators, part :: rest =>
    match registerPart rt translators typeName fieldName part with
    | (translators', some err) => (translators', some err)
    | (translators', none) => registerParts rt typeName fieldName translators' rest

/-- The tag part of the body of the field loop (source lines 172-190). -/
def registerTag (rt : Runtime) (translators : Translators) (typeName : GoString)
    (field : StructField) : Translators × Option ExternalError :=
  if field.Tag ≠ [] then
    registerParts rt typeName field.Name translators (Split field.Tag [';'])
  else (translators, none)

/-- The step `if t.Kind() == reflect.Pointer { t = t.Elem() }` (source lines 161-163 and
193-195). -/
def derefOnce (env : TypeEnv) (t : TypeId) : TypeId :=
  if (env t).Kind = Kind.Pointer then (env t).Elem else t

/-- The type the walk descends into for a field (source lines 192-196), if any. -/
def nestedStruct (env : TypeEnv) (field : StructField) : Option TypeId :=
  let nestedType := derefOnce env field.Typ
  if (env nestedType).Kind = Kind.Struct then some nestedType else none

/-- The loop `for i := 0; i < t.NumField(); i++` (source lines 169-201) over the fields
still to visit; `recur` is the recursive call of line 197. -/
def registerFields (rt : Runtime)
    (recur : Translators → Option TypeId → Except Abort (Translators × Option ExternalError))
    (typeName : GoString) :
    Translators → List StructField → Except Abort (Translators × Option ExternalError)
  | translators, [] => .ok (translators, none)
  | translators, field :: rest =>
    match registerTag rt translators typeName field with
    | (translators1, some err) => .ok (translators1, some err)
    | (translators1, none) =>
      match nestedStruct rt.types field with
      | none => registerFields rt recur typeName translators1 rest
      | some nestedType =>
        match recur translators1 (some nestedType) with
        | .error a => .error a
        | .ok (translators2, some err) => .ok (translators2, some err)
        | .ok (translators2, none) => registerFields rt recur typeName translators2 rest

/-- The method `registerFieldTranslationsType(t)` on the contexts of the receiver;
`fuel` bounds the depth of the recursion and `none` is the nil `reflect.Type`. -/
def registerFieldTranslationsType (rt : Runtime) :
    Nat → Translators → Option TypeId → Except Abort (Translators × Option ExternalError)
  | 0, _, _ => .error .outOfFuel
  | _ + 1, translators, none => .ok (translators, none)
  | fuel + 1, translators, some t =>
    let t := derefOnce rt.types t
    if (rt.types t).Kind ≠ Kind.Struct then .ok (translators, none)
    else
      registerFields rt (registerFieldTranslationsType rt fuel) (rt.types t).Name translators
        (rt.types t).Fields

/-- The loop `for t != nil && t.Kind() == reflect.Pointer { t = t.Elem() }`
(source lines 139-141); `fuel` bounds its iterations. -/
def derefAll (env : TypeEnv) : Nat → Option TypeId → Except Abort (Option TypeId)
  | _, none => .ok none
  | fuel, some t =>
    if (env t).Kind = Kind.Pointer then
      match fuel with
      | 0 => .error .outOfFuel
      | fuel + 1 => derefAll env fuel (some (env t).Elem)
    else .ok (some t)

/-- The method `registerFieldTranslations(data)`: the Validator afterwards and the
returned error. -/
def Validator.registerFieldTranslations (rt : Runtime) (fuel : Nat)
    (v : I18nValidate.Validator) (data : Option AnyValue) :
    Except Abort (I18nValidate.Validator × Option GoError) :=
  match derefAll rt.types fuel (data.map (·.typ)) with
  | .error a => .error a
  | .ok none => .ok (v, none)
  | .ok (some t) =>
    if (rt.types t).Kind ≠ Kind.Struct then .ok (v, none)
    else if t ∈ v.registeredTypes then .ok (v, none)
    else
      match registerFieldTranslationsType rt fuel v.translators (some t) with
      | .error a => .error a
      | .ok (translators, err) =>
        .ok ({ v with translators := translators, registeredTypes := t :: v.registeredTypes },
          err.map GoError.external)

/-! ## `Validate` -/

/-- The context `Validate` renders with (source lines 96-104); `none` is the nil
`ut.Translator` a missing map entry yields. `lang` is the variadic argument. -/
def Validator.resolve (v : I18nValidate.Validator) (lang : List GoString) : Option ut.Translator :=
  let targetLang :=
    match lang with
    | l :: _ => if l ≠ [] then l else v.defaultLang
    | [] => v.defaultLang
  match mapLookup v.translators targetLang with
  | some tr => some tr
  | none => mapLookup v.translators v.defaultLang

/-- Body of the loop over the violations (source lines 110-119): the message stored for
the violation `fe`. -/
def mergeMessage (trans : ut.Translator) (fe : validator.FieldError) : GoString :=
  let msg := fe.Translate (some trans)
  match trans.T fe.StructNamespace with
  | some fieldTranslated =>
    if fieldTranslated ≠ [] then Replace msg fe.StructField fieldTranslated 1 else msg
  | none => msg

/-- The loop `for _, fe := range verrs` (source lines 109-121) filling `msgs`. -/
def translateLoop (trans : Option ut.Translator) :
    List validator.FieldError → List (GoString × GoString) → Except Abort (List (GoString × GoString))
  | [], msgs => .ok msgs
  | fe :: rest, msgs =>
    match trans with
    | none => .error .nilDeref
    | some tr => translateLoop trans rest (mapStore msgs fe.StructNamespace (mergeMessage tr fe))

/-- The method `Validate(data, lang...)`: the Validator afterwards and the returned
error (`none` is nil). -/
def Validator.Validate (rt : Runtime) (fuel : Nat) (v : I18nValidate.Validator)
    (data : Option AnyValue) (lang : List GoString) :
    Except Abort (I18nValidate.Validator × Option GoError) :=
  match data with
  | none => .ok (v, none)
  | some d =>
    match v.registerFieldTranslations rt fuel data with
    | .error a => .error a
    | .ok (v1, some err) => .ok (v1, some err)
    | .ok (v1, none) =>
      let trans := v1.resolve lang
      match v1.Validator.Struct d with
      | none => .ok (v1, none)
      | some (.ValidationErrors verrs) =>
        match translateLoop trans verrs [] with
        | .error a => .error a
        | .ok msgs => .ok (v1, some (.validationErrors ⟨verrs, msgs⟩))
      | some (.other err) => .ok (v1, some (.external err))

/-! ## The tag grammar in the words of the specification -/

/-- The white space of the specification: the code points that carry the Unicode property
White_Space, listed one by one. -/
def specWhiteSpaceCodePoints : List Nat :=
  [0x0009, 0x000A, 0x000B, 0x000C, 0x000D, 0x0020, 0x0085, 0x00A0, 0x1680,
    0x2000, 0x2001, 0x2002, 0x2003, 0x2004, 0x2005, 0x2006, 0x2007, 0x2008, 0x2009, 0x200A,
    0x2028, 0x2029, 0x202F, 0x205F, 0x3000]

/-- Whether a code point is white space in the sense of the specification. -/
def specWhiteSpace (c : Char) : Bool := decide (c.toNat ∈ specWhiteSpaceCodePoints)

/-- A text without the white space it begins with. -/
def specTrimLeft : GoString → GoString
  | [] => []
  | c :: s => if specWhiteSpace c then specTrimLeft s else c :: s

/-- A text without the white space it ends with. -/
def specTrimRight : GoString → GoString
  | [] => []
  | c :: s =>
    match specTrimRight s with
    | [] => if specWhiteSpace c then [] else [c]
    | x :: t => c :: x :: t

/-- A text with its surrounding white space trimmed, in the words of the specification:
white space is removed from both ends and nowhere else. -/
def specTrim (s : GoString) : GoString := specTrimRight (specTrimLeft s)

/-- A text is trimmed when it neither begins nor ends with white space. -/
def Trimmed (s : GoString) : Prop :=
  (∀ c, s.head? = some c → specWhiteSpace c = false) ∧
    (∀ c, s.getLast? = some c → specWhiteSpace c = false)

/-- The fragment rule of the specification: trim the fragment and split it at the first
`:`; a fragment without `:` contributes nothing, any other the pair of the trimmed text
before the first `:` and the trimmed text after it. -/
def specFragment (fragment : GoString) : Option (GoString × GoString) :=
  let f := specTrim fragment
  if ':' ∈ f then
    some (specTrim (f.takeWhile (fun c => c != ':')),
      specTrim (f.dropWhile (fun c => c != ':')).tail)
  else none

/-- The translation spec of a tag in the words of the specification: split on `;`, then
apply the fragment rule to each fragment in order. -/
def specTranslationSpec (s : GoString) : List (GoString × GoString) :=
  (s.splitOn ';').filterMap specFragment

/-- A `trans` tag value with white space around its tokens: a no-break space before
` en : First Name `, a tab after it, then `; pt:Primeiro Nome ;broken; fr : a:b ;`. -/
def exSpacedTag : GoString :=
  [Char.ofNat 0xA0] ++ " en : First Name ".toList ++ [Char.ofNat 9] ++
    "; pt:Primeiro Nome ;broken; fr : a:b ;".toList

/-! ## The merge of a display name, in the words of the specification -/

/-- The text `s` with the leftmost occurrence of `old` replaced by `new`, computed from
`Index`; `s` itself when `old` does not occur or equals `new`. -/
def Replace1 (s old new : GoString) : GoString :=
  if old = new then s
  else
    match Index s old with
    | none => s
    | some j => s.take j ++ new ++ s.drop (j + old.length)

/-- The text `m` is `r` with the leftmost occurrence of `s` replaced by `d` and every other
character unchanged; when `s` does not occur in `r`, `m` is `r`. -/
def FirstReplaced (r s d m : GoString) : Prop :=
  (∃ pre post, r = pre ++ s ++ post ∧
      (∀ pre' post', r = pre' ++ s ++ post' → pre.length ≤ pre'.length) ∧
      m = pre ++ d ++ post) ∨
    ((∀ pre post, r ≠ pre ++ s ++ post) ∧ m = r)

/-- The text `sub` is a substring of the text `s`. -/
def OccursIn (sub s : GoString) : Prop := ∃ before after, s = before ++ sub ++ after

/-! ## The registrations of a walk -/

/-- One registration the walk attempts: the locale code of a parsed pair, the message id
and the display name. -/
structure Registration where
  locale : GoString
  id : GoString
  name : GoString
  deriving DecidableEq

/-- The registrations of one field of the struct type named `typeName`, in the order of
the pairs of its tag: message id `typeName.FieldName`. -/
def fieldRegistrations (typeName : GoString) (field : StructField) : List Registration :=
  (fieldTranslationSpec field.Tag).map
    (fun p => ⟨p.1, typeName ++ ['.'] ++ field.Name, p.2⟩)

/-- The registrations of the fields still to visit, in walk order: for each field its own
registrations, then those of the record type it leads to; `none` when `recur` gives none
for a nested type. -/
def fieldsRegistrations (env : TypeEnv) (recur : TypeId → Option (List Registration))
    (typeName : GoString) : List StructField → Option (List Registration)
  | [] => some []
  | field :: rest =>
    match nestedStruct env field with
    | none => (fieldsRegistrations env recur typeName rest).map
        (fun regs => fieldRegistrations typeName field ++ regs)
    | some nestedType =>
      match recur nestedType, fieldsRegistrations env recur typeName rest with
      | some nested, some regs => some (fieldRegistrations typeName field ++ nested ++ regs)
      | _, _ => none

/-- The registrations the walk from the type `t` attempts when no registration is
refused, in walk order; `none` when the walk is deeper than `fuel`. -/
def walkRegistrations (env : TypeEnv) : Nat → TypeId → Option (List Registration)
  | 0, _ => none
  | fuel + 1, t =>
    let t := derefOnce env t
    if (env t).Kind ≠ Kind.Struct then some []
    else fieldsRegistrations env (walkRegistrations env fuel) (env t).Name (env t).Fields

/-- The registrations the loop over `fields` attempts when none is refused, as far as
`recur` follows the nested walks, and whether the loop is followed to its end. -/
def fieldsAttempts (env : TypeEnv) (recur : TypeId → List Registration × Bool)
    (typeName : GoString) : List StructField → List Registration × Bool
  | [] => ([], true)
  | field :: rest =>
    match nestedStruct env field with
    | none =>
      let others := fieldsAttempts env recur typeName rest
      (fieldRegistrations typeName field ++ others.1, others.2)
    | some nestedType =>
      let nested := recur nestedType
      if nested.2 then
        let others := fieldsAttempts env recur typeName rest
        (fieldRegistrations typeName field ++ nested.1 ++ others.1, others.2)
      else (fieldRegistrations typeName field ++ nested.1, false)

/-- The registrations the walk from the type `t` attempts when none is refused, in walk
order, as far as `fuel` levels of recursion follow it, and whether that is the whole
walk. For a type that reaches itself the walk has no end and every `fuel` gives a longer
beginning of it. -/
def walkAttempts (env : TypeEnv) : Nat → TypeId → List Registration × Bool
  | 0, _ => ([], false)
  | fuel + 1, t =>
    let t := derefOnce env t
    if (env t).Kind ≠ Kind.Struct then ([], true)
    else fieldsAttempts env (walkAttempts env fuel) (env t).Name (env t).Fields

/-- The record type `s` is reached from the record type `t` by the descents of the walk:
through the fields on which `nestedStruct` finds a record type. -/
inductive Reaches (env : TypeEnv) : TypeId → TypeId → Prop
  | here (t : TypeId) : Reaches env t t
  | through (t : TypeId) (field : StructField) (nestedType s : TypeId) :
      field ∈ (env t).Fields → nestedStruct env field = some nestedType →
      Reaches env nestedType s → Reaches env t s

/-- A field leads to the record type `n`, in the words of the specification: the field is
struct-typed and `n` is its type, or the field is pointer-to-struct-typed and `n` is the
struct its type points to. -/
def LeadsTo (env : TypeEnv) (field : StructField) (n : TypeId) : Prop :=
  ((env field.Typ).Kind = Kind.Struct ∧ n = field.Typ) ∨
    ((env field.Typ).Kind = Kind.Pointer ∧ (env (env field.Typ).Elem).Kind = Kind.Struct ∧
      n = (env field.Typ).Elem)

/-- The record type `s` is `t` or is reached from `t`, in the words of the specification:
recursively through struct-typed or pointer-to-struct-typed fields. -/
inductive ReachedThroughFields (env : TypeEnv) : TypeId → TypeId → Prop
  | self (t : TypeId) : ReachedThroughFields env t t
  | field (t : TypeId) (f : StructField) (n s : TypeId) :
      f ∈ (env t).Fields → LeadsTo env f n →
      ReachedThroughFields env n s → ReachedThroughFields env t s

/-- Attempting one registration: nothing for a locale code without a context, else
`trans.Add(id, name, true)` on the context of the locale. -/
def applyRegistration (rt : Runtime) (translators : Translators) (r : Registration) :
    Translators × Option ExternalError :=
  match mapLookup translators r.locale with
  | none => (translators, none)
  | some tr =>
    let res := tr.Add rt.refuse r.id r.name true
    (mapStore translators r.locale res.1, res.2)

/-- Attempting registrations in order, stopping at the first refusal. -/
def applyRegistrations (rt : Runtime) :
    Translators → List Registration → Translators × Option ExternalError
  | translators, [] => (translators, none)
  | translators, r :: rest =>
    match applyRegistration rt translators r with
    | (translators', some err) => (translators', some err)
    | (translators', none) => applyRegistrations rt translators' rest

/-- The effect of an accepted registration: the display name is stored under the message
id in the context of the locale, if the locale has one. -/
def storeRegistration (translators : Translators) (r : Registration) : Translators :=
  match mapLookup translators r.locale with
  | none => translators
  | some tr => mapStore translators r.locale ⟨tr.locale, mapStore tr.translations r.id r.name⟩

/-! ## The namespace of a violation -/

/-- Modelled from the spec: the namespace `fe.StructNamespace()` the rule engine reports
for a violation, "fully-qualified field namespace (`TypeName.FieldName`, recursively
qualified for nested structures)": the name of the validated record type, then the names
of the fields on the path down to the violated field, joined by dots. -/
def structNamespace (typeName : GoString) (path : List GoString) : GoString :=
  Join (typeName :: path) ['.']

/-! ## The scenario of `i18nvalidate_test.go`

`User` is the test's DTO. `Address` and `Customer` add a nested record. -/

/-- Type identities of the scenario: `string`, `User`, `*User`, `Address`, `Customer`. -/
def exTypes : TypeEnv
  | 1 => ⟨Kind.Struct, "User".toList, 0,
      [⟨"FirstName".toList, "en:First Name;pt:Primeiro Nome".toList, 0⟩,
       ⟨"Email".toList, "en:Email;pt:E-mail".toList, 0⟩]⟩
  | 2 => ⟨Kind.Pointer, [], 1, []⟩
  | 3 => ⟨Kind.Struct, "Address".toList, 0,
      [⟨"Street".toList, "en:Street Name".toList, 0⟩]⟩
  | 4 => ⟨Kind.Struct, "Customer".toList, 0,
      [⟨"Name".toList, "en:Full Name".toList, 0⟩, ⟨"Address".toList, [], 3⟩]⟩
  | _ => ⟨Kind.Other, "string".toList, 0, []⟩

/-- A translation engine that never refuses a registration. -/
def exRuntime : Runtime := ⟨exTypes, fun _ _ _ _ => none⟩

/-- The engine's rendering of a `required` violation on `field`: the template registered
under `required` in the context with `{0}` replaced by the field name, or the engine's
untranslated text. -/
def exRequired (ns field : GoString) : validator.FieldError :=
  ⟨ns, field, fun tr =>
    match tr.bind (fun t => t.T "required".toList) with
    | some template => Replace template "{0}".toList field 1
    | none => "Field validation for '".toList ++ field ++ "' failed on the 'required' tag".toList⟩

/-- The rule engine of the scenario: every field is `required`, and a value with
contents `0` is the zero value of its type. -/
def exEngine : validator.Validate :=
  ⟨fun d =>
    if d.val = 0 then
      match d.typ with
      | 1 | 2 => some (.ValidationErrors
          [exRequired "User.FirstName".toList "FirstName".toList,
           exRequired "User.Email".toList "Email".toList])
      | 3 => some (.ValidationErrors [exRequired "Address.Street".toList "Street".toList])
      | 4 => some (.ValidationErrors
          [exRequired "Customer.Name".toList "Name".toList,
           exRequired "Customer.Address.Street".toList "Street".toList])
      | _ => some (.other ⟨"validator: (nil string)".toList⟩)
    else none⟩

/-- The callback of a locale: registers the template of `required`. -/
def exRegister (template : GoString) :
    validator.Validate → ut.Translator → validator.Validate × ut.Translator × Option ExternalError :=
  fun v tr => (v, (tr.Add (fun _ _ _ _ => none) "required".toList template false).1, none)

/-- The entries of `newTestValidator`: English and Portuguese. -/
def exEntries : List Translator :=
  [⟨"en".toList, exRegister "{0} is a required field".toList⟩,
   ⟨"pt".toList, exRegister "{0} é um campo obrigatório".toList⟩]

/-- The Validator `newTestValidator` builds: `New("en", en, pt)`. -/
def exValidator : I18nValidate.Validator :=
  ⟨exEngine,
    [("en".toList, ⟨"en".toList, [("required".toList, "{0} is a required field".toList)]⟩),
     ("pt".toList, ⟨"pt".toList, [("required".toList, "{0} é um campo obrigatório".toList)]⟩)],
    "en".toList, []⟩

/-- The Validator of the scenario after the first validation of a `User`: the display
names of both fields are registered in both contexts and `User` is marked. -/
def exValidatorUser : I18nValidate.Validator :=
  ⟨exEngine,
    [("en".toList, ⟨"en".toList,
        [("required".toList, "{0} is a required field".toList),
         ("User.FirstName".toList, "First Name".toList),
         ("User.Email".toList, "Email".toList)]⟩),
     ("pt".toList, ⟨"pt".toList,
        [("required".toList, "{0} é um campo obrigatório".toList),
         ("User.FirstName".toList, "Primeiro Nome".toList),
         ("User.Email".toList, "E-mail".toList)]⟩)],
    "en".toList, [1]⟩

/-- The English context of `exValidatorUser`. -/
def exEnglishUser : ut.Translator :=
  ⟨"en".toList,
    [("required".toList, "{0} is a required field".toList),
     ("User.FirstName".toList, "First Name".toList),
     ("User.Email".toList, "Email".toList)]⟩

/-- The violations the engine reports on the zero `User`. -/
def exUserViolations : List validator.FieldError :=
  [exRequired "User.FirstName".toList "FirstName".toList,
   exRequired "User.Email".toList "Email".toList]

/-- The Portuguese context of `exValidatorUser`. -/
def exPortugueseUser : ut.Translator :=
  ⟨"pt".toList,
    [("required".toList, "{0} é um campo obrigatório".toList),
     ("User.FirstName".toList, "Primeiro Nome".toList),
     ("User.Email".toList, "E-mail".toList)]⟩

/-- The engine's rendering of an `email` violation on `field`. -/
def exEmail (ns field : GoString) : validator.FieldError :=
  ⟨ns, field, fun _ => field ++ " must be a valid email address".toList⟩

/-- Violations with a repeated namespace: `required` and then `email` on `User.Email`. -/
def exTwice : List validator.FieldError :=
  [exRequired "User.Email".toList "Email".toList, exEmail "User.Email".toList "Email".toList]

/-- The scenario with a rule engine that reports `exTwice` on every value. -/
def exValidatorTwice : I18nValidate.Validator :=
  { exValidator with Validator := ⟨fun _ => some (.ValidationErrors exTwice)⟩ }

/-- The Validator `exValidatorTwice` after the first validation of a `User`. -/
def exValidatorTwiceUser : I18nValidate.Validator :=
  { exValidatorUser with Validator := ⟨fun _ => some (.ValidationErrors exTwice)⟩ }

/-- The engine's rendering of a violation on `User.Email` through a template that does
not name the field, as a callback may register one: `must be a valid address`. -/
def exPlain : validator.FieldError :=
  ⟨"User.Email".toList, "Email".toList, fun _ => "must be a valid address".toList⟩

/-- The scenario with a rule engine that reports `exPlain` on every value. -/
def exValidatorPlain : I18nValidate.Validator :=
  { exValidator with Validator := ⟨fun _ => some (.ValidationErrors [exPlain])⟩ }

/-- The Validator `exValidatorPlain` after the first validation of a `User`. -/
def exValidatorPlainUser : I18nValidate.Validator :=
  { exValidatorUser with Validator := ⟨fun _ => some (.ValidationErrors [exPlain])⟩ }

/-- The Validator of the scenario after the first validation of a `Customer`: the walk
registered `Customer.Name` and, for the nested record, `Address.Street`, in the English
context; the tags name no Portuguese display name. -/
def exValidatorCustomer : I18nValidate.Validator :=
  ⟨exEngine,
    [("en".toList, ⟨"en".toList,
        [("required".toList, "{0} is a required field".toList),
         ("Customer.Name".toList, "Full Name".toList),
         ("Address.Street".toList, "Street Name".toList)]⟩),
     ("pt".toList, ⟨"pt".toList,
        [("required".toList, "{0} é um campo obrigatório".toList)]⟩)],
    "en".toList, [4]⟩

/-- The scenario with an `Order` (type 10), which holds its `Customer` through a pointer
(`Buyer *Customer`, type 11) and a `Note`. -/
def exTypesOrder : TypeEnv
  | 10 => ⟨Kind.Struct, "Order".toList, 0,
      [⟨"Buyer".toList, "en:Buyer".toList, 11⟩, ⟨"Note".toList, "pt:Nota".toList, 0⟩]⟩
  | 11 => ⟨Kind.Pointer, [], 4, []⟩
  | n => exTypes n

/-- The scenario with an `Order` and a translation engine that never refuses. -/
def exRuntimeOrder : Runtime := ⟨exTypesOrder, fun _ _ _ _ => none⟩

/-- The registrations of the walk from `Order`, in walk order: `Order.Buyer`, then behind
the pointer `Customer.Name` and `Address.Street`, then `Order.Note`. -/
def exOrderRegistrations : List Registration :=
  [⟨"en".toList, "Order.Buyer".toList, "Buyer".toList⟩,
   ⟨"en".toList, "Customer.Name".toList, "Full Name".toList⟩,
   ⟨"en".toList, "Address.Street".toList, "Street Name".toList⟩,
   ⟨"pt".toList, "Order.Note".toList, "Nota".toList⟩]

/-- The Validator of the scenario after the first validation of an `Order`. -/
def exValidatorOrder : I18nValidate.Validator :=
  ⟨exEngine,
    [("en".toList, ⟨"en".toList,
        [("required".toList, "{0} is a required field".toList),
         ("Order.Buyer".toList, "Buyer".toList),
         ("Customer.Name".toList, "Full Name".toList),
         ("Address.Street".toList, "Street Name".toList)]⟩),
     ("pt".toList, ⟨"pt".toList,
        [("required".toList, "{0} é um campo obrigatório".toList),
         ("Order.Note".toList, "Nota".toList)]⟩)],
    "en".toList, [10]⟩

/-- A callback that fails: it leaves the engine and the context alone and returns an
error. -/
def exFailingRegister :
    validator.Validate → ut.Translator → validator.Validate × ut.Translator × Option ExternalError :=
  fun v tr => (v, tr, some ⟨"unknown tag".toList⟩)

/-- Entries whose second callback fails: English, Portuguese (failing), Spanish. -/
def exEntriesFailing : List Translator :=
  [⟨"en".toList, exRegister "{0} is a required field".toList⟩,
   ⟨"pt".toList, exFailingRegister⟩,
   ⟨"es".toList, exRegister "{0} es un campo requerido".toList⟩]

/-! ## A scenario with refused registrations and with types that reach themselves -/

/-- The types of the first scenario and: `Product`, whose field `Title` has a Portuguese
display name with an unmatched brace; `Node`, which holds a `*Node`; `BadNode`, which
holds a `*BadNode` after a field whose display name has an unmatched brace. -/
def exTypes2 : TypeEnv
  | 5 => ⟨Kind.Struct, "Product".toList, 0,
      [⟨"Title".toList, "en:Title;pt:\x7bTítulo".toList, 0⟩,
       ⟨"Price".toList, "en:Price".toList, 0⟩]⟩
  | 6 => ⟨Kind.Struct, "Node".toList, 0,
      [⟨"Label".toList, "en:Label".toList, 0⟩, ⟨"Next".toList, [], 7⟩]⟩
  | 7 => ⟨Kind.Pointer, [], 6, []⟩
  | 8 => ⟨Kind.Struct, "BadNode".toList, 0,
      [⟨"Label".toList, "en:\x7bLabel".toList, 0⟩, ⟨"Next".toList, [], 9⟩]⟩
  | 9 => ⟨Kind.Pointer, [], 8, []⟩
  | n => exTypes n

/-- A translation engine that refuses a text whose numbers of `{` and `}` differ. -/
def exBraces : AddFailure :=
  fun _ _ text _ =>
    if text.count '{' ≠ text.count '}' then some ⟨"missing bracket".toList⟩ else none

/-- The run environment with `exTypes2` and the brace check. -/
def exRuntimeBraces : Runtime := ⟨exTypes2, exBraces⟩

/-- The run environment with `exTypes2` and an engine that never refuses. -/
def exRuntime2 : Runtime := ⟨exTypes2, fun _ _ _ _ => none⟩

/-- The Validator of the scenario after the failed first registration of `Product`: the
English name of `Title` is stored, the refused Portuguese one and the name of `Price`
are not, and `Product` is marked. -/
def exValidatorProduct : I18nValidate.Validator :=
  ⟨exEngine,
    [("en".toList, ⟨"en".toList,
        [("required".toList, "{0} is a required field".toList),
         ("Product.Title".toList, "Title".toList)]⟩),
     ("pt".toList, ⟨"pt".toList,
        [("required".toList, "{0} é um campo obrigatório".toList)]⟩)],
    "en".toList, [5]⟩

/-- The Validator of the scenario after the failed first registration of `BadNode`: no
display name is stored and `BadNode` is marked. -/
def exValidatorBadNode : I18nValidate.Validator :=
  { exValidator with registeredTypes := [8] }

/-! ## `ValidationErrors.Error` -/

/-- The method `Error()` of `*ValidationErrors`: the messages collected by
`for _, msg := range v.TranslatedErrors` and joined with `"; "`. Go leaves the order of a
map iteration open; `order` is the order in which this run yields the entries, some
arrangement of the entries of the map. The second component is the receiver after the
call. -/
def ValidationErrors.Error (v : I18nValidate.ValidationErrors)
    (order : List (GoString × GoString)) : GoString × I18nValidate.ValidationErrors :=
  let msgs := order.foldl (fun msgs entry => msgs ++ [entry.2]) []
  (Join msgs "; ".toList, v)

/-! ## Sequences of calls -/

/-- A call on a Validator with non-nil data: `registerFieldTranslations(d)` or
`Validate(d, lang...)`. -/
inductive Call
  | register (d : AnyValue)
  | validate (d : AnyValue) (lang : List GoString)

/-- The data of a call. -/
def Call.data : Call → AnyValue
  | .register d => d
  | .validate d _ => d

/-- Making one call: the Validator afterwards and the returned error. -/
def Validator.call (rt : Runtime) (fuel : Nat) (v : I18nValidate.Validator) :
    Call → Except Abort (I18nValidate.Validator × Option GoError)
  | .register d => v.registerFieldTranslations rt fuel (some d)
  | .validate d lang => v.Validate rt fuel (some d) lang

/-- Making calls one after the other: the Validator after the last one and the errors
returned, in order. -/
def runCalls (rt : Runtime) (fuel : Nat) :
    I18nValidate.Validator → List Call →
    Except Abort (I18nValidate.Validator × List (Option GoError))
  | v, [] => .ok (v, [])
  | v, c :: rest =>
    match v.call rt fuel c with
    | .error a => .error a
    | .ok (v1, res) =>
      match runCalls rt fuel v1 rest with
      | .error a => .error a
      | .ok (v2, results) => .ok (v2, res :: results)

/-- The Portuguese context of the scenario before any field name is registered. -/
def exPortuguese : ut.Translator :=
  ⟨"pt".toList, [("required".toList, "{0} é um campo obrigatório".toList)]⟩

/-! ## The fields a walk visits -/

/-- The fields the loop over the fields still to visit of the struct type `t` visits, in
order, each with the type that declares it: the field, then the fields the walk of the
record type it leads to visits; `none` when `recur` gives none for a nested type. -/
def fieldsVisits (env : TypeEnv) (recur : TypeId → Option (List (TypeId × StructField)))
    (t : TypeId) : List StructField → Option (List (TypeId × StructField))
  | [] => some []
  | field :: rest =>
    match nestedStruct env field with
    | none => (fieldsVisits env recur t rest).map (fun visits => (t, field) :: visits)
    | some nestedType =>
      match recur nestedType, fieldsVisits env recur t rest with
      | some nested, some visits => some ((t, field) :: nested ++ visits)
      | _, _ => none

/-- The fields the walk from the type `t` visits when no registration is refused, in walk
order; `none` when the walk is deeper than `fuel`. -/
def walkVisits (env : TypeEnv) : Nat → TypeId → Option (List (TypeId × StructField))
  | 0, _ => none
  | fuel + 1, t =>
    let t := derefOnce env t
    if (env t).Kind ≠ Kind.Struct then some []
    else fieldsVisits env (walkVisits env fuel) t (env t).Fields

/-- The number of paths of at most `fuel - 1` fields that lead from the record type `t` to
the record type `s`, each step going from a record type through one of its fields to the
record type that field leads to. -/
def countPaths (env : TypeEnv) : Nat → TypeId → TypeId → Nat
  | 0, _, _ => 0
  | fuel + 1, t, s =>
    (if t = s then 1 else 0) +
      (((env t).Fields.filterMap (nestedStruct env)).map (fun n => countPaths env fuel n s)).sum

/-- The field graph below `t` has no cycle: a rank decreases along every edge from a
record type reached from `t` to the record type one of its fields leads to. -/
def Acyclic (env : TypeEnv) (t : TypeId) : Prop :=
  ∃ rank : TypeId → Nat, ∀ s field n, Reaches env t s → field ∈ (env s).Fields →
    nestedStruct env field = some n → rank n < rank s

/-- The record type `t` reaches itself through at least one field. -/
def ReachesItself (env : TypeEnv) (t : TypeId) : Prop :=
  ∃ field n, field ∈ (env t).Fields ∧ nestedStruct env field = some n ∧ Reaches env n t

/-! ## Facts about the string functions -/

theorem Index_singleton_cons (c x : Char) (s : GoString) :
    Index (x :: s) [c] = if x = c then some 0 else (Index s [c]).map (· + 1) := by
  by_cases h : x = c
  · subst h; simp [Index, List.isPrefixOf]
  · have h' : ¬ c = x := fun e => h e.symm
    simp [Index, List.isPrefixOf, h, h']

theorem Index_singleton_none (c : Char) (s : GoString) :
    Index s [c] = none ↔ c ∉ s := by
  induction s with
  | nil => simp [Index]
  | cons x s ih =>
    rw [Index_singleton_cons]
    by_cases h : x = c
    · subst h; simp
    · have h' : ¬ c = x := fun e => h e.symm
      simp [h, h', ih]

theorem Index_singleton_some (c : Char) (s : GoString) (m : Nat) (h : Index s [c] = some m) :
    s.take m = s.takeWhile (fun x => x != c) ∧
      s.drop (m + 1) = (s.dropWhile (fun x => x != c)).tail ∧
      s = s.take m ++ c :: s.drop (m + 1) ∧ c ∉ s.take m := by
  induction s generalizing m with
  | nil => simp [Index] at h
  | cons x s ih =>
    rw [Index_singleton_cons] at h
    by_cases hx : x = c
    · subst hx
      simp at h
      subst h
      simp
    · simp only [hx, if_false] at h
      cases hi : Index s [c] with
      | none => simp [hi] at h
      | some k =>
        simp [hi] at h
        subst h
        obtain ⟨h1, h2, h3, h4⟩ := ih k hi
        have hx' : ¬ c = x := fun e => hx e.symm
        refine ⟨?_, ?_, ?_, ?_⟩
        · have hb : (x != c) = true := by simp [hx]
          simp [List.takeWhile, hb, h1]
        · have hb : (x != c) = true := by simp [hx]
          simp [List.dropWhile, hb, h2]
        · simpa using h3
        · simp [hx', h4]

theorem splitOn_no_sep (c : Char) (s : GoString) (h : c ∉ s) : s.splitOn c = [s] := by
  unfold List.splitOn
  apply List.splitOnP_eq_single
  intro x hx hxc
  have : x = c := by simpa using hxc
  exact h (this ▸ hx)

theorem splitOn_first_sep (c : Char) (pre rest : GoString) (h : c ∉ pre) :
    (pre ++ c :: rest).splitOn c = pre :: rest.splitOn c := by
  unfold List.splitOn
  apply List.splitOnP_first
  · intro x hx hxc
    have : x = c := by simpa using hxc
    exact h (this ▸ hx)
  · simp

theorem count_split (c : Char) (pre rest : GoString) (h : c ∉ pre) :
    (pre ++ c :: rest).count c = rest.count c + 1 := by
  simp [List.count_append, List.count_eq_zero_of_not_mem h]

theorem genSplitLoop_singleton (c : Char) (k : Nat) (s : GoString) (h : s.count c ≤ k) :
    genSplitLoop k s [c] = s.splitOn c := by
  induction k generalizing s with
  | zero =>
    have hc : c ∉ s := by
      intro hm
      have := List.count_pos_iff.mpr hm
      omega
    simp [genSplitLoop, splitOn_no_sep c s hc]
  | succ k ih =>
    unfold genSplitLoop
    cases hi : Index s [c] with
    | none =>
      have hc : c ∉ s := (Index_singleton_none c s).mp hi
      simp [splitOn_no_sep c s hc]
    | some m =>
      obtain ⟨_, _, h3, h4⟩ := Index_singleton_some c s m hi
      have hcount : (s.drop (m + 1)).count c ≤ k := by
        have := count_split c (s.take m) (s.drop (m + 1)) h4
        rw [← h3] at this
        omega
      simp only [List.length_singleton]
      rw [ih _ hcount]
      conv_rhs => rw [h3]
      rw [splitOn_first_sep c _ _ h4]

theorem countLoop_singleton (c : Char) (fuel : Nat) (s : GoString) (n : Nat)
    (h : s.length < fuel) : countLoop fuel s [c] n = n + s.count c := by
  induction fuel generalizing s n with
  | zero => omega
  | succ fuel ih =>
    unfold countLoop
    cases hi : Index s [c] with
    | none =>
      have hc : c ∉ s := (Index_singleton_none c s).mp hi
      simp [List.count_eq_zero_of_not_mem hc]
    | some m =>
      obtain ⟨_, _, h3, h4⟩ := Index_singleton_some c s m hi
      have hcount := count_split c (s.take m) (s.drop (m + 1)) h4
      rw [← h3] at hcount
      have hlen : (s.drop (m + 1)).length < fuel := by
        have : s.length = (s.take m).length + ((s.drop (m + 1)).length + 1) := by
          conv_lhs => rw [h3]
          simp
        omega
      simp only [List.length_singleton]
      rw [ih _ _ hlen, hcount]
      omega

theorem Count_singleton (c : Char) (s : GoString) : Count s [c] = s.count c := by
  simp [Count, countLoop_singleton c (s.length + 1) s 0 (by omega)]

theorem Split_singleton (c : Char) (s : GoString) : Split s [c] = s.splitOn c := by
  have hle : s.count c ≤ s.length := List.count_le_length _ _
  simp only [Split, genSplit, Count_singleton]
  simp
  have : ¬ (s.length < s.count c) := by omega
  simp [this]
  exact genSplitLoop_singleton c _ s (le_refl _)

/-! ## The trimming of the specification and `strings.TrimSpace` -/

theorem isSpace_eq_specWhiteSpace (c : Char) : isSpace c = specWhiteSpace c := by
  unfold isSpace specWhiteSpace specWhiteSpaceCodePoints
  generalize c.toNat = n
  rw [Bool.eq_iff_iff]
  simp only [decide_eq_true_eq, List.mem_cons, List.mem_singleton,
    List.not_mem_nil, or_false]
  omega

theorem dropWhile_isSpace_eq_specTrimLeft (s : GoString) :
    s.dropWhile isSpace = specTrimLeft s := by
  induction s with
  | nil => rfl
  | cons c s ih =>
    simp only [List.dropWhile_cons, specTrimLeft, isSpace_eq_specWhiteSpace, ← ih]
    
theorem reverse_dropWhile_isSpace_eq_specTrimRight (s : GoString) :
    (s.reverse.dropWhile isSpace).reverse = specTrimRight s := by
  induction s with
  | nil => rfl
  | cons c s ih =>
    have hstep : specTrimRight (c :: s) =
        match specTrimRight s with
        | [] => if specWhiteSpace c then [] else [c]
        | x :: t => c :: x :: t := rfl
    rw [hstep, ← ih, List.reverse_cons, List.dropWhile_append]
    rcases hd : List.dropWhile isSpace s.reverse with _ | ⟨y, ys⟩
    · simp only [List.isEmpty_nil, if_true, List.reverse_nil, List.dropWhile_cons,
        List.dropWhile_nil, isSpace_eq_specWhiteSpace]
      cases specWhiteSpace c <;> simp
    · have hne : (ys.reverse ++ [y]) ≠ [] := by simp
      rcases hr : (ys.reverse ++ [y]) with _ | ⟨x, t⟩
      · exact absurd hr hne
      · simp [hr]

theorem TrimSpace_eq_specTrim (s : GoString) : TrimSpace s = specTrim s := by
  unfold TrimSpace specTrim
  rw [reverse_dropWhile_isSpace_eq_specTrimRight, dropWhile_isSpace_eq_specTrimLeft]

theorem specTrimLeft_head (s : GoString) (c : Char) (h : (specTrimLeft s).head? = some c) :
    specWhiteSpace c = false := by
  induction s with
  | nil => simp [specTrimLeft] at h
  | cons x s ih =>
    unfold specTrimLeft at h
    by_cases hx : specWhiteSpace x = true
    · rw [if_pos hx] at h; exact ih h
    · rw [if_neg hx] at h
      simp at h; subst h; simpa using hx

theorem specTrimRight_getLast (s : GoString) (c : Char)
    (h : (specTrimRight s).getLast? = some c) : specWhiteSpace c = false := by
  induction s with
  | nil => simp [specTrimRight] at h
  | cons x s ih =>
    have hstep : specTrimRight (x :: s) =
        match specTrimRight s with
        | [] => if specWhiteSpace x then [] else [x]
        | y :: t => x :: y :: t := rfl
    rw [hstep] at h
    rcases hr : specTrimRight s with _ | ⟨y, t⟩
    · rw [hr] at h
      by_cases hx : specWhiteSpace x = true
      · simp [hx] at h
      · simp [hx] at h; subst h; simpa using hx
    · rw [hr] at h ih
      simp only [] at h
      rw [List.getLast?_cons_cons] at h
      exact ih h

theorem specTrimRight_head (s : GoString) (c : Char)
    (hs : ∀ x, s.head? = some x → specWhiteSpace x = false)
    (h : (specTrimRight s).head? = some c) : specWhiteSpace c = false := by
  cases s with
  | nil => simp [specTrimRight] at h
  | cons x s =>
    have hstep : specTrimRight (x :: s) =
        match specTrimRight s with
        | [] => if specWhiteSpace x then [] else [x]
        | y :: t => x :: y :: t := rfl
    rw [hstep] at h
    have hx := hs x rfl
    rcases hr : specTrimRight s with _ | ⟨y, t⟩
    · rw [hr] at h; simp [hx] at h; subst h; exact hx
    · rw [hr] at h; simp at h; subst h; exact hx

theorem specTrim_Trimmed (s : GoString) : Trimmed (specTrim s) :=
  ⟨fun c h => specTrimRight_head _ c (specTrimLeft_head s) h,
    fun c h => specTrimRight_getLast _ c h⟩

theorem specTrimLeft_split (s : GoString) :
    ∃ l, s = l ++ specTrimLeft s ∧ ∀ c ∈ l, specWhiteSpace c = true := by
  induction s with
  | nil => exact ⟨[], rfl, by simp⟩
  | cons x s ih =>
    unfold specTrimLeft
    by_cases hx : specWhiteSpace x = true
    · rw [if_pos hx]
      obtain ⟨l, hl, hw⟩ := ih
      refine ⟨x :: l, by rw [List.cons_append, ← hl], ?_⟩
      intro c hc
      rcases List.mem_cons.mp hc with h | h
      · rw [h]; exact hx
      · exact hw c h
    · rw [if_neg hx]
      exact ⟨[], rfl, by simp⟩

theorem specTrimRight_split (s : GoString) :
    ∃ r, s = specTrimRight s ++ r ∧ ∀ c ∈ r, specWhiteSpace c = true := by
  induction s with
  | nil => exact ⟨[], rfl, by simp⟩
  | cons x s ih =>
    have hstep : specTrimRight (x :: s) =
        match specTrimRight s with
        | [] => if specWhiteSpace x then [] else [x]
        | y :: t => x :: y :: t := rfl
    rw [hstep]
    obtain ⟨r, hr, hw⟩ := ih
    rcases hts : specTrimRight s with _ | ⟨y, t⟩
    · rw [hts] at hr
      simp only [List.nil_append] at hr
      by_cases hx : specWhiteSpace x = true
      · simp only [hx, if_true, List.nil_append]
        refine ⟨x :: s, rfl, ?_⟩
        intro c hc
        rcases List.mem_cons.mp hc with h | h
        · rw [h]; exact hx
        · exact hw c (hr ▸ h)
      · simp only [hx, if_false, Bool.false_eq_true]
        exact ⟨r, by rw [hr]; rfl, hw⟩
    · rw [hts] at hr
      simp only []
      exact ⟨r, by rw [hr]; rfl, hw⟩

/-- The trimmed text is the text between a run of white space at its beginning and a run
of white space at its end, and is itself trimmed. -/
theorem specTrim_split (s : GoString) :
    ∃ l r, s = l ++ specTrim s ++ r ∧ (∀ c ∈ l, specWhiteSpace c = true) ∧
      (∀ c ∈ r, specWhiteSpace c = true) ∧ Trimmed (specTrim s) := by
  obtain ⟨l, hl, hlw⟩ := specTrimLeft_split s
  obtain ⟨r, hr, hrw⟩ := specTrimRight_split (specTrimLeft s)
  refine ⟨l, r, ?_, hlw, hrw, specTrim_Trimmed s⟩
  unfold specTrim
  rw [List.append_assoc, ← hr, ← hl]

theorem parsePart_eq_specFragment (part : GoString) : parsePart part = specFragment part := by
  unfold parsePart specFragment SplitN genSplit
  simp only [← TrimSpace_eq_specTrim]
  generalize TrimSpace part = f
  cases f with
  | nil => simp [genSplitLoop]
  | cons x f =>
    simp [genSplitLoop]
    cases hi : Index (x :: f) [':'] with
    | none =>
      have hc := (Index_singleton_none ':' (x :: f)).mp hi
      simp at hc
      simp [hc.1, hc.2]
    | some m =>
      obtain ⟨h1, h2, h3, h4⟩ := Index_singleton_some ':' (x :: f) m hi
      have hmem : ':' ∈ x :: f := by
        rw [h3]; simp
      have h2' : (List.dropWhile (fun x => x != ':') (x :: f)).tail = List.drop m f := by
        rw [← h2]; simp
      have h1' : List.takeWhile (fun x => x != ':') (x :: f) = List.take m (x :: f) := h1.symm
      simp at hmem
      simp only [h2', h1']
      simp [hmem, genSplitLoop]

theorem isPrefixOf_iff_append (p s : GoString) :
    p.isPrefixOf s = true ↔ ∃ t, s = p ++ t := by
  induction p generalizing s with
  | nil => simp
  | cons a p ih =>
    cases s with
    | nil => simp [List.isPrefixOf]
    | cons b s =>
      simp only [List.isPrefixOf, Bool.and_eq_true, beq_iff_eq, ih, List.cons_append,
        List.cons.injEq]
      constructor
      · rintro ⟨rfl, t, rfl⟩; exact ⟨t, rfl, rfl⟩
      · rintro ⟨t, rfl, rfl⟩; exact ⟨rfl, t, rfl⟩

theorem Index_some_split (s old : GoString) (j : Nat) (h : Index s old = some j) :
    s = s.take j ++ old ++ s.drop (j + old.length) ∧
      ∀ pre post, s = pre ++ old ++ post → j ≤ pre.length := by
  induction s generalizing j with
  | nil =>
    unfold Index at h
    split at h
    · rename_i ho
      subst ho
      simp at h
      subst h
      simp
    · simp at h
  | cons c s ih =>
    unfold Index at h
    split at h
    · rename_i hp
      simp at h
      subst h
      obtain ⟨t, ht⟩ := (isPrefixOf_iff_append old (c :: s)).mp hp
      refine ⟨?_, fun _ _ _ => Nat.zero_le _⟩
      simp only [List.take_zero, List.nil_append, Nat.zero_add]
      conv_lhs => rw [ht]
      rw [ht, List.drop_left]
    · rename_i hp
      cases hi : Index s old with
      | none => simp [hi] at h
      | some k =>
        simp [hi] at h
        subst h
        obtain ⟨h1, h2⟩ := ih k hi
        refine ⟨?_, ?_⟩
        · simp only [List.take_succ_cons, List.cons_append]
          have : k + 1 + old.length = (k + old.length) + 1 := by omega
          rw [this, List.drop_succ_cons]
          exact congrArg (c :: ·) (by simpa using h1)
        · intro pre post hpre
          cases pre with
          | nil =>
            exfalso
            apply hp
            exact (isPrefixOf_iff_append old (c :: s)).mpr ⟨post, by simpa using hpre⟩
          | cons a pre =>
            simp only [List.cons_append, List.cons.injEq] at hpre
            have := h2 pre post (by simpa using hpre.2)
            simp only [List.length_cons]
            omega

theorem Index_none_no_occurrence (s old : GoString) (h : Index s old = none) :
    ∀ pre post, s ≠ pre ++ old ++ post := by
  induction s with
  | nil =>
    unfold Index at h
    split at h
    · simp at h
    · rename_i ho
      intro pre post e
      have e' := e.symm
      simp only [List.append_eq_nil] at e'
      exact ho e'.1.2
  | cons c s ih =>
    unfold Index at h
    split at h
    · simp at h
    · rename_i hp
      have hi : Index s old = none := by
        cases hi : Index s old with
        | none => rfl
        | some k => simp [hi] at h
      intro pre post e
      cases pre with
      | nil =>
        apply hp
        exact (isPrefixOf_iff_append old (c :: s)).mpr ⟨post, by simpa using e⟩
      | cons a pre =>
        simp only [List.cons_append, List.cons.injEq] at e
        exact ih hi pre post (by simpa using e.2)

theorem Contains_iff (s sub : GoString) :
    Contains s sub = true ↔ ∃ pre post, s = pre ++ sub ++ post := by
  unfold Contains
  cases hi : Index s sub with
  | none =>
    simp only [Option.isSome_none]
    constructor
    · intro h; cases h
    · rintro ⟨pre, post, e⟩
      exact absurd e (Index_none_no_occurrence s sub hi pre post)
  | some j =>
    simp only [Option.isSome_some, true_iff]
    exact ⟨_, _, (Index_some_split s sub j hi).1⟩

theorem countLoop_ge (fuel : Nat) (s old : GoString) (n : Nat) :
    n ≤ countLoop fuel s old n := by
  induction fuel generalizing s n with
  | zero => exact le_refl _
  | succ fuel ih =>
    unfold countLoop
    cases Index s old with
    | none => exact le_refl _
    | some i => exact le_trans (Nat.le_succ n) (ih _ _)

theorem Index_nil_right (s : GoString) : Index s [] = some 0 := by
  cases s with
  | nil => simp [Index]
  | cons c s => simp [Index, List.isPrefixOf]

theorem Count_eq_zero_iff (s old : GoString) : Count s old = 0 ↔ Index s old = none := by
  unfold Count
  by_cases ho : old = []
  · subst ho
    simp [Index_nil_right]
  · simp only [ho, if_false]
    unfold countLoop
    cases hi : Index s old with
    | none => simp
    | some i =>
      simp only [reduceCtorEq, iff_false]
      have := countLoop_ge s.length (s.drop (i + old.length)) old (0 + 1)
      omega

/-- For `n = 1`, `strings.Replace` replaces the leftmost occurrence. -/
theorem Replace_one (s old new : GoString) : Replace s old new 1 = Replace1 s old new := by
  unfold Replace Replace1
  by_cases hon : old = new
  · simp only [hon, true_or, if_true]
  · simp only [hon, one_ne_zero, or_self, if_false]
    cases hi : Index s old with
    | none =>
      have hc := (Count_eq_zero_iff s old).mpr hi
      simp only [hc, if_true]
    | some j =>
      have hc : Count s old ≠ 0 := by
        intro h
        rw [(Count_eq_zero_iff s old).mp h] at hi
        cases hi
      have hn : (if (1 : Int) < 0 ∨ ((Count s old : Nat) : Int) < 1 then Count s old
          else (1 : Int).toNat) = 1 := by
        have h1 : ¬ ((1 : Int) < 0 ∨ ((Count s old : Nat) : Int) < 1) := by omega
        simp only [h1, if_false]
        rfl
      simp only [hc, if_false, hn]
      unfold replaceLoop
      by_cases ho : old = []
      · subst ho
        rw [Index_nil_right] at hi
        cases hi
        simp [replaceLoop]
      · simp only [ho, if_false, hi, Option.getD_some, replaceLoop]

/-! ## Facts about maps -/

theorem mapLookup_mapStore {β : Type} (m : List (GoString × β)) (k k' : GoString) (b : β) :
    mapLookup (mapStore m k b) k' = if k = k' then some b else mapLookup m k' := by
  induction m with
  | nil => simp [mapStore, mapLookup]
  | cons p m ih =>
    obtain ⟨k0, b0⟩ := p
    by_cases h0 : k0 = k
    · subst h0
      by_cases h1 : k0 = k'
      · simp [mapStore, mapLookup, h1]
      · simp [mapStore, mapLookup, h1]
    · by_cases h1 : k0 = k'
      · subst h1
        have h2 : ¬ k = k0 := fun e => h0 e.symm
        simp [mapStore, mapLookup, h0, h2]
      · simp [mapStore, mapLookup, h0, h1, ih]

theorem mapLookup_isSome_iff {β : Type} (m : List (GoString × β)) (k : GoString) :
    (mapLookup m k).isSome ↔ k ∈ m.map Prod.fst := by
  induction m with
  | nil => simp only [mapLookup, List.map_nil, List.not_mem_nil, Option.isSome_none]; decide
  | cons p m ih =>
    obtain ⟨k0, b0⟩ := p
    by_cases h0 : k0 = k
    · simp only [mapLookup, h0, if_true, Option.isSome_some, List.map_cons, List.mem_cons,
        true_or]
    · have h1 : ¬ k = k0 := fun e => h0 e.symm
      simp only [mapLookup, h0, if_false, List.map_cons, List.mem_cons, h1, false_or, ih]

theorem keys_mapStore {β : Type} (m : List (GoString × β)) (k : GoString) (b : β) :
    (mapStore m k b).map Prod.fst =
      if k ∈ m.map Prod.fst then m.map Prod.fst else m.map Prod.fst ++ [k] := by
  induction m with
  | nil => simp only [mapStore, List.map_nil, List.not_mem_nil, if_false, List.map_cons,
      List.nil_append]
  | cons p m ih =>
    obtain ⟨k0, b0⟩ := p
    by_cases h0 : k0 = k
    · subst h0
      simp only [mapStore, if_true, List.map_cons, List.mem_cons, true_or]
    · have h1 : ¬ k = k0 := fun e => h0 e.symm
      simp only [mapStore, h0, if_false, List.map_cons, List.mem_cons, h1, false_or]
      rw [ih]
      split
      · rfl
      · rfl

theorem mem_keys_mapStore {β : Type} (m : List (GoString × β)) (k k' : GoString) (b : β) :
    k' ∈ (mapStore m k b).map Prod.fst ↔ k' = k ∨ k' ∈ m.map Prod.fst := by
  rw [keys_mapStore]
  split
  · constructor
    · intro h; exact Or.inr h
    · rintro (h | h)
      · subst h; assumption
      · exact h
  · rw [List.mem_append, List.mem_singleton]
    exact or_comm

theorem nodup_keys_mapStore {β : Type} (m : List (GoString × β)) (k : GoString) (b : β)
    (h : (m.map Prod.fst).Nodup) : ((mapStore m k b).map Prod.fst).Nodup := by
  rw [keys_mapStore]
  split
  · exact h
  · rename_i hk
    rw [List.nodup_append]
    refine ⟨h, List.nodup_singleton k, ?_⟩
    intro a ha hb
    rw [List.mem_singleton] at hb
    subst hb
    exact hk ha

/-- Storing, in order, the entry `(kf x, vf x)` of every `x` of a list. -/
theorem foldl_store_lookup_other {α β : Type} (kf : α → GoString) (vf : α → β) (l : List α)
    (m : List (GoString × β)) (k : GoString) (h : ∀ x ∈ l, kf x ≠ k) :
    mapLookup (l.foldl (fun m x => mapStore m (kf x) (vf x)) m) k = mapLookup m k := by
  induction l generalizing m with
  | nil => rfl
  | cons x l ih =>
    simp only [List.foldl_cons]
    rw [ih _ (fun y hy => h y (List.mem_cons_of_mem _ hy)), mapLookup_mapStore]
    simp [h x (List.mem_cons_self _ _)]

theorem foldl_store_lookup_last {α β : Type} (kf : α → GoString) (vf : α → β)
    (pre post : List α) (a : α) (m : List (GoString × β)) (h : ∀ x ∈ post, kf x ≠ kf a) :
    mapLookup ((pre ++ a :: post).foldl (fun m x => mapStore m (kf x) (vf x)) m) (kf a) =
      some (vf a) := by
  rw [List.foldl_append, List.foldl_cons, foldl_store_lookup_other kf vf post _ _ h,
    mapLookup_mapStore]
  simp

theorem foldl_store_keys {α β : Type} (kf : α → GoString) (vf : α → β) (l : List α)
    (m : List (GoString × β)) (k : GoString) :
    k ∈ (l.foldl (fun m x => mapStore m (kf x) (vf x)) m).map Prod.fst ↔
      k ∈ m.map Prod.fst ∨ ∃ x ∈ l, kf x = k := by
  induction l generalizing m with
  | nil =>
    simp only [List.foldl_nil, List.not_mem_nil, false_and, exists_false, or_false]
  | cons x l ih =>
    simp only [List.foldl_cons]
    rw [ih, mem_keys_mapStore]
    constructor
    · rintro ((h | h) | ⟨y, hy, hk⟩)
      · exact Or.inr ⟨x, List.mem_cons_self _ _, h.symm⟩
      · exact Or.inl h
      · exact Or.inr ⟨y, List.mem_cons_of_mem _ hy, hk⟩
    · rintro (h | ⟨y, hy, hk⟩)
      · exact Or.inl (Or.inr h)
      · rcases List.mem_cons.mp hy with e | e
        · subst e; exact Or.inl (Or.inl hk.symm)
        · exact Or.inr ⟨y, e, hk⟩

theorem foldl_store_nodup {α β : Type} (kf : α → GoString) (vf : α → β) (l : List α)
    (m : List (GoString × β)) (h : (m.map Prod.fst).Nodup) :
    ((l.foldl (fun m x => mapStore m (kf x) (vf x)) m).map Prod.fst).Nodup := by
  induction l generalizing m with
  | nil => exact h
  | cons x l ih =>
    simp only [List.foldl_cons]
    exact ih _ (nodup_keys_mapStore m _ _ h)

/-! ## C8: the tag grammar -/

theorem mem_of_mem_TrimSpace {c : Char} {s : GoString} (h : c ∈ TrimSpace s) : c ∈ s := by
  unfold TrimSpace at h
  rw [List.mem_reverse] at h
  have h1 := (List.dropWhile_sublist isSpace).subset h
  rw [List.mem_reverse] at h1
  exact (List.dropWhile_sublist isSpace).subset h1

theorem splitOn_fragment_no_sep (c : Char) (s : GoString) :
    ∀ frag ∈ s.splitOn c, c ∉ frag := by
  unfold List.splitOn
  induction s with
  | nil => simp [List.splitOnP_nil]
  | cons x s ih =>
    rw [List.splitOnP_cons]
    by_cases hx : (x == c) = true
    · simp only [hx, if_true]
      intro frag hf
      rcases List.mem_cons.mp hf with h | h
      · subst h; simp
      · exact ih frag h
    · simp only [hx]
      cases hs : List.splitOnP (fun y => y == c) s with
      | nil => exact absurd hs (List.splitOnP_ne_nil _ _)
      | cons h t =>
        rw [hs] at ih
        intro frag hf
        simp [List.modifyHead] at hf
        rcases hf with hf | hf
        · subst hf
          have hxc : ¬ c = x := by
            intro e; apply hx; simp [e]
          have := ih h (by simp)
          simp [hxc, this]
        · exact ih frag (by simp [hf])

theorem specFragment_subset {frag : GoString} {p : GoString × GoString}
    (h : specFragment frag = some p) :
    (∀ c ∈ p.1, c ∈ frag ∧ c ≠ ':') ∧ (∀ c ∈ p.2, c ∈ frag) := by
  unfold specFragment at h
  simp only [← TrimSpace_eq_specTrim] at h
  split at h
  · simp at h
    subst h
    constructor
    · intro c hc
      have h1 := mem_of_mem_TrimSpace hc
      have h2 := List.mem_takeWhile_imp h1
      exact ⟨mem_of_mem_TrimSpace ((List.takeWhile_sublist _).subset h1), by simpa using h2⟩
    · intro c hc
      have h1 := mem_of_mem_TrimSpace hc
      have h2 := List.mem_of_mem_tail h1
      exact mem_of_mem_TrimSpace ((List.dropWhile_sublist _).subset h2)
  · simp at h

theorem specFragment_Trimmed {frag : GoString} {p : GoString × GoString}
    (h : specFragment frag = some p) : Trimmed p.1 ∧ Trimmed p.2 := by
  unfold specFragment at h
  simp only [] at h
  split at h
  · simp only [Option.some.injEq] at h
    subst h
    exact ⟨specTrim_Trimmed _, specTrim_Trimmed _⟩
  · simp at h

/-! ## The merge loop of `Validate` -/

theorem Replace1_FirstReplaced (r s d : GoString) : FirstReplaced r s d (Replace1 r s d) := by
  unfold Replace1
  cases hi : Index r s with
  | none =>
    right
    refine ⟨Index_none_no_occurrence r s hi, ?_⟩
    split <;> rfl
  | some j =>
    left
    obtain ⟨h1, h2⟩ := Index_some_split r s j hi
    refine ⟨r.take j, r.drop (j + s.length), h1, ?_, ?_⟩
    · intro pre' post' e
      have := h2 pre' post' e
      have hl : (r.take j).length ≤ j := by simp
      omega
    · split
      · rename_i hsd
        subst hsd
        exact h1
      · rfl

theorem translateLoop_some (tr : ut.Translator) (verrs : List validator.FieldError)
    (msgs : List (GoString × GoString)) :
    translateLoop (some tr) verrs msgs =
      .ok (verrs.foldl (fun m fe => mapStore m fe.StructNamespace (mergeMessage tr fe)) msgs) := by
  induction verrs generalizing msgs with
  | nil => rfl
  | cons fe rest ih => simp only [translateLoop, List.foldl_cons, ih]

theorem Validate_of_violations (rt : Runtime) (fuel : Nat) (v v1 : I18nValidate.Validator)
    (d : AnyValue) (lang : List GoString) (verrs : List validator.FieldError)
    (tr : ut.Translator)
    (hreg : v.registerFieldTranslations rt fuel (some d) = .ok (v1, none))
    (hstruct : v1.Validator.Struct d = some (.ValidationErrors verrs))
    (htr : v1.resolve lang = some tr) :
    v.Validate rt fuel (some d) lang =
      .ok (v1, some (.validationErrors ⟨verrs,
        verrs.foldl (fun m fe => mapStore m fe.StructNamespace (mergeMessage tr fe)) []⟩)) := by
  simp only [Validator.Validate, hreg, hstruct, htr, translateLoop_some]

theorem mergeMessage_cases (tr : ut.Translator) (fe : validator.FieldError) :
    (∀ dn, tr.T fe.StructNamespace = some dn → dn ≠ [] →
        FirstReplaced (fe.Translate (some tr)) fe.StructField dn (mergeMessage tr fe)) ∧
      (tr.T fe.StructNamespace = none ∨ tr.T fe.StructNamespace = some [] →
        mergeMessage tr fe = fe.Translate (some tr)) := by
  constructor
  · intro dn hT hne
    simp only [mergeMessage, hT, hne, ne_eq, not_false_eq_true, if_true, Replace_one]
    exact Replace1_FirstReplaced _ _ _
  · rintro (hT | hT)
    · simp only [mergeMessage, hT]
    · simp only [mergeMessage, hT, ne_eq, not_true_eq_false, if_false]

/-- C2: when registration succeeds, the engine reports the violations `verrs` and the
resolved context is `tr`, `Validate` returns a `*ValidationErrors`, and the message it
stores when it processes a violation `fe` is the engine's rendering `fe.Translate(tr)`
with the leftmost occurrence of `fe.StructField()` replaced by the display name found
under `fe.StructNamespace()` and nothing else changed, when the lookup succeeds with a
non-empty name; it is the rendering itself when the lookup fails or yields the empty
name. The message is still in the returned map unless a later violation has the same
namespace. -/
theorem Validate_stores_first_replaced (rt : Runtime) (fuel : Nat)
    (v v1 : I18nValidate.Validator) (d : AnyValue) (lang : List GoString)
    (verrs : List validator.FieldError) (tr : ut.Translator)
    (hreg : v.registerFieldTranslations rt fuel (some d) = .ok (v1, none))
    (hstruct : v1.Validator.Struct d = some (.ValidationErrors verrs))
    (htr : v1.resolve lang = some tr) :
    ∃ msgs, v.Validate rt fuel (some d) lang =
        .ok (v1, some (.validationErrors ⟨verrs, msgs⟩)) ∧
      ∀ pre fe post, verrs = pre ++ fe :: post →
        ∃ msgsAt m, translateLoop (some tr) (pre ++ [fe]) [] = .ok msgsAt ∧
          mapLookup msgsAt fe.StructNamespace = some m ∧
          (∀ dn, tr.T fe.StructNamespace = some dn → dn ≠ [] →
            FirstReplaced (fe.Translate (some tr)) fe.StructField dn m) ∧
          (tr.T fe.StructNamespace = none ∨ tr.T fe.StructNamespace = some [] →
            m = fe.Translate (some tr)) ∧
          ((∀ fe' ∈ post, fe'.StructNamespace ≠ fe.StructNamespace) →
            mapLookup msgs fe.StructNamespace = some m) := by
  refine ⟨_, Validate_of_violations rt fuel v v1 d lang verrs tr hreg hstruct htr, ?_⟩
  intro pre fe post hv
  refine ⟨_, mergeMessage tr fe, translateLoop_some tr (pre ++ [fe]) [], ?_, ?_, ?_, ?_⟩
  · exact foldl_store_lookup_last (fun fe => fe.StructNamespace) (mergeMessage tr) pre [] fe []
      (fun x hx => absurd hx (List.not_mem_nil x))
  · exact (mergeMessage_cases tr fe).1
  · exact (mergeMessage_cases tr fe).2
  · intro hpost
    rw [hv]
    exact foldl_store_lookup_last (fun fe => fe.StructNamespace) (mergeMessage tr) pre post fe []
      hpost

theorem exValidator_register_User :
    exValidator.registerFieldTranslations exRuntime 5 (some ⟨1, 0⟩) =
      .ok (exValidatorUser, none) := by
  rfl

theorem exValidatorUser_Struct :
    exValidatorUser.Validator.Struct ⟨1, 0⟩ = some (.ValidationErrors exUserViolations) := by
  rfl

theorem exValidatorUser_resolve_en :
    exValidatorUser.resolve ["en".toList] = some exEnglishUser := by
  rfl

/-- Witness of `Validate_stores_first_replaced`: the zero `User` validated in English. -/
theorem Validate_stores_first_replaced_witness :
    exValidator.registerFieldTranslations exRuntime 5 (some ⟨1, 0⟩) =
        .ok (exValidatorUser, none) ∧
      exValidatorUser.Validator.Struct ⟨1, 0⟩ = some (.ValidationErrors exUserViolations) ∧
      exValidatorUser.resolve ["en".toList] = some exEnglishUser ∧
      ∃ msgs, exValidator.Validate exRuntime 5 (some ⟨1, 0⟩) ["en".toList] =
          .ok (exValidatorUser, some (.validationErrors ⟨exUserViolations, msgs⟩)) ∧
        ∀ pre fe post, exUserViolations = pre ++ fe :: post →
          ∃ msgsAt m, translateLoop (some exEnglishUser) (pre ++ [fe]) [] = .ok msgsAt ∧
            mapLookup msgsAt fe.StructNamespace = some m ∧
            (∀ dn, exEnglishUser.T fe.StructNamespace = some dn → dn ≠ [] →
              FirstReplaced (fe.Translate (some exEnglishUser)) fe.StructField dn m) ∧
            (exEnglishUser.T fe.StructNamespace = none ∨
                exEnglishUser.T fe.StructNamespace = some [] →
              m = fe.Translate (some exEnglishUser)) ∧
            ((∀ fe' ∈ post, fe'.StructNamespace ≠ fe.StructNamespace) →
              mapLookup msgs fe.StructNamespace = some m) :=
  ⟨exValidator_register_User, exValidatorUser_Struct, exValidatorUser_resolve_en,
    Validate_stores_first_replaced exRuntime 5 exValidator exValidatorUser ⟨1, 0⟩
      ["en".toList] exUserViolations exEnglishUser exValidator_register_User
      exValidatorUser_Struct exValidatorUser_resolve_en⟩

/-- The Validator of the scenario is the one `New("en", en, pt)` returns, after both
callbacks ran. -/
theorem exValidator_eq_New :
    (New exEngine "en".toList exEntries).validator = some exValidator ∧
      (New exEngine "en".toList exEntries).err = none ∧
      (New exEngine "en".toList exEntries).calls = [(0, none), (1, none)] :=
  ⟨rfl, rfl, rfl⟩

/-! ## C4, C5: the keys of `TranslatedErrors` -/

theorem mapLookup_of_mem_nodup {β : Type} (m : List (GoString × β)) (k : GoString) (b : β)
    (hnd : (m.map Prod.fst).Nodup) (hmem : (k, b) ∈ m) : mapLookup m k = some b := by
  induction m with
  | nil => exact absurd hmem (List.not_mem_nil _)
  | cons p m ih =>
    obtain ⟨k0, b0⟩ := p
    rw [List.map_cons, List.nodup_cons] at hnd
    rcases List.mem_cons.mp hmem with e | e
    · injection e with e1 e2
      subst e1; subst e2
      simp only [mapLookup, if_true]
    · have hk : k ∈ m.map Prod.fst := List.mem_map.mpr ⟨(k, b), e, rfl⟩
      have hne : ¬ k0 = k := by
        intro e0
        apply hnd.1
        simpa only [e0] using hk
      simp only [mapLookup, hne, if_false]
      exact ih hnd.2 e

/-- C4: when registration succeeds, the engine reports the violations `verrs` and a
context is resolved, `Validate` returns a `*ValidationErrors` whose `TranslatedErrors`
has no key twice, has as keys exactly the namespaces of the reported violations, and has
as many entries as there are distinct namespaces. -/
theorem Validate_keys_are_namespaces (rt : Runtime) (fuel : Nat)
    (v v1 : I18nValidate.Validator) (d : AnyValue) (lang : List GoString)
    (verrs : List validator.FieldError) (tr : ut.Translator)
    (hreg : v.registerFieldTranslations rt fuel (some d) = .ok (v1, none))
    (hstruct : v1.Validator.Struct d = some (.ValidationErrors verrs))
    (htr : v1.resolve lang = some tr) :
    ∃ msgs, v.Validate rt fuel (some d) lang =
        .ok (v1, some (.validationErrors ⟨verrs, msgs⟩)) ∧
      (msgs.map Prod.fst).Nodup ∧
      (∀ k, k ∈ msgs.map Prod.fst ↔ ∃ fe ∈ verrs, fe.StructNamespace = k) ∧
      msgs.length = ((verrs.map (fun fe => fe.StructNamespace)).dedup).length := by
  refine ⟨_, Validate_of_violations rt fuel v v1 d lang verrs tr hreg hstruct htr, ?_⟩
  have hnd := foldl_store_nodup (fun fe : validator.FieldError => fe.StructNamespace)
    (mergeMessage tr) verrs [] List.nodup_nil
  have hkeys : ∀ k, k ∈ (verrs.foldl
      (fun m fe => mapStore m fe.StructNamespace (mergeMessage tr fe)) []).map Prod.fst ↔
      ∃ fe ∈ verrs, fe.StructNamespace = k := by
    intro k
    rw [foldl_store_keys (fun fe : validator.FieldError => fe.StructNamespace)
      (mergeMessage tr) verrs [] k]
    simp only [List.map_nil, List.not_mem_nil, false_or]
  refine ⟨hnd, hkeys, ?_⟩
  have hperm : List.Perm
      ((verrs.foldl (fun m fe => mapStore m fe.StructNamespace (mergeMessage tr fe)) []).map
        Prod.fst)
      ((verrs.map (fun fe => fe.StructNamespace)).dedup) := by
    rw [List.perm_ext_iff_of_nodup hnd (List.nodup_dedup _)]
    intro k
    rw [hkeys k, List.mem_dedup, List.mem_map]
  have := hperm.length_eq
  rw [List.length_map] at this
  exact this

/-- Witness of `Validate_keys_are_namespaces`: the zero `User` validated in Portuguese. -/
theorem Validate_keys_are_namespaces_witness :
    exValidator.registerFieldTranslations exRuntime 5 (some ⟨1, 0⟩) =
        .ok (exValidatorUser, none) ∧
      exValidatorUser.Validator.Struct ⟨1, 0⟩ = some (.ValidationErrors exUserViolations) ∧
      exValidatorUser.resolve ["pt".toList] = some exPortugueseUser ∧
      ∃ msgs, exValidator.Validate exRuntime 5 (some ⟨1, 0⟩) ["pt".toList] =
          .ok (exValidatorUser, some (.validationErrors ⟨exUserViolations, msgs⟩)) ∧
        (msgs.map Prod.fst).Nodup ∧
        (∀ k, k ∈ msgs.map Prod.fst ↔ ∃ fe ∈ exUserViolations, fe.StructNamespace = k) ∧
        msgs.length = ((exUserViolations.map (fun fe => fe.StructNamespace)).dedup).length :=
  ⟨exValidator_register_User, exValidatorUser_Struct, rfl,
    Validate_keys_are_namespaces exRuntime 5 exValidator exValidatorUser ⟨1, 0⟩
      ["pt".toList] exUserViolations exPortugueseUser exValidator_register_User
      exValidatorUser_Struct rfl⟩

/-- C5: when registration succeeds, the engine reports the violations `verrs` and the
resolved context is `tr`, the entry of a namespace in the returned `TranslatedErrors` is
the merged message of the last violation reported with that namespace, and it is the
only entry of that namespace: whatever the map holds under it is that message. -/
theorem Validate_last_violation_wins (rt : Runtime) (fuel : Nat)
    (v v1 : I18nValidate.Validator) (d : AnyValue) (lang : List GoString)
    (verrs : List validator.FieldError) (tr : ut.Translator)
    (hreg : v.registerFieldTranslations rt fuel (some d) = .ok (v1, none))
    (hstruct : v1.Validator.Struct d = some (.ValidationErrors verrs))
    (htr : v1.resolve lang = some tr) :
    ∃ msgs, v.Validate rt fuel (some d) lang =
        .ok (v1, some (.validationErrors ⟨verrs, msgs⟩)) ∧
      ∀ pre fe post, verrs = pre ++ fe :: post →
        (∀ fe' ∈ post, fe'.StructNamespace ≠ fe.StructNamespace) →
        mapLookup msgs fe.StructNamespace = some (mergeMessage tr fe) ∧
          ∀ m, (fe.StructNamespace, m) ∈ msgs → m = mergeMessage tr fe := by
  refine ⟨_, Validate_of_violations rt fuel v v1 d lang verrs tr hreg hstruct htr, ?_⟩
  intro pre fe post hv hpost
  have hlook : mapLookup (verrs.foldl
      (fun m fe => mapStore m fe.StructNamespace (mergeMessage tr fe)) [])
      fe.StructNamespace = some (mergeMessage tr fe) := by
    rw [hv]
    exact foldl_store_lookup_last (fun fe => fe.StructNamespace) (mergeMessage tr) pre post fe []
      hpost
  refine ⟨hlook, ?_⟩
  intro m hm
  have hnd := foldl_store_nodup (fun fe : validator.FieldError => fe.StructNamespace)
    (mergeMessage tr) verrs [] List.nodup_nil
  have := mapLookup_of_mem_nodup _ _ _ hnd hm
  rw [hlook] at this
  exact (Option.some.inj this).symm

/-- Witness of `Validate_last_violation_wins`: an engine that reports two violations of
`User.Email`, validated in English. -/
theorem Validate_last_violation_wins_witness :
    exValidatorTwice.registerFieldTranslations exRuntime 5 (some ⟨1, 0⟩) =
        .ok (exValidatorTwiceUser, none) ∧
      exValidatorTwiceUser.Validator.Struct ⟨1, 0⟩ = some (.ValidationErrors exTwice) ∧
      exValidatorTwiceUser.resolve ["en".toList] = some exEnglishUser ∧
      ∃ msgs, exValidatorTwice.Validate exRuntime 5 (some ⟨1, 0⟩) ["en".toList] =
          .ok (exValidatorTwiceUser, some (.validationErrors ⟨exTwice, msgs⟩)) ∧
        ∀ pre fe post, exTwice = pre ++ fe :: post →
          (∀ fe' ∈ post, fe'.StructNamespace ≠ fe.StructNamespace) →
          mapLookup msgs fe.StructNamespace = some (mergeMessage exEnglishUser fe) ∧
            ∀ m, (fe.StructNamespace, m) ∈ msgs → m = mergeMessage exEnglishUser fe :=
  ⟨rfl, rfl, rfl,
    Validate_last_violation_wins exRuntime 5 exValidatorTwice exValidatorTwiceUser ⟨1, 0⟩
      ["en".toList] exTwice exEnglishUser rfl rfl rfl⟩

/-! ## C1: display name and short name in the stored message -/

theorem Contains_eq_false_iff (s sub : GoString) :
    Contains s sub = false ↔ ∀ pre post, s ≠ pre ++ sub ++ post := by
  constructor
  · intro h pre post e
    have := (Contains_iff s sub).mpr ⟨pre, post, e⟩
    rw [h] at this
    cases this
  · intro h
    cases hc : Contains s sub with
    | false => rfl
    | true =>
      obtain ⟨pre, post, e⟩ := (Contains_iff s sub).mp hc
      exact absurd e (h pre post)

/-- Where an occurrence of `s` lies in `pre ++ d ++ post`: within `pre ++ d`, within
`d ++ post`, or over the whole of `d` with at least one character of `pre` and of
`post`. -/
theorem occurrence_in_replaced (pre d post s : GoString) :
    (∃ a b, pre ++ d ++ post = a ++ s ++ b) ↔
      (∃ a b, pre ++ d = a ++ s ++ b) ∨ (∃ a b, d ++ post = a ++ s ++ b) ∨
        ∃ x y, x ≠ [] ∧ y ≠ [] ∧ (∃ x0, pre = x0 ++ x) ∧ (∃ y0, post = y ++ y0) ∧
          s = x ++ d ++ y := by
  constructor
  · rintro ⟨a, b, e⟩
    rcases List.append_eq_append_iff.mp e with ⟨x, h1, h2⟩ | ⟨x, h1, h2⟩
    · rw [List.append_assoc] at h1
      rcases List.append_eq_append_iff.mp h1 with ⟨y, h3, h4⟩ | ⟨y, h3, h4⟩
      · by_cases hy : y = []
        · subst hy
          right; left
          refine ⟨[], b, ?_⟩
          rw [h2, ← List.append_assoc, h4]
          rfl
        · by_cases hx : x = []
          · subst hx
            left
            refine ⟨a, [], ?_⟩
            rw [h3, h4]
            simp
          · right; right
            exact ⟨y, x, hy, hx, ⟨a, h3⟩, ⟨b, h2⟩, by rw [h4, List.append_assoc]⟩
      · right; left
        refine ⟨y, b, ?_⟩
        rw [h2, ← List.append_assoc, h4]
    · left
      exact ⟨a, x, h1⟩
  · rintro (⟨a, b, e⟩ | ⟨a, b, e⟩ | ⟨x, y, _, _, ⟨x0, hx⟩, ⟨y0, hy⟩, e⟩)
    · exact ⟨a, b ++ post, by rw [e]; simp⟩
    · exact ⟨pre ++ a, b, by rw [List.append_assoc, e]; simp⟩
    · exact ⟨x0, y0, by rw [hx, hy, e]; simp⟩

theorem occurrence_before_is_take (r s before after : GoString) (j : Nat)
    (hi : Index r s = some j) (hr : r = before ++ s ++ after)
    (hleft : ∀ b a, r = b ++ s ++ a → before.length ≤ b.length) :
    r.take j = before ∧ r.drop (j + s.length) = after := by
  obtain ⟨h1, h2⟩ := Index_some_split r s j hi
  have hle : j ≤ before.length := h2 before after hr
  have hge : before.length ≤ (r.take j).length := hleft _ _ h1
  have hlen : (r.take j).length ≤ j := by simp
  have hj : j = before.length := by omega
  subst hj
  constructor
  · rw [hr, List.append_assoc, List.take_left]
  · rw [hr, ← List.length_append, List.drop_left]

theorem mergeMessage_display_name (tr : ut.Translator) (fe : validator.FieldError)
    (dn : GoString) (hT : tr.T fe.StructNamespace = some dn) (hne : dn ≠ []) :
    (OccursIn dn (mergeMessage tr fe) ↔
        OccursIn fe.StructField (fe.Translate (some tr)) ∨
          OccursIn dn (fe.Translate (some tr))) ∧
      (¬ OccursIn fe.StructField (fe.Translate (some tr)) →
        mergeMessage tr fe = fe.Translate (some tr) ∧
          ¬ OccursIn fe.StructField (mergeMessage tr fe)) ∧
      (∀ before after, fe.Translate (some tr) = before ++ fe.StructField ++ after →
        (∀ b a, fe.Translate (some tr) = b ++ fe.StructField ++ a →
          before.length ≤ b.length) →
        mergeMessage tr fe = before ++ dn ++ after ∧
          (OccursIn fe.StructField (mergeMessage tr fe) ↔
            OccursIn fe.StructField (before ++ dn) ∨
              OccursIn fe.StructField (dn ++ after) ∨
              ∃ x y, x ≠ [] ∧ y ≠ [] ∧ (∃ x0, before = x0 ++ x) ∧
                (∃ y0, after = y ++ y0) ∧ fe.StructField = x ++ dn ++ y)) := by
  have hm : mergeMessage tr fe = Replace1 (fe.Translate (some tr)) fe.StructField dn := by
    simp only [mergeMessage, hT, hne, ne_eq, not_false_eq_true, if_true, Replace_one]
  rw [hm]
  generalize fe.Translate (some tr) = r
  generalize fe.StructField = s
  cases hi : Index r s with
  | none =>
    have hR : Replace1 r s dn = r := by
      simp only [Replace1, hi, ite_self]
    have hC : ¬ OccursIn s r := by
      rintro ⟨a, b, e⟩
      exact Index_none_no_occurrence r s hi a b e
    rw [hR]
    refine ⟨?_, (fun _ => ⟨rfl, hC⟩), ?_⟩
    · constructor
      · exact fun h => Or.inr h
      · rintro (h | h)
        · exact absurd h hC
        · exact h
    · intro before after hr _
      exact absurd ⟨before, after, hr⟩ hC
  | some j =>
    obtain ⟨h1, _⟩ := Index_some_split r s j hi
    have hC : OccursIn s r := ⟨_, _, h1⟩
    have hR : Replace1 r s dn = r.take j ++ dn ++ r.drop (j + s.length) := by
      by_cases hsd : s = dn
      · unfold Replace1
        simp only [hsd, if_true]
        rw [hsd] at h1
        exact h1
      · unfold Replace1
        simp only [hsd, if_false, hi]
    rw [hR]
    refine ⟨?_, (fun h => absurd hC h), ?_⟩
    · constructor
      · exact fun _ => Or.inl hC
      · exact fun _ => ⟨_, _, rfl⟩
    · intro before after hr hleft
      obtain ⟨ht, hd⟩ := occurrence_before_is_take r s before after j hi hr hleft
      rw [ht, hd]
      exact ⟨rfl, occurrence_in_replaced _ _ _ _⟩

/-- C1, as amended: when registration succeeds, the engine reports the violations `verrs`
and the resolved context is `tr`, `Validate` returns a `*ValidationErrors`; for a
violation `fe` that is the last reported with its namespace and whose field has a
non-empty display name `dn` in `tr`, with `r` the engine's rendering and `s` the short
name `fe.StructField()`: the stored message contains `dn` exactly when `r` contains `s`
or contains `dn` already. When `s` does not occur in `r`, the stored message is `r` and
is free of `s`. When `s` occurs in `r`, leftmost between the texts `before` and `after`,
the stored message is `before ++ dn ++ after`, and it contains `s` exactly when `s`
occurs in `before ++ dn`, or in `dn ++ after`, or is `dn` with a non-empty end of
`before` in front of it and a non-empty beginning of `after` behind it. -/
theorem Validate_display_name_in_message (rt : Runtime) (fuel : Nat)
    (v v1 : I18nValidate.Validator) (d : AnyValue) (lang : List GoString)
    (verrs : List validator.FieldError) (tr : ut.Translator)
    (hreg : v.registerFieldTranslations rt fuel (some d) = .ok (v1, none))
    (hstruct : v1.Validator.Struct d = some (.ValidationErrors verrs))
    (htr : v1.resolve lang = some tr) :
    ∃ msgs, v.Validate rt fuel (some d) lang =
        .ok (v1, some (.validationErrors ⟨verrs, msgs⟩)) ∧
      ∀ pre fe post dn, verrs = pre ++ fe :: post →
        (∀ fe' ∈ post, fe'.StructNamespace ≠ fe.StructNamespace) →
        tr.T fe.StructNamespace = some dn → dn ≠ [] →
        ∃ m, mapLookup msgs fe.StructNamespace = some m ∧
          (OccursIn dn m ↔
            OccursIn fe.StructField (fe.Translate (some tr)) ∨
              OccursIn dn (fe.Translate (some tr))) ∧
          (¬ OccursIn fe.StructField (fe.Translate (some tr)) →
            m = fe.Translate (some tr) ∧ ¬ OccursIn fe.StructField m) ∧
          (∀ before after, fe.Translate (some tr) = before ++ fe.StructField ++ after →
            (∀ b a, fe.Translate (some tr) = b ++ fe.StructField ++ a →
              before.length ≤ b.length) →
            m = before ++ dn ++ after ∧
              (OccursIn fe.StructField m ↔
                OccursIn fe.StructField (before ++ dn) ∨
                  OccursIn fe.StructField (dn ++ after) ∨
                  ∃ x y, x ≠ [] ∧ y ≠ [] ∧ (∃ x0, before = x0 ++ x) ∧
                    (∃ y0, after = y ++ y0) ∧ fe.StructField = x ++ dn ++ y)) := by
  refine ⟨_, Validate_of_violations rt fuel v v1 d lang verrs tr hreg hstruct htr, ?_⟩
  intro pre fe post dn hv hpost hT hne
  refine ⟨mergeMessage tr fe, ?_, mergeMessage_display_name tr fe dn hT hne⟩
  rw [hv]
  exact foldl_store_lookup_last (fun fe => fe.StructNamespace) (mergeMessage tr) pre post fe []
    hpost

/-- Witness of `Validate_display_name_in_message`: the zero `User` validated by pointer,
in English and in Portuguese, as in the tests. The message stored for `User.FirstName`
contains the display name (`First Name`, `Primeiro Nome`) and is free of the short name
`FirstName`: the rendering begins with the short name, which occurs neither in the
display name nor in the display name followed by the rest of the rendering. -/
theorem Validate_display_name_in_message_witness :
    (exValidator.registerFieldTranslations exRuntime 5 (some ⟨2, 0⟩) =
        .ok (exValidatorUser, none) ∧
      exValidatorUser.Validator.Struct ⟨2, 0⟩ = some (.ValidationErrors exUserViolations) ∧
      exValidatorUser.resolve ["en".toList] = some exEnglishUser ∧
      ∃ msgs, exValidator.Validate exRuntime 5 (some ⟨2, 0⟩) ["en".toList] =
          .ok (exValidatorUser, some (.validationErrors ⟨exUserViolations, msgs⟩)) ∧
        ∃ m, mapLookup msgs "User.FirstName".toList = some m ∧
          m = "First Name is a required field".toList ∧
          OccursIn "First Name".toList m ∧ ¬ OccursIn "FirstName".toList m) ∧
    (exValidatorUser.resolve ["pt".toList] = some exPortugueseUser ∧
      ∃ msgs, exValidator.Validate exRuntime 5 (some ⟨2, 0⟩) ["pt".toList] =
          .ok (exValidatorUser, some (.validationErrors ⟨exUserViolations, msgs⟩)) ∧
        ∃ m, mapLookup msgs "User.FirstName".toList = some m ∧
          m = "Primeiro Nome é um campo obrigatório".toList ∧
          OccursIn "Primeiro Nome".toList m ∧ ¬ OccursIn "FirstName".toList m) := by
  refine ⟨⟨rfl, rfl, rfl, ?_⟩, rfl, ?_⟩
  · obtain ⟨msgs, hV, hall⟩ :=
      Validate_display_name_in_message exRuntime 5 exValidator exValidatorUser ⟨2, 0⟩
        ["en".toList] exUserViolations exEnglishUser rfl rfl rfl
    obtain ⟨m, hm, hdn, _, hsome⟩ :=
      hall [] (exRequired "User.FirstName".toList "FirstName".toList)
        [exRequired "User.Email".toList "Email".toList] "First Name".toList rfl
        (by intro fe' h; rw [List.mem_singleton.mp h]; decide) (by decide) (by decide)
    obtain ⟨heq, hs⟩ := hsome [] " is a required field".toList (by decide)
      (fun _ _ _ => Nat.zero_le _)
    refine ⟨msgs, hV, m, hm, heq.trans (by decide),
      hdn.mpr (Or.inl ⟨[], " is a required field".toList, by decide⟩), ?_⟩
    intro hc
    rcases hs.mp hc with h | h | ⟨x, y, hx, _, ⟨x0, hx0⟩, _⟩
    · exact absurd ((Contains_iff _ _).mpr h) (by decide)
    · exact absurd ((Contains_iff _ _).mpr h) (by decide)
    · exact absurd (List.append_eq_nil.mp hx0.symm).2 hx
  · obtain ⟨msgs, hV, hall⟩ :=
      Validate_display_name_in_message exRuntime 5 exValidator exValidatorUser ⟨2, 0⟩
        ["pt".toList] exUserViolations exPortugueseUser rfl rfl rfl
    obtain ⟨m, hm, hdn, _, hsome⟩ :=
      hall [] (exRequired "User.FirstName".toList "FirstName".toList)
        [exRequired "User.Email".toList "Email".toList] "Primeiro Nome".toList rfl
        (by intro fe' h; rw [List.mem_singleton.mp h]; decide) (by decide) (by decide)
    obtain ⟨heq, hs⟩ := hsome [] " é um campo obrigatório".toList (by decide)
      (fun _ _ _ => Nat.zero_le _)
    refine ⟨msgs, hV, m, hm, heq.trans (by decide),
      hdn.mpr (Or.inl ⟨[], " é um campo obrigatório".toList, by decide⟩), ?_⟩
    intro hc
    rcases hs.mp hc with h | h | ⟨x, y, hx, _, ⟨x0, hx0⟩, _⟩
    · exact absurd ((Contains_iff _ _).mpr h) (by decide)
    · exact absurd ((Contains_iff _ _).mpr h) (by decide)
    · exact absurd (List.append_eq_nil.mp hx0.symm).2 hx

/-- C1 fails as stated, in both halves. In the test's scenario the field `Email` of
`User` has the English display name `Email`, and the message stored for its `required`
violation, `Email is a required field`, contains the short name `Email`. And when the
engine renders a violation on `User.Email` through a template that does not name the
field, the stored message `must be a valid address` does not contain the Portuguese
display name `E-mail` registered for the field. -/
theorem Validate_message_keeps_short_name :
    (exEnglishUser.T "User.Email".toList = some "Email".toList ∧
      (exRequired "User.Email".toList "Email".toList).StructField = "Email".toList ∧
      exValidator.Validate exRuntime 5 (some ⟨1, 0⟩) ["en".toList] =
        .ok (exValidatorUser, some (.validationErrors
          ⟨[exRequired "User.FirstName".toList "FirstName".toList,
            exRequired "User.Email".toList "Email".toList],
           [("User.FirstName".toList, "First Name is a required field".toList),
            ("User.Email".toList, "Email is a required field".toList)]⟩)) ∧
      Contains "Email is a required field".toList "Email".toList = true ∧
      OccursIn "Email".toList "Email is a required field".toList) ∧
    (exValidatorPlainUser.resolve ["pt".toList] = some exPortugueseUser ∧
      exPortugueseUser.T "User.Email".toList = some "E-mail".toList ∧
      exPlain.StructNamespace = "User.Email".toList ∧
      exValidatorPlain.Validate exRuntime 5 (some ⟨1, 0⟩) ["pt".toList] =
        .ok (exValidatorPlainUser, some (.validationErrors
          ⟨[exPlain], [("User.Email".toList, "must be a valid address".toList)]⟩)) ∧
      Contains "must be a valid address".toList "E-mail".toList = false ∧
      ¬ OccursIn "E-mail".toList "must be a valid address".toList) :=
  ⟨⟨by decide, rfl, rfl, by decide, ⟨[], " is a required field".toList, rfl⟩⟩,
    rfl, by decide, rfl, rfl, by decide,
    fun h => absurd ((Contains_iff _ _).mpr h) (by decide)⟩

/-! ## The registration walk as a list of registrations -/

theorem applyRegistrations_append (rt : Runtime) (translators : Translators)
    (a b : List Registration) :
    applyRegistrations rt translators (a ++ b) =
      match applyRegistrations rt translators a with
      | (translators', some err) => (translators', some err)
      | (translators', none) => applyRegistrations rt translators' b := by
  induction a generalizing translators with
  | nil => rfl
  | cons r a ih =>
    simp only [List.cons_append, applyRegistrations]
    rcases h : applyRegistration rt translators r with ⟨t1, _ | e⟩
    · exact ih t1
    · rfl

theorem registerPart_eq (rt : Runtime) (translators : Translators)
    (typeName fieldName part : GoString) :
    registerPart rt translators typeName fieldName part =
      match parsePart part with
      | none => (translators, none)
      | some p => applyRegistration rt translators ⟨p.1, typeName ++ ['.'] ++ fieldName, p.2⟩ := by
  unfold registerPart applyRegistration
  cases parsePart part with
  | none => rfl
  | some p =>
    obtain ⟨langCode, translatedName⟩ := p
    cases mapLookup translators langCode <;> rfl

theorem registerParts_eq (rt : Runtime) (typeName fieldName : GoString)
    (translators : Translators) (parts : List GoString) :
    registerParts rt typeName fieldName translators parts =
      applyRegistrations rt translators
        ((parts.filterMap parsePart).map
          (fun p => ⟨p.1, typeName ++ ['.'] ++ fieldName, p.2⟩)) := by
  induction parts generalizing translators with
  | nil => rfl
  | cons part parts ih =>
    simp only [registerParts, registerPart_eq, List.filterMap_cons]
    cases parsePart part with
    | none => simp only [ih]
    | some p =>
      simp only [List.map_cons, applyRegistrations]
      rcases applyRegistration rt translators
        ⟨p.1, typeName ++ ['.'] ++ fieldName, p.2⟩ with ⟨t1, _ | e⟩
      · simp only [ih]
      · simp only

theorem registerTag_eq (rt : Runtime) (translators : Translators) (typeName : GoString)
    (field : StructField) :
    registerTag rt translators typeName field =
      applyRegistrations rt translators (fieldRegistrations typeName field) := by
  unfold registerTag fieldRegistrations fieldTranslationSpec
  by_cases h : field.Tag = []
  · simp only [h, ne_eq, not_true_eq_false, if_false, if_true, List.map_nil, applyRegistrations]
  · simp only [h, ne_eq, not_false_eq_true, if_true, if_false, registerParts_eq]

theorem registerFields_of_registrations (rt : Runtime)
    (recur : Translators → Option TypeId → Except Abort (Translators × Option ExternalError))
    (recurRegs : TypeId → Option (List Registration)) (typeName : GoString)
    (hrec : ∀ n regs, recurRegs n = some regs →
      ∀ trs, recur trs (some n) = .ok (applyRegistrations rt trs regs))
    (fields : List StructField) (regs : List Registration)
    (h : fieldsRegistrations rt.types recurRegs typeName fields = some regs)
    (trs : Translators) :
    registerFields rt recur typeName trs fields = .ok (applyRegistrations rt trs regs) := by
  induction fields generalizing regs trs with
  | nil =>
    simp only [fieldsRegistrations, Option.some.injEq] at h
    subst h
    rfl
  | cons field rest ih =>
    unfold fieldsRegistrations at h
    unfold registerFields
    rw [registerTag_eq]
    cases hn : nestedStruct rt.types field with
    | none =>
      rw [hn] at h
      simp only [Option.map_eq_some'] at h
      obtain ⟨regs', hrest, hregs⟩ := h
      subst hregs
      rw [applyRegistrations_append]
      rcases applyRegistrations rt trs (fieldRegistrations typeName field) with ⟨t1, _ | e⟩
      · exact ih regs' hrest t1
      · rfl
    | some n =>
      rw [hn] at h
      cases ha : recurRegs n with
      | none => simp [ha] at h
      | some a =>
        cases hb : fieldsRegistrations rt.types recurRegs typeName rest with
        | none => simp [ha, hb] at h
        | some b =>
          simp only [ha, hb, Option.some.injEq] at h
          subst h
          rw [applyRegistrations_append, applyRegistrations_append]
          rcases applyRegistrations rt trs (fieldRegistrations typeName field) with ⟨t1, _ | e⟩
          · simp only [hrec n a ha t1]
            rcases applyRegistrations rt t1 a with ⟨t2, _ | e⟩
            · exact ih b hb t2
            · rfl
          · rfl

theorem registerFields_no_success (rt : Runtime)
    (recur : Translators → Option TypeId → Except Abort (Translators × Option ExternalError))
    (recurRegs : TypeId → Option (List Registration)) (typeName : GoString)
    (hrec : ∀ n, recurRegs n = none → ∀ trs trs', recur trs (some n) ≠ .ok (trs', none))
    (fields : List StructField)
    (h : fieldsRegistrations rt.types recurRegs typeName fields = none)
    (trs trs' : Translators) :
    registerFields rt recur typeName trs fields ≠ .ok (trs', none) := by
  induction fields generalizing trs with
  | nil => simp [fieldsRegistrations] at h
  | cons field rest ih =>
    unfold fieldsRegistrations at h
    unfold registerFields
    rcases registerTag rt trs typeName field with ⟨t1, _ | e⟩
    · cases hn : nestedStruct rt.types field with
      | none =>
        rw [hn] at h
        simp only [Option.map_eq_none'] at h
        exact ih h t1
      | some n =>
        rw [hn] at h
        simp only
        cases ha : recurRegs n with
        | none =>
          have hno := hrec n ha t1
          rcases hr : recur t1 (some n) with a | ⟨t2, _ | e⟩
          · simp
          · exact absurd hr (hno t2)
          · simp
        | some a =>
          cases hb : fieldsRegistrations rt.types recurRegs typeName rest with
          | none =>
            rcases recur t1 (some n) with a | ⟨t2, _ | e⟩
            · simp
            · exact ih hb t2
            · simp
          | some b => simp [ha, hb] at h
    · simp

theorem walk_of_registrations (rt : Runtime) (fuel : Nat) (t : TypeId)
    (regs : List Registration) (h : walkRegistrations rt.types fuel t = some regs)
    (trs : Translators) :
    registerFieldTranslationsType rt fuel trs (some t) =
      .ok (applyRegistrations rt trs regs) := by
  induction fuel generalizing t regs trs with
  | zero => simp [walkRegistrations] at h
  | succ fuel ih =>
    unfold walkRegistrations at h
    unfold registerFieldTranslationsType
    generalize derefOnce rt.types t = t' at h
    by_cases hk : (rt.types t').Kind = Kind.Struct
    · simp only [hk, ne_eq, not_true_eq_false, if_false] at h ⊢
      exact registerFields_of_registrations rt _ _ _ (fun n regs hr trs => ih n regs hr trs)
        _ regs h trs
    · simp only [hk, ne_eq, not_false_eq_true, if_true, Option.some.injEq] at h ⊢
      subst h
      rfl

theorem walk_no_success (rt : Runtime) (fuel : Nat) (t : TypeId)
    (h : walkRegistrations rt.types fuel t = none) (trs trs' : Translators) :
    registerFieldTranslationsType rt fuel trs (some t) ≠ .ok (trs', none) := by
  induction fuel generalizing t trs trs' with
  | zero => simp [registerFieldTranslationsType]
  | succ fuel ih =>
    unfold walkRegistrations at h
    unfold registerFieldTranslationsType
    generalize derefOnce rt.types t = t' at h
    by_cases hk : (rt.types t').Kind = Kind.Struct
    · simp only [hk, ne_eq, not_true_eq_false, if_false] at h ⊢
      exact registerFields_no_success rt _ _ _ (fun n hr trs trs' => ih n hr trs trs')
        _ h trs trs'
    · simp [hk] at h

theorem walk_success_registrations (rt : Runtime) (fuel : Nat) (t : TypeId)
    (trs trs' : Translators)
    (h : registerFieldTranslationsType rt fuel trs (some t) = .ok (trs', none)) :
    ∃ regs, walkRegistrations rt.types fuel t = some regs ∧
      applyRegistrations rt trs regs = (trs', none) := by
  cases hw : walkRegistrations rt.types fuel t with
  | none => exact absurd h (walk_no_success rt fuel t hw trs trs')
  | some regs =>
    refine ⟨regs, rfl, ?_⟩
    have := walk_of_registrations rt fuel t regs hw trs
    rw [h] at this
    exact (Except.ok.inj this).symm

theorem applyRegistration_success (rt : Runtime) (trs trs' : Translators) (r : Registration)
    (h : applyRegistration rt trs r = (trs', none)) : trs' = storeRegistration trs r := by
  unfold applyRegistration at h
  unfold storeRegistration
  cases hl : mapLookup trs r.locale with
  | none =>
    rw [hl] at h
    exact (Prod.mk.inj h).1.symm
  | some tr =>
    rw [hl] at h
    simp only [ut.Translator.Add] at h
    cases hr : rt.refuse tr r.id r.name true with
    | some e =>
      simp only [hr] at h
      have := (Prod.mk.inj h).2
      cases this
    | none =>
      simp only [hr] at h
      exact (Prod.mk.inj h).1.symm

theorem applyRegistrations_success (rt : Runtime) (trs trs' : Translators)
    (regs : List Registration) (h : applyRegistrations rt trs regs = (trs', none)) :
    trs' = regs.foldl storeRegistration trs := by
  induction regs generalizing trs with
  | nil => exact (Prod.mk.inj h).1.symm
  | cons r regs ih =>
    unfold applyRegistrations at h
    rcases hr : applyRegistration rt trs r with ⟨t1, _ | e⟩
    · rw [hr] at h
      have h1 := applyRegistration_success rt trs t1 r hr
      rw [List.foldl_cons, ← h1]
      exact ih t1 h
    · rw [hr] at h
      have := (Prod.mk.inj h).2
      cases this

theorem lookup_foldl_storeRegistration (regs : List Registration) (trs : Translators)
    (c : GoString) :
    mapLookup (regs.foldl storeRegistration trs) c =
      (mapLookup trs c).map (fun ctx => ⟨ctx.locale,
        (regs.filter (fun r => r.locale = c)).foldl (fun m r => mapStore m r.id r.name)
          ctx.translations⟩) := by
  induction regs generalizing trs with
  | nil =>
    simp only [List.foldl_nil, List.filter_nil]
    cases mapLookup trs c <;> rfl
  | cons r regs ih =>
    rw [List.foldl_cons, ih]
    unfold storeRegistration
    by_cases hc : r.locale = c
    · subst hc
      have hf : (r :: regs).filter (fun r' => decide (r'.locale = r.locale)) =
          r :: regs.filter (fun r' => decide (r'.locale = r.locale)) := by
        simp only [List.filter_cons, decide_True, if_true]
      rw [hf]
      cases hl : mapLookup trs r.locale with
      | none => simp only [hl, Option.map_none']
      | some tr =>
        simp only [mapLookup_mapStore, if_true, Option.map_some', List.foldl_cons]
    · have hf : (r :: regs).filter (fun r' => decide (r'.locale = c)) =
          regs.filter (fun r' => decide (r'.locale = c)) := by
        simp only [List.filter_cons, hc, decide_False, Bool.false_eq_true, if_false]
      rw [hf]
      cases hl : mapLookup trs r.locale with
      | none => rfl
      | some tr => simp only [mapLookup_mapStore, hc, if_false]

theorem mem_fieldsRegistrations (env : TypeEnv) (recurRegs : TypeId → Option (List Registration))
    (typeName : GoString) (Q : TypeId → Registration → Prop) (fields : List StructField)
    (hrec : ∀ f ∈ fields, ∀ n regsn, nestedStruct env f = some n → recurRegs n = some regsn →
      ∀ r, r ∈ regsn ↔ Q n r)
    (regs : List Registration)
    (h : fieldsRegistrations env recurRegs typeName fields = some regs) (r : Registration) :
    r ∈ regs ↔ (∃ f ∈ fields, r ∈ fieldRegistrations typeName f) ∨
      (∃ f ∈ fields, ∃ n, nestedStruct env f = some n ∧ Q n r) := by
  induction fields generalizing regs with
  | nil =>
    simp only [fieldsRegistrations, Option.some.injEq] at h
    subst h
    simp only [List.not_mem_nil, false_and, exists_false, or_self]
  | cons field rest ih =>
    have ih' := ih (fun f hf => hrec f (List.mem_cons_of_mem _ hf))
    unfold fieldsRegistrations at h
    cases hn : nestedStruct env field with
    | none =>
      rw [hn] at h
      simp only [Option.map_eq_some'] at h
      obtain ⟨regs', hrest, hregs⟩ := h
      subst hregs
      rw [List.mem_append, ih' regs' hrest]
      constructor
      · rintro (h1 | ⟨f, hf, h2⟩ | ⟨f, hf, n, h2, h3⟩)
        · exact Or.inl ⟨field, List.mem_cons_self _ _, h1⟩
        · exact Or.inl ⟨f, List.mem_cons_of_mem _ hf, h2⟩
        · exact Or.inr ⟨f, List.mem_cons_of_mem _ hf, n, h2, h3⟩
      · rintro (⟨f, hf, h2⟩ | ⟨f, hf, n, h2, h3⟩)
        · rcases List.mem_cons.mp hf with e | e
          · subst e; exact Or.inl h2
          · exact Or.inr (Or.inl ⟨f, e, h2⟩)
        · rcases List.mem_cons.mp hf with e | e
          · subst e
            rw [hn] at h2
            cases h2
          · exact Or.inr (Or.inr ⟨f, e, n, h2, h3⟩)
    | some n =>
      rw [hn] at h
      cases ha : recurRegs n with
      | none => simp [ha] at h
      | some a =>
        cases hb : fieldsRegistrations env recurRegs typeName rest with
        | none => simp [ha, hb] at h
        | some b =>
          simp only [ha, hb, Option.some.injEq] at h
          subst h
          have hQ := hrec field (List.mem_cons_self _ _) n a hn ha r
          rw [List.mem_append, List.mem_append, ih' b hb, hQ]
          constructor
          · rintro ((h1 | h1) | ⟨f, hf, h2⟩ | ⟨f, hf, m, h2, h3⟩)
            · exact Or.inl ⟨field, List.mem_cons_self _ _, h1⟩
            · exact Or.inr ⟨field, List.mem_cons_self _ _, n, hn, h1⟩
            · exact Or.inl ⟨f, List.mem_cons_of_mem _ hf, h2⟩
            · exact Or.inr ⟨f, List.mem_cons_of_mem _ hf, m, h2, h3⟩
          · rintro (⟨f, hf, h2⟩ | ⟨f, hf, m, h2, h3⟩)
            · rcases List.mem_cons.mp hf with e | e
              · subst e; exact Or.inl (Or.inl h2)
              · exact Or.inr (Or.inl ⟨f, e, h2⟩)
            · rcases List.mem_cons.mp hf with e | e
              · subst e
                rw [hn] at h2
                cases h2
                exact Or.inl (Or.inr h3)
              · exact Or.inr (Or.inr ⟨f, e, m, h2, h3⟩)

theorem nestedStruct_kind (env : TypeEnv) (f : StructField) (n : TypeId)
    (h : nestedStruct env f = some n) : (env n).Kind = Kind.Struct := by
  unfold nestedStruct at h
  simp only at h
  split at h
  · rename_i hk
    cases h
    exact hk
  · cases h

theorem derefOnce_struct (env : TypeEnv) (t : TypeId) (h : (env t).Kind = Kind.Struct) :
    derefOnce env t = t := by
  unfold derefOnce
  rw [h]
  simp only [reduceCtorEq, if_false]

theorem mem_walkRegistrations (env : TypeEnv) (fuel : Nat) (t : TypeId)
    (regs : List Registration) (hk : (env t).Kind = Kind.Struct)
    (h : walkRegistrations env fuel t = some regs) (r : Registration) :
    r ∈ regs ↔ ∃ s field p, Reaches env t s ∧ field ∈ (env s).Fields ∧
      p ∈ fieldTranslationSpec field.Tag ∧
      r = ⟨p.1, (env s).Name ++ ['.'] ++ field.Name, p.2⟩ := by
  induction fuel generalizing t regs r with
  | zero => simp [walkRegistrations] at h
  | succ fuel ih =>
    unfold walkRegistrations at h
    rw [derefOnce_struct env t hk] at h
    simp only [hk, ne_eq, not_true_eq_false, if_false] at h
    rw [mem_fieldsRegistrations env (walkRegistrations env fuel) (env t).Name
      (fun n r => ∃ s field p, Reaches env n s ∧ field ∈ (env s).Fields ∧
        p ∈ fieldTranslationSpec field.Tag ∧
        r = ⟨p.1, (env s).Name ++ ['.'] ++ field.Name, p.2⟩)
      (env t).Fields
      (fun f _ n regsn hn hr r => ih n regsn (nestedStruct_kind env f n hn) hr r) regs h r]
    constructor
    · rintro (⟨f, hf, h1⟩ | ⟨f, hf, n, hn, s, field, p, h1, h2, h3, h4⟩)
      · unfold fieldRegistrations at h1
        obtain ⟨p, hp, hr⟩ := List.mem_map.mp h1
        exact ⟨t, f, p, Reaches.here t, hf, hp, hr.symm⟩
      · exact ⟨s, field, p, Reaches.through t f n s hf hn h1, h2, h3, h4⟩
    · rintro ⟨s, field, p, h1, h2, h3, h4⟩
      cases h1 with
      | here =>
        left
        refine ⟨field, h2, ?_⟩
        unfold fieldRegistrations
        exact List.mem_map.mpr ⟨p, h3, h4.symm⟩
      | through _ f n _ hf hn hreach =>
        right
        exact ⟨f, hf, n, hn, s, field, p, hreach, h2, h3, h4⟩

/-! ## C8: the tag grammar the walk reads -/

/-- C8: for every `trans` tag value, the pairs the walk reads off it are the pairs of the
specification's grammar: split on `;`, trim the white space around each fragment, drop
it when it has no `:`, else split it at the first `:` and trim the white space around
both sides; the pairs come in the order of the fragments. Both sides of every pair are
trimmed (neither begins nor ends with a white-space code point), a locale code holds
neither `:` nor `;`, and a display name holds no `;`. The walk attempts, for a field
with that tag, one registration per pair, in that order. -/
theorem fieldTranslationSpec_eq_spec (s : GoString) :
    fieldTranslationSpec s = specTranslationSpec s ∧
      (∀ p ∈ fieldTranslationSpec s,
        Trimmed p.1 ∧ Trimmed p.2 ∧ ':' ∉ p.1 ∧ ';' ∉ p.1 ∧ ';' ∉ p.2) ∧
      ∀ (rt : Runtime) (translators : Translators) (typeName fieldName : GoString)
        (typ : TypeId),
        registerTag rt translators typeName ⟨fieldName, s, typ⟩ =
          applyRegistrations rt translators
            ((fieldTranslationSpec s).map
              (fun p => ⟨p.1, typeName ++ ['.'] ++ fieldName, p.2⟩)) := by
  have heq : fieldTranslationSpec s = specTranslationSpec s := by
    unfold fieldTranslationSpec specTranslationSpec
    have hfun : parsePart = specFragment := funext parsePart_eq_specFragment
    by_cases hs : s = []
    · subst hs
      simp [List.splitOn_nil, specFragment, specTrim, specTrimLeft, specTrimRight]
    · simp [hs, Split_singleton, hfun]
  refine ⟨heq, ?_, ?_⟩
  · intro p hp
    rw [heq] at hp
    unfold specTranslationSpec at hp
    obtain ⟨frag, hfrag, hsome⟩ := List.mem_filterMap.mp hp
    have hno := splitOn_fragment_no_sep ';' s frag hfrag
    obtain ⟨h1, h2⟩ := specFragment_subset hsome
    obtain ⟨h3, h4⟩ := specFragment_Trimmed hsome
    refine ⟨h3, h4, ?_, ?_, ?_⟩
    · intro hc; exact (h1 _ hc).2 rfl
    · intro hc; exact hno (h1 _ hc).1
    · intro hc; exact hno (h2 _ hc)
  · intro rt translators typeName fieldName typ
    exact registerTag_eq rt translators typeName ⟨fieldName, s, typ⟩

/-- C8 on a tag with a no-break space, a tab and spaces around its tokens, a fragment
without `:` and a display name with a `:`: the pairs are the trimmed tokens, in order,
in the code and in the grammar of the specification. -/
theorem fieldTranslationSpec_eq_spec_witness :
    fieldTranslationSpec exSpacedTag =
        [("en".toList, "First Name".toList), ("pt".toList, "Primeiro Nome".toList),
          ("fr".toList, "a:b".toList)] ∧
      specTranslationSpec exSpacedTag =
        [("en".toList, "First Name".toList), ("pt".toList, "Primeiro Nome".toList),
          ("fr".toList, "a:b".toList)] ∧
      ∀ p ∈ fieldTranslationSpec exSpacedTag,
        Trimmed p.1 ∧ Trimmed p.2 ∧ ':' ∉ p.1 ∧ ';' ∉ p.1 ∧ ';' ∉ p.2 :=
  ⟨by decide, (fieldTranslationSpec_eq_spec exSpacedTag).1 ▸ (by decide),
    (fieldTranslationSpec_eq_spec exSpacedTag).2.1⟩

/-! ## C9: what a successful registration leaves in the contexts -/

theorem registerFieldTranslations_success (rt : Runtime) (fuel : Nat)
    (v v1 : I18nValidate.Validator) (data : Option AnyValue)
    (h : v.registerFieldTranslations rt fuel data = .ok (v1, none)) :
    v1.defaultLang = v.defaultLang ∧ v1.Validator = v.Validator ∧
      (v1 = v ∨ ∃ t regs, derefAll rt.types fuel (data.map (·.typ)) = .ok (some t) ∧
        (rt.types t).Kind = Kind.Struct ∧ t ∉ v.registeredTypes ∧
        walkRegistrations rt.types fuel t = some regs ∧
        v1.translators = regs.foldl storeRegistration v.translators ∧
        v1.registeredTypes = t :: v.registeredTypes) := by
  unfold Validator.registerFieldTranslations at h
  rcases hd : derefAll rt.types fuel (data.map (·.typ)) with a | _ | t
  · simp [hd] at h
  · simp only [hd, Except.ok.injEq, Prod.mk.injEq, and_true] at h
    subst h
    exact ⟨rfl, rfl, Or.inl rfl⟩
  · simp only [hd] at h
    by_cases hk : (rt.types t).Kind = Kind.Struct
    · by_cases hm : t ∈ v.registeredTypes
      · simp only [hk, hm, ne_eq, not_true_eq_false, if_false, if_true, Except.ok.injEq,
          Prod.mk.injEq, and_true] at h
        subst h
        exact ⟨rfl, rfl, Or.inl rfl⟩
      · simp only [hk, hm, ne_eq, not_true_eq_false, if_false] at h
        rcases hw : registerFieldTranslationsType rt fuel v.translators (some t) with
          a | ⟨trs, _ | e⟩
        · simp [hw] at h
        · simp only [hw, Option.map_none', Except.ok.injEq, Prod.mk.injEq, and_true] at h
          subst h
          obtain ⟨regs, hregs, happ⟩ := walk_success_registrations rt fuel t _ _ hw
          refine ⟨rfl, rfl, Or.inr ⟨t, regs, hd, hk, hm, hregs, ?_, rfl⟩⟩
          exact applyRegistrations_success rt _ _ regs happ
        · simp [hw] at h
    · simp only [hk, ne_eq, not_false_eq_true, if_true, Except.ok.injEq, Prod.mk.injEq,
        and_true] at h
      subst h
      exact ⟨rfl, rfl, Or.inl rfl⟩

theorem filter_locale_split (c : GoString) (pre post : List Registration) (r : Registration)
    (hr : r.locale = c) :
    (pre ++ r :: post).filter (fun x => x.locale = c) =
      pre.filter (fun x => x.locale = c) ++ r :: post.filter (fun x => x.locale = c) := by
  rw [List.filter_append, List.filter_cons]
  simp only [hr, decide_True, if_true]

theorem nestedStruct_iff_LeadsTo (env : TypeEnv) (field : StructField) (n : TypeId) :
    nestedStruct env field = some n ↔ LeadsTo env field n := by
  unfold nestedStruct derefOnce LeadsTo
  simp only []
  by_cases hp : (env field.Typ).Kind = Kind.Pointer
  · simp only [hp, if_true, false_and, false_or, true_and, reduceCtorEq]
    by_cases hs : (env (env field.Typ).Elem).Kind = Kind.Struct
    · simp only [hs, if_true, Option.some.injEq, true_and]
      exact eq_comm
    · simp only [hs, if_false, false_and, reduceCtorEq]
  · simp only [hp, if_false, false_and, or_false]
    by_cases hs : (env field.Typ).Kind = Kind.Struct
    · simp only [hs, if_true, Option.some.injEq, true_and]
      exact eq_comm
    · simp only [hs, if_false, false_and, reduceCtorEq]

theorem Reaches_iff_ReachedThroughFields (env : TypeEnv) (t s : TypeId) :
    Reaches env t s ↔ ReachedThroughFields env t s := by
  constructor
  · intro h
    induction h with
    | here t => exact ReachedThroughFields.self t
    | through t f n s hf hn _ ih =>
      exact ReachedThroughFields.field t f n s hf ((nestedStruct_iff_LeadsTo env f n).mp hn) ih
  · intro h
    induction h with
    | self t => exact Reaches.here t
    | field t f n s hf hn _ ih =>
      exact Reaches.through t f n s hf ((nestedStruct_iff_LeadsTo env f n).mpr hn) ih

/-- C9: after `registerFieldTranslations` succeeds on a value whose concrete record type
`t` was not yet marked registered, the walk was finite, and with `regs` its registrations
in walk order: `regs` holds exactly the triples (locale code, `S.F`, display name) of
the pairs parsed from the tag of a field `F` of a record type `S` that is `t` or is
reached from `t`, recursively, through struct-typed or pointer-to-struct-typed fields;
no locale code gains or loses a context; the context of a configured locale `c` maps the
id of a registration for `c` to its display name, the last one in walk order winning;
and every id without a registration for `c` reads in that context as before, so pairs
for other codes, configured or not, change nothing in it. -/
theorem registration_registers_display_names (rt : Runtime) (fuel : Nat)
    (v v' : I18nValidate.Validator) (d : AnyValue) (t : TypeId)
    (hderef : derefAll rt.types fuel (some d.typ) = .ok (some t))
    (hnew : t ∉ v.registeredTypes)
    (hstruct : (rt.types t).Kind = Kind.Struct)
    (hreg : v.registerFieldTranslations rt fuel (some d) = .ok (v', none)) :
    ∃ regs, walkRegistrations rt.types fuel t = some regs ∧
      (∀ r, r ∈ regs ↔ ∃ s field p, ReachedThroughFields rt.types t s ∧
        field ∈ (rt.types s).Fields ∧ p ∈ fieldTranslationSpec field.Tag ∧
        r = ⟨p.1, (rt.types s).Name ++ ['.'] ++ field.Name, p.2⟩) ∧
      (∀ c, mapLookup v.translators c = none → mapLookup v'.translators c = none) ∧
      (∀ c ctx, mapLookup v.translators c = some ctx →
        ∃ ctx', mapLookup v'.translators c = some ctx' ∧
          (∀ pre r post, regs = pre ++ r :: post → r.locale = c →
            (∀ r' ∈ post, r'.locale = c → r'.id ≠ r.id) → ctx'.T r.id = some r.name) ∧
          (∀ id, (∀ r ∈ regs, r.locale = c → r.id ≠ id) → ctx'.T id = ctx.T id)) := by
  obtain ⟨_, _, hcase⟩ := registerFieldTranslations_success rt fuel v v' (some d) hreg
  have hwalk : ∃ regs, walkRegistrations rt.types fuel t = some regs ∧
      v'.translators = regs.foldl storeRegistration v.translators := by
    rcases hcase with h | ⟨t2, regs, h1, _, _, h4, h5, _⟩
    · exfalso
      subst h
      unfold Validator.registerFieldTranslations at hreg
      simp only [Option.map_some', hderef, hstruct, hnew, ne_eq, not_true_eq_false,
        if_false] at hreg
      rcases hw : registerFieldTranslationsType rt fuel v'.translators (some t) with
        a | ⟨trs, e⟩
      · simp [hw] at hreg
      · simp only [hw, Except.ok.injEq, Prod.mk.injEq] at hreg
        have := congrArg Validator.registeredTypes hreg.1
        simp only at this
        have hlen := congrArg List.length this
        simp at hlen
    · simp only [Option.map_some', hderef, Except.ok.injEq, Option.some.injEq] at h1
      subst h1
      exact ⟨regs, h4, h5⟩
  obtain ⟨regs, hregs, htrs⟩ := hwalk
  refine ⟨regs, hregs, ?_, ?_, ?_⟩
  · intro r
    rw [mem_walkRegistrations rt.types fuel t regs hstruct hregs]
    constructor
    · rintro ⟨s, field, p, h1, h2⟩
      exact ⟨s, field, p, (Reaches_iff_ReachedThroughFields _ _ _).mp h1, h2⟩
    · rintro ⟨s, field, p, h1, h2⟩
      exact ⟨s, field, p, (Reaches_iff_ReachedThroughFields _ _ _).mpr h1, h2⟩
  · intro c hc
    rw [htrs, lookup_foldl_storeRegistration, hc]
    rfl
  · intro c ctx hc
    refine ⟨_, by rw [htrs, lookup_foldl_storeRegistration, hc]; rfl, ?_, ?_⟩
    · intro pre r post hsplit hr hpost
      simp only [ut.Translator.T]
      rw [hsplit, filter_locale_split c pre post r hr]
      apply foldl_store_lookup_last (fun r : Registration => r.id) (fun r => r.name)
      intro x hx
      rw [List.mem_filter] at hx
      exact hpost x hx.1 (of_decide_eq_true hx.2)
    · intro id hid
      simp only [ut.Translator.T]
      apply foldl_store_lookup_other (fun r : Registration => r.id) (fun r => r.name)
      intro x hx
      rw [List.mem_filter] at hx
      exact hid x hx.1 (of_decide_eq_true hx.2)

/-- Witness of `registration_registers_display_names`: the first validation of an
`Order`, which holds its `Customer` through a pointer field; the walk follows the pointer
and registers `Order.Buyer`, `Customer.Name`, `Address.Street` and `Order.Note`. -/
theorem registration_registers_display_names_witness :
    derefAll exRuntimeOrder.types 5 (some (AnyValue.mk 10 0).typ) = .ok (some 10) ∧
      10 ∉ exValidator.registeredTypes ∧
      (exRuntimeOrder.types 10).Kind = Kind.Struct ∧
      exValidator.registerFieldTranslations exRuntimeOrder 5 (some ⟨10, 0⟩) =
        .ok (exValidatorOrder, none) ∧
      walkRegistrations exRuntimeOrder.types 5 10 = some exOrderRegistrations ∧
      ∃ regs, walkRegistrations exRuntimeOrder.types 5 10 = some regs ∧
        (∀ r, r ∈ regs ↔ ∃ s field p, ReachedThroughFields exRuntimeOrder.types 10 s ∧
          field ∈ (exRuntimeOrder.types s).Fields ∧ p ∈ fieldTranslationSpec field.Tag ∧
          r = ⟨p.1, (exRuntimeOrder.types s).Name ++ ['.'] ++ field.Name, p.2⟩) ∧
        (∀ c, mapLookup exValidator.translators c = none →
          mapLookup exValidatorOrder.translators c = none) ∧
        (∀ c ctx, mapLookup exValidator.translators c = some ctx →
          ∃ ctx', mapLookup exValidatorOrder.translators c = some ctx' ∧
            (∀ pre r post, regs = pre ++ r :: post → r.locale = c →
              (∀ r' ∈ post, r'.locale = c → r'.id ≠ r.id) → ctx'.T r.id = some r.name) ∧
            (∀ id, (∀ r ∈ regs, r.locale = c → r.id ≠ id) → ctx'.T id = ctx.T id)) :=
  ⟨rfl, by decide, rfl, rfl, rfl,
    registration_registers_display_names exRuntimeOrder 5 exValidator exValidatorOrder
      ⟨10, 0⟩ 10 rfl (by decide) rfl rfl⟩

/-! ## C3: the fallback to the default locale -/

theorem resolve_default (v : I18nValidate.Validator) (rest : List GoString) :
    v.resolve (v.defaultLang :: rest) = mapLookup v.translators v.defaultLang := by
  unfold Validator.resolve
  have : (if v.defaultLang ≠ [] then v.defaultLang else v.defaultLang) = v.defaultLang := by
    split <;> rfl
  simp only [this]
  cases mapLookup v.translators v.defaultLang <;> rfl

theorem resolve_omitted (v : I18nValidate.Validator) :
    v.resolve [] = mapLookup v.translators v.defaultLang := by
  unfold Validator.resolve
  simp only
  cases mapLookup v.translators v.defaultLang <;> rfl

theorem resolve_unconfigured (v : I18nValidate.Validator) (c : GoString)
    (rest : List GoString) (hc : c = [] ∨ mapLookup v.translators c = none) :
    v.resolve (c :: rest) = mapLookup v.translators v.defaultLang := by
  by_cases he : c = []
  · subst he
    unfold Validator.resolve
    simp only [ne_eq, not_true_eq_false, if_false]
    cases mapLookup v.translators v.defaultLang <;> rfl
  · have hn : mapLookup v.translators c = none := hc.resolve_left he
    unfold Validator.resolve
    simp only [ne_eq, he, not_false_eq_true, if_true, hn]

theorem Validate_lang_congr (rt : Runtime) (fuel : Nat) (v : I18nValidate.Validator)
    (data : Option AnyValue) (lang lang' : List GoString)
    (h : ∀ v1, v.registerFieldTranslations rt fuel data = .ok (v1, none) →
      v1.resolve lang = v1.resolve lang') :
    v.Validate rt fuel data lang = v.Validate rt fuel data lang' := by
  cases data with
  | none => rfl
  | some d =>
    unfold Validator.Validate
    rcases hreg : v.registerFieldTranslations rt fuel (some d) with a | ⟨v1, _ | e⟩
    · rfl
    · simp only [h v1 hreg]
    · rfl

/-- C3: from any Validator state and for any data, a call of `Validate` whose locale
argument is empty, omitted, or a code without a context in `translators` has the same
outcome as the call with `defaultLang`: the same Validator afterwards and the same
result, nil, error or `*ValidationErrors` with the same `TranslatedErrors`. -/
theorem Validate_unconfigured_locale (rt : Runtime) (fuel : Nat)
    (v : I18nValidate.Validator) (data : Option AnyValue) (c : GoString)
    (rest : List GoString) (hc : c = [] ∨ mapLookup v.translators c = none) :
    v.Validate rt fuel data (c :: rest) = v.Validate rt fuel data [v.defaultLang] ∧
      v.Validate rt fuel data [] = v.Validate rt fuel data [v.defaultLang] := by
  constructor
  · apply Validate_lang_congr
    intro v1 hreg
    obtain ⟨hdl, _, hcase⟩ := registerFieldTranslations_success rt fuel v v1 data hreg
    have hc1 : c = [] ∨ mapLookup v1.translators c = none := by
      rcases hc with h | h
      · exact Or.inl h
      · right
        rcases hcase with e | ⟨t, regs, _, _, _, _, h5, _⟩
        · rw [e]; exact h
        · rw [h5, lookup_foldl_storeRegistration, h]
          rfl
    rw [resolve_unconfigured v1 c rest hc1, ← hdl, resolve_default]
  · apply Validate_lang_congr
    intro v1 hreg
    obtain ⟨hdl, _, _⟩ := registerFieldTranslations_success rt fuel v v1 data hreg
    rw [resolve_omitted, ← hdl, resolve_default]

/-- Witness of `Validate_unconfigured_locale`: Spanish is not configured in the test's
scenario, and the zero `User` gets the English messages. -/
theorem Validate_unconfigured_locale_witness :
    ("es".toList = [] ∨ mapLookup exValidator.translators "es".toList = none) ∧
      (exValidator.Validate exRuntime 5 (some ⟨1, 0⟩) ["es".toList] =
          exValidator.Validate exRuntime 5 (some ⟨1, 0⟩) [exValidator.defaultLang] ∧
        exValidator.Validate exRuntime 5 (some ⟨1, 0⟩) [] =
          exValidator.Validate exRuntime 5 (some ⟨1, 0⟩) [exValidator.defaultLang]) :=
  ⟨Or.inr (by decide),
    Validate_unconfigured_locale exRuntime 5 exValidator (some ⟨1, 0⟩) "es".toList []
      (Or.inr (by decide))⟩

/-! ## C6, C7: `New` -/

theorem newLoop_err (dl : GoString) (rest : List Translator) (i : Nat)
    (v : validator.Validate) (uni : ut.UniversalTranslator)
    (m : List (GoString × ut.Translator)) (calls : List (Nat × Option ExternalError)) :
    (newLoop dl rest i v uni m calls).err = none ∨
      ∃ e, (newLoop dl rest i v uni m calls).err = some (.external e) := by
  induction rest generalizing i v uni m calls with
  | nil => exact Or.inl rfl
  | cons t rest ih =>
    unfold newLoop
    cases uni.GetTranslator t.Locale with
    | none => exact ih _ _ _ _ _
    | some tr =>
      rcases hcb : t.RegisterTranslations v tr with ⟨v', tr', _ | e⟩
      · simp only [hcb]
        exact ih _ _ _ _ _
      · simp only [hcb]
        exact Or.inr ⟨e, rfl⟩

/-- C6: `New` on an empty list returns nil and the error "at least one locale must be
supplied"; on a non-empty list without an entry whose locale equals `defaultLang` it
returns nil and the error "default language ... not found"; in both cases no callback
is called. When some entry's locale equals `defaultLang`, the error of `New`, if any, is
neither of the two. -/
theorem New_config_errors (v0 : validator.Validate) (defaultLang : GoString)
    (translators : List Translator) :
    (translators = [] →
        (New v0 defaultLang translators).validator = none ∧
        (New v0 defaultLang translators).err = some errNoLocale ∧
        (New v0 defaultLang translators).calls = []) ∧
      (translators ≠ [] → (∀ t ∈ translators, t.Locale ≠ defaultLang) →
        (New v0 defaultLang translators).validator = none ∧
        (New v0 defaultLang translators).err = some (errDefaultNotFound defaultLang) ∧
        (New v0 defaultLang translators).calls = []) ∧
      ((∃ t ∈ translators, t.Locale = defaultLang) →
        (New v0 defaultLang translators).err ≠ some errNoLocale ∧
        (New v0 defaultLang translators).err ≠ some (errDefaultNotFound defaultLang)) := by
  refine ⟨?_, ?_, ?_⟩
  · intro h
    subst h
    exact ⟨rfl, rfl, rfl⟩
  · intro hne hall
    have hlen : ¬ translators.length = 0 := fun h => hne (List.length_eq_zero.mp h)
    have hfind : translators.find? (fun t => decide (t.Locale = defaultLang)) = none := by
      rw [List.find?_eq_none]
      intro t ht
      simpa using hall t ht
    have hN : New v0 defaultLang translators =
        ⟨none, some (errDefaultNotFound defaultLang), []⟩ := by
      unfold New
      simp only [hlen, if_false, hfind]
    rw [hN]
    exact ⟨rfl, rfl, rfl⟩
  · rintro ⟨t, ht, hloc⟩
    have hlen : ¬ translators.length = 0 := by
      intro h
      rw [List.length_eq_zero.mp h] at ht
      exact absurd ht (List.not_mem_nil _)
    cases hfind : translators.find? (fun t => decide (t.Locale = defaultLang)) with
    | none =>
      rw [List.find?_eq_none] at hfind
      have := hfind t ht
      simp [hloc] at this
    | some fallback =>
      have hN : New v0 defaultLang translators =
          newLoop defaultLang translators 0 v0
            (ut.New ((fallback.Locale :: translators.map (·.Locale)).headD [])
              (fallback.Locale :: translators.map (·.Locale))) [] [] := by
        unfold New
        simp only [hlen, if_false, hfind]
      rw [hN]
      rcases newLoop_err defaultLang translators 0 v0
        (ut.New ((fallback.Locale :: translators.map (·.Locale)).headD [])
          (fallback.Locale :: translators.map (·.Locale))) [] [] with h | ⟨e, h⟩
      · rw [h]
        exact ⟨fun h' => Option.noConfusion h', fun h' => Option.noConfusion h'⟩
      · rw [h]
        unfold errNoLocale errDefaultNotFound
        exact ⟨fun h' => GoError.noConfusion (Option.some.inj h'),
          fun h' => GoError.noConfusion (Option.some.inj h')⟩

/-- Witness of `New_config_errors`: no entry, no Spanish entry for the default `es`, and
the test's call `New("en", en, pt)`. -/
theorem New_config_errors_witness :
    ((New exEngine "en".toList []).validator = none ∧
        (New exEngine "en".toList []).err = some errNoLocale ∧
        (New exEngine "en".toList []).calls = []) ∧
      ((New exEngine "es".toList exEntries).validator = none ∧
        (New exEngine "es".toList exEntries).err = some (errDefaultNotFound "es".toList) ∧
        (New exEngine "es".toList exEntries).calls = []) ∧
      ((New exEngine "en".toList exEntries).err ≠ some errNoLocale ∧
        (New exEngine "en".toList exEntries).err ≠ some (errDefaultNotFound "en".toList)) :=
  ⟨(New_config_errors exEngine "en".toList []).1 rfl,
    (New_config_errors exEngine "es".toList exEntries).2.1
      (by intro h; cases h) (by decide),
    (New_config_errors exEngine "en".toList exEntries).2.2
      ⟨⟨"en".toList, exRegister "{0} is a required field".toList⟩,
        List.mem_cons_self _ _, rfl⟩⟩

theorem ut_New_found (fallback : GoString) (supported : List GoString) (l : GoString)
    (h : l ∈ supported) : ((ut.New fallback supported).GetTranslator l).isSome := by
  unfold ut.UniversalTranslator.GetTranslator ut.New
  rw [mapLookup_isSome_iff]
  rw [foldl_store_keys (fun l : GoString => l) (fun l => (⟨l, []⟩ : ut.Translator))]
  exact Or.inr ⟨l, h, rfl⟩

theorem GetTranslator_mapStore_isSome (uni : ut.UniversalTranslator) (k l : GoString)
    (tr : ut.Translator) (h : (uni.GetTranslator l).isSome) :
    ((ut.UniversalTranslator.mk (mapStore uni.translators k tr)).GetTranslator l).isSome := by
  unfold ut.UniversalTranslator.GetTranslator at h ⊢
  rw [mapLookup_isSome_iff] at h ⊢
  rw [mem_keys_mapStore]
  exact Or.inr h

theorem newLoop_trace (dl : GoString) (rest : List Translator) (i : Nat)
    (v : validator.Validate) (uni : ut.UniversalTranslator)
    (m : List (GoString × ut.Translator)) (calls : List (Nat × Option ExternalError))
    (hfound : ∀ t ∈ rest, (uni.GetTranslator t.Locale).isSome) :
    ∃ new, (newLoop dl rest i v uni m calls).calls = calls ++ new ∧
      new.map Prod.fst = List.range' i new.length ∧
      (∀ k e, (k, some e) ∈ new →
        (newLoop dl rest i v uni m calls).validator = none ∧
        (newLoop dl rest i v uni m calls).err = some (.external e) ∧
        new.length = k + 1 - i ∧
        ∀ j r, (j, r) ∈ new → j < k → r = none) ∧
      ((∀ c ∈ new, c.2 = none) →
        (newLoop dl rest i v uni m calls).err = none ∧
        (newLoop dl rest i v uni m calls).validator.isSome ∧
        new.length = rest.length) := by
  induction rest generalizing i v uni m calls with
  | nil =>
    refine ⟨[], by simp [newLoop], rfl, ?_, ?_⟩
    · intro k e h
      exact absurd h (List.not_mem_nil _)
    · intro _
      exact ⟨rfl, rfl, rfl⟩
  | cons t rest ih =>
    unfold newLoop
    have hsome := hfound t (List.mem_cons_self _ _)
    cases hg : uni.GetTranslator t.Locale with
    | none => rw [hg] at hsome; cases hsome
    | some tr =>
      rcases hcb : t.RegisterTranslations v tr with ⟨v', tr', _ | err⟩
      · simp only [hcb]
        obtain ⟨new, h1, h2, h3, h4⟩ := ih (i + 1) v' ⟨mapStore uni.translators t.Locale tr'⟩
          (mapStore m t.Locale tr') (calls ++ [(i, none)])
          (fun x hx => GetTranslator_mapStore_isSome uni t.Locale x.Locale tr'
            (hfound x (List.mem_cons_of_mem _ hx)))
        refine ⟨(i, none) :: new, ?_, ?_, ?_, ?_⟩
        · rw [h1]; simp
        · simp only [List.map_cons, List.length_cons, List.range'_succ, h2]
        · intro k e hk
          rcases List.mem_cons.mp hk with hk | hk
          · cases hk
          · obtain ⟨a1, a2, a3, a4⟩ := h3 k e hk
            have hki : i + 1 ≤ k := by
              have : k ∈ new.map Prod.fst := List.mem_map.mpr ⟨(k, some e), hk, rfl⟩
              rw [h2, List.mem_range'_1] at this
              exact this.1
            refine ⟨a1, a2, ?_, ?_⟩
            · simp only [List.length_cons, a3]
              omega
            · intro j r hj hlt
              rcases List.mem_cons.mp hj with hj | hj
              · cases hj; rfl
              · exact a4 j r hj hlt
        · intro hall
          obtain ⟨b1, b2, b3⟩ := h4 (fun c hc => hall c (List.mem_cons_of_mem _ hc))
          exact ⟨b1, b2, by simp only [List.length_cons, b3]⟩
      · simp only [hcb]
        refine ⟨[(i, some err)], rfl, rfl, ?_, ?_⟩
        · intro k e hk
          rw [List.mem_singleton] at hk
          cases hk
          refine ⟨trivial, rfl, by simp, ?_⟩
          intro j r hj hlt
          rw [List.mem_singleton] at hj
          cases hj
          omega
        · intro hall
          have := hall (i, some err) (List.mem_singleton.mpr rfl)
          cases this

/-- C7: in a call of `New` that passes the two checks of its arguments, the callbacks are
called in list order, each entry at most once and none skipped; when the call for
entry `k` returns an error `e`, `New` returns no Validator and exactly `e`, the calls
before it had returned nil, and entry `k` is the last one called; when every call
returns nil, every entry was called and `New` returns a Validator and no error. -/
theorem New_callbacks_fail_fast (v0 : validator.Validate) (defaultLang : GoString)
    (translators : List Translator)
    (hdefault : ∃ t ∈ translators, t.Locale = defaultLang) :
    (New v0 defaultLang translators).calls.map Prod.fst =
        List.range (New v0 defaultLang translators).calls.length ∧
      (∀ k e, (k, some e) ∈ (New v0 defaultLang translators).calls →
        (New v0 defaultLang translators).validator = none ∧
        (New v0 defaultLang translators).err = some (.external e) ∧
        (New v0 defaultLang translators).calls.length = k + 1 ∧
        ∀ j r, (j, r) ∈ (New v0 defaultLang translators).calls → j < k → r = none) ∧
      ((∀ c ∈ (New v0 defaultLang translators).calls, c.2 = none) →
        (New v0 defaultLang translators).err = none ∧
        (New v0 defaultLang translators).validator.isSome ∧
        (New v0 defaultLang translators).calls.length = translators.length) := by
  obtain ⟨t, ht, hloc⟩ := hdefault
  have hlen : ¬ translators.length = 0 := by
    intro h
    rw [List.length_eq_zero.mp h] at ht
    exact absurd ht (List.not_mem_nil _)
  cases hfind : translators.find? (fun t => decide (t.Locale = defaultLang)) with
  | none =>
    rw [List.find?_eq_none] at hfind
    have := hfind t ht
    simp [hloc] at this
  | some fallback =>
    have hN : New v0 defaultLang translators =
        newLoop defaultLang translators 0 v0
          (ut.New ((fallback.Locale :: translators.map (·.Locale)).headD [])
            (fallback.Locale :: translators.map (·.Locale))) [] [] := by
      unfold New
      simp only [hlen, if_false, hfind]
    rw [hN]
    obtain ⟨new, h1, h2, h3, h4⟩ := newLoop_trace defaultLang translators 0 v0
      (ut.New ((fallback.Locale :: translators.map (·.Locale)).headD [])
        (fallback.Locale :: translators.map (·.Locale))) [] []
      (fun x hx => ut_New_found _ _ x.Locale
        (List.mem_cons_of_mem _ (List.mem_map.mpr ⟨x, hx, rfl⟩)))
    rw [List.nil_append] at h1
    rw [h1]
    refine ⟨?_, ?_, h4⟩
    · rw [h2, List.range_eq_range']
    · intro k e hk
      obtain ⟨a1, a2, a3, a4⟩ := h3 k e hk
      exact ⟨a1, a2, by omega, a4⟩

/-- Witness of `New_callbacks_fail_fast`: of three entries the second one's callback
fails; the third is never called. -/
theorem New_callbacks_fail_fast_witness :
    (∃ t ∈ exEntriesFailing, t.Locale = "en".toList) ∧
      (New exEngine "en".toList exEntriesFailing).calls =
        [(0, none), (1, some ⟨"unknown tag".toList⟩)] ∧
      ((New exEngine "en".toList exEntriesFailing).calls.map Prod.fst =
          List.range (New exEngine "en".toList exEntriesFailing).calls.length ∧
        (∀ k e, (k, some e) ∈ (New exEngine "en".toList exEntriesFailing).calls →
          (New exEngine "en".toList exEntriesFailing).validator = none ∧
          (New exEngine "en".toList exEntriesFailing).err = some (.external e) ∧
          (New exEngine "en".toList exEntriesFailing).calls.length = k + 1 ∧
          ∀ j r, (j, r) ∈ (New exEngine "en".toList exEntriesFailing).calls → j < k →
            r = none) ∧
        ((∀ c ∈ (New exEngine "en".toList exEntriesFailing).calls, c.2 = none) →
          (New exEngine "en".toList exEntriesFailing).err = none ∧
          (New exEngine "en".toList exEntriesFailing).validator.isSome ∧
          (New exEngine "en".toList exEntriesFailing).calls.length =
            exEntriesFailing.length)) :=
  ⟨⟨⟨"en".toList, exRegister "{0} is a required field".toList⟩, List.mem_cons_self _ _, rfl⟩,
    by decide,
    New_callbacks_fail_fast exEngine "en".toList exEntriesFailing
      ⟨⟨"en".toList, exRegister "{0} is a required field".toList⟩,
        List.mem_cons_self _ _, rfl⟩⟩

/-! ## C10: the id of the walk and the namespace of a violation -/

/-- C10 at a nested field: for a field of the validated record type itself the id the
walk registers is the namespace of its violations; but validating a `Customer`, which
holds an `Address`, the walk registers the display name of `Street` under
`Address.Street`, the engine reports the violation under `Customer.Address.Street`,
the lookup of that namespace in the English context finds nothing, and the stored
message keeps the raw name: `Street is a required field`. -/
theorem nested_display_name_not_found :
    (∀ typeName fieldName : GoString,
        structNamespace typeName [fieldName] = typeName ++ ['.'] ++ fieldName) ∧
      walkRegistrations exRuntime.types 5 4 =
        some [⟨"en".toList, "Customer.Name".toList, "Full Name".toList⟩,
          ⟨"en".toList, "Address.Street".toList, "Street Name".toList⟩] ∧
      structNamespace "Customer".toList ["Address".toList, "Street".toList] =
        "Customer.Address.Street".toList ∧
      (mapLookup exValidatorCustomer.translators "en".toList).bind
        (fun tr => tr.T "Address.Street".toList) = some "Street Name".toList ∧
      (mapLookup exValidatorCustomer.translators "en".toList).bind
        (fun tr => tr.T "Customer.Address.Street".toList) = none ∧
      exValidator.Validate exRuntime 5 (some ⟨4, 0⟩) ["en".toList] =
        .ok (exValidatorCustomer, some (.validationErrors
          ⟨[exRequired "Customer.Name".toList "Name".toList,
            exRequired "Customer.Address.Street".toList "Street".toList],
           [("Customer.Name".toList, "Full Name is a required field".toList),
            ("Customer.Address.Street".toList, "Street is a required field".toList)]⟩)) :=
  ⟨fun _ _ => by simp [structNamespace, Join], by decide, by decide, by decide, by decide, rfl⟩

/-! ## C14, C13: nil and non-struct data -/

/-- C14: for every Validator, environment, fuel and locale argument, `Validate(nil, ...)`
returns nil and leaves the Validator as it was; the result depends neither on the rule
engine nor on the types, so neither the walk nor the engine is consulted. -/
theorem Validate_nil (rt : Runtime) (fuel : Nat) (v : I18nValidate.Validator)
    (lang : List GoString) :
    v.Validate rt fuel none lang = .ok (v, none) ∧
      ∀ (rt' : Runtime) (fuel' : Nat) (engine : validator.Validate),
        ({ v with Validator := engine } : I18nValidate.Validator).Validate rt' fuel' none lang =
          .ok ({ v with Validator := engine }, none) :=
  ⟨rfl, fun _ _ _ => rfl⟩

theorem registerFieldTranslations_non_struct (rt : Runtime) (fuel : Nat)
    (v : I18nValidate.Validator) (d : AnyValue) (t : TypeId)
    (hderef : derefAll rt.types fuel (some d.typ) = .ok (some t))
    (hkind : (rt.types t).Kind ≠ Kind.Struct) :
    v.registerFieldTranslations rt fuel (some d) = .ok (v, none) := by
  unfold Validator.registerFieldTranslations
  simp only [Option.map_some', hderef, hkind, ne_eq, not_false_eq_true, if_true]

theorem Validate_non_struct (rt : Runtime) (fuel : Nat)
    (v : I18nValidate.Validator) (d : AnyValue) (t : TypeId) (lang : List GoString)
    (hderef : derefAll rt.types fuel (some d.typ) = .ok (some t))
    (hkind : (rt.types t).Kind ≠ Kind.Struct) (e : ExternalError)
    (hstruct : v.Validator.Struct d = some (.other e)) :
    v.Validate rt fuel (some d) lang = .ok (v, some (.external e)) := by
  unfold Validator.Validate
  simp only [registerFieldTranslations_non_struct rt fuel v d t hderef hkind, hstruct]

/-- C13 at a non-struct value: in the test's scenario `Validate` on a `string` registers
nothing and leaves the Validator as it was, but it does hand the value to the rule
engine and returns the engine's error instead of nil; with an engine that accepts the
value the same call returns nil, so the result is the engine's. -/
theorem Validate_string_reaches_engine :
    (exRuntime.types 0).Kind = Kind.Other ∧
      exValidator.registerFieldTranslations exRuntime 5 (some ⟨0, 0⟩) =
        .ok (exValidator, none) ∧
      exValidator.Validator.Struct ⟨0, 0⟩ =
        some (.other ⟨"validator: (nil string)".toList⟩) ∧
      exValidator.Validate exRuntime 5 (some ⟨0, 0⟩) [] =
        .ok (exValidator, some (.external ⟨"validator: (nil string)".toList⟩)) ∧
      ({ exValidator with Validator := ⟨fun _ => none⟩ } : I18nValidate.Validator).Validate
          exRuntime 5 (some ⟨0, 0⟩) [] =
        .ok ({ exValidator with Validator := ⟨fun _ => none⟩ }, none) :=
  ⟨rfl, rfl, rfl, rfl, rfl⟩

/-! ## C17, C15: what `Validate` returns -/

theorem registerFieldTranslations_cases (rt : Runtime) (fuel : Nat)
    (v : I18nValidate.Validator) (data : Option AnyValue) :
    (∃ a, v.registerFieldTranslations rt fuel data = .error a) ∨
      v.registerFieldTranslations rt fuel data = .ok (v, none) ∨
      ∃ t trs err, derefAll rt.types fuel (data.map (·.typ)) = .ok (some t) ∧
        (rt.types t).Kind = Kind.Struct ∧ t ∉ v.registeredTypes ∧
        registerFieldTranslationsType rt fuel v.translators (some t) = .ok (trs, err) ∧
        v.registerFieldTranslations rt fuel data =
          .ok (⟨v.Validator, trs, v.defaultLang, t :: v.registeredTypes⟩,
            err.map GoError.external) := by
  rcases hd : derefAll rt.types fuel (data.map (·.typ)) with a | _ | t
  · left
    exact ⟨a, by unfold Validator.registerFieldTranslations; simp only [hd]⟩
  · right; left
    unfold Validator.registerFieldTranslations
    simp only [hd]
  · by_cases hk : (rt.types t).Kind = Kind.Struct
    · by_cases hm : t ∈ v.registeredTypes
      · right; left
        unfold Validator.registerFieldTranslations
        simp only [hd, hk, hm, ne_eq, not_true_eq_false, if_false, if_true]
      · rcases hw : registerFieldTranslationsType rt fuel v.translators (some t) with
          a | ⟨trs, err⟩
        · left
          refine ⟨a, ?_⟩
          unfold Validator.registerFieldTranslations
          simp only [hd, hk, hm, ne_eq, not_true_eq_false, if_false, hw]
        · right; right
          refine ⟨t, trs, err, hd, hk, hm, hw, ?_⟩
          unfold Validator.registerFieldTranslations
          simp only [hd, hk, hm, ne_eq, not_true_eq_false, if_false, hw]
    · right; left
      unfold Validator.registerFieldTranslations
      simp only [hd, hk, ne_eq, not_false_eq_true, if_true]

theorem registerFieldTranslations_error_external (rt : Runtime) (fuel : Nat)
    (v v1 : I18nValidate.Validator) (data : Option AnyValue) (e : GoError)
    (h : v.registerFieldTranslations rt fuel data = .ok (v1, some e)) :
    ∃ x, e = .external x := by
  rcases registerFieldTranslations_cases rt fuel v data with ⟨a, ha⟩ | h0 | ⟨t, trs, err, _, _, _, _, h5⟩
  · rw [ha] at h; cases h
  · rw [h0] at h; cases h
  · rw [h5] at h
    cases err with
    | none => cases h
    | some x =>
      simp only [Option.map_some', Except.ok.injEq, Prod.mk.injEq, Option.some.injEq] at h
      exact ⟨x, h.2.symm⟩

theorem registerFieldTranslations_engine (rt : Runtime) (fuel : Nat)
    (v : I18nValidate.Validator) (data : Option AnyValue) (engine : validator.Validate) :
    ({ v with Validator := engine } : I18nValidate.Validator).registerFieldTranslations
        rt fuel data =
      match v.registerFieldTranslations rt fuel data with
      | .error a => .error a
      | .ok (v1, err) => .ok ({ v1 with Validator := engine }, err) := by
  unfold Validator.registerFieldTranslations
  rcases hd : derefAll rt.types fuel (data.map (·.typ)) with a | _ | t
  · simp only [hd]
  · simp only [hd]
  · simp only [hd]
    by_cases hk : (rt.types t).Kind = Kind.Struct
    · by_cases hm : t ∈ v.registeredTypes
      · simp only [hk, hm, ne_eq, not_true_eq_false, if_false, if_true]
      · simp only [hk, hm, ne_eq, not_true_eq_false, if_false]
        rcases hw : registerFieldTranslationsType rt fuel v.translators (some t) with
          a | ⟨trs, err⟩
        · simp only [hw]
        · simp only [hw]
    · simp only [hk, ne_eq, not_false_eq_true, if_true]

/-- C17: `Validate` on non-nil data returns the error of a failed registration as it is,
whatever the rule engine would say; after a successful registration it returns an error
of the engine that is no violation list as it is; it returns a `*ValidationErrors` only
after a successful registration and a violation list of the engine, and then with that
list, and it does return one in that case when a context is resolved. -/
theorem Validate_returns_errors_unmodified (rt : Runtime) (fuel : Nat)
    (v : I18nValidate.Validator) (d : AnyValue) (lang : List GoString) :
    (∀ v1 e, v.registerFieldTranslations rt fuel (some d) = .ok (v1, some e) →
        v.Validate rt fuel (some d) lang = .ok (v1, some e) ∧
        (∃ x, e = .external x) ∧
        ∀ engine : validator.Validate,
          ({ v with Validator := engine } : I18nValidate.Validator).Validate rt fuel (some d)
            lang = .ok ({ v1 with Validator := engine }, some e)) ∧
      (∀ v1 x, v.registerFieldTranslations rt fuel (some d) = .ok (v1, none) →
        v1.Validator.Struct d = some (.other x) →
        v.Validate rt fuel (some d) lang = .ok (v1, some (.external x))) ∧
      (∀ v1 ve, v.Validate rt fuel (some d) lang = .ok (v1, some (.validationErrors ve)) →
        v.registerFieldTranslations rt fuel (some d) = .ok (v1, none) ∧
        v1.Validator.Struct d = some (.ValidationErrors ve.ValidationErrors)) ∧
      (∀ v1 verrs tr, v.registerFieldTranslations rt fuel (some d) = .ok (v1, none) →
        v1.Validator.Struct d = some (.ValidationErrors verrs) →
        v1.resolve lang = some tr →
        ∃ msgs, v.Validate rt fuel (some d) lang =
          .ok (v1, some (.validationErrors ⟨verrs, msgs⟩))) := by
  refine ⟨?_, ?_, ?_, ?_⟩
  · intro v1 e hreg
    refine ⟨?_, registerFieldTranslations_error_external rt fuel v v1 (some d) e hreg, ?_⟩
    · unfold Validator.Validate
      simp only [hreg]
    · intro engine
      unfold Validator.Validate
      simp only [registerFieldTranslations_engine, hreg]
  · intro v1 x hreg hstruct
    unfold Validator.Validate
    simp only [hreg, hstruct]
  · intro v1 ve h
    unfold Validator.Validate at h
    rcases hreg : v.registerFieldTranslations rt fuel (some d) with a | ⟨w, _ | e⟩
    · simp [hreg] at h
    · simp only [hreg] at h
      rcases hs : w.Validator.Struct d with _ | verrs | x
      · simp [hs] at h
      · simp only [hs] at h
        rcases hl : translateLoop (w.resolve lang) verrs [] with a | msgs
        · simp [hl] at h
        · simp only [hl, Except.ok.injEq, Prod.mk.injEq, Option.some.injEq,
            GoError.validationErrors.injEq] at h
          obtain ⟨h1, h2⟩ := h
          subst h1
          subst h2
          exact ⟨rfl, hs⟩
      · simp [hs] at h
    · simp only [hreg, Except.ok.injEq, Prod.mk.injEq, Option.some.injEq] at h
      obtain ⟨x, hx⟩ := registerFieldTranslations_error_external rt fuel v w (some d) e hreg
      rw [hx] at h
      cases h.2
  · intro v1 verrs tr hreg hstruct htr
    exact ⟨_, Validate_of_violations rt fuel v v1 d lang verrs tr hreg hstruct htr⟩

theorem exValidator_register_Product :
    exValidator.registerFieldTranslations exRuntimeBraces 5 (some ⟨5, 1⟩) =
      .ok (exValidatorProduct, some (.external ⟨"missing bracket".toList⟩)) := by
  rfl

/-- Witness of `Validate_returns_errors_unmodified`: a refused registration on a
`Product`, the engine's error on a `string`, and the violations of the zero `User`. -/
theorem Validate_returns_errors_unmodified_witness :
    (exValidator.Validate exRuntimeBraces 5 (some ⟨5, 1⟩) ["en".toList] =
        .ok (exValidatorProduct, some (.external ⟨"missing bracket".toList⟩)) ∧
      (∃ x, GoError.external ⟨"missing bracket".toList⟩ = .external x) ∧
      ∀ engine : validator.Validate,
        ({ exValidator with Validator := engine } : I18nValidate.Validator).Validate
            exRuntimeBraces 5 (some ⟨5, 1⟩) ["en".toList] =
          .ok ({ exValidatorProduct with Validator := engine },
            some (.external ⟨"missing bracket".toList⟩))) ∧
      exValidator.Validate exRuntime 5 (some ⟨0, 0⟩) ["en".toList] =
        .ok (exValidator, some (.external ⟨"validator: (nil string)".toList⟩)) ∧
      ∃ msgs, exValidator.Validate exRuntime 5 (some ⟨1, 0⟩) ["en".toList] =
        .ok (exValidatorUser, some (.validationErrors ⟨exUserViolations, msgs⟩)) :=
  ⟨(Validate_returns_errors_unmodified exRuntimeBraces 5 exValidator ⟨5, 1⟩ ["en".toList]).1
      exValidatorProduct _ exValidator_register_Product,
    (Validate_returns_errors_unmodified exRuntime 5 exValidator ⟨0, 0⟩ ["en".toList]).2.1
      exValidator _ rfl rfl,
    (Validate_returns_errors_unmodified exRuntime 5 exValidator ⟨1, 0⟩ ["en".toList]).2.2.2
      exValidatorUser exUserViolations exEnglishUser exValidator_register_User
      exValidatorUser_Struct exValidatorUser_resolve_en⟩

/-- C15, as amended: when the registration of a value returns nil and the rule engine
reports no violation on it, `Validate` returns nil whatever the locale argument is:
a configured code, an unconfigured one, the empty one or none. -/
theorem Validate_no_violation (rt : Runtime) (fuel : Nat)
    (v v1 : I18nValidate.Validator) (d : AnyValue)
    (hreg : v.registerFieldTranslations rt fuel (some d) = .ok (v1, none))
    (hstruct : v1.Validator.Struct d = none) (lang : List GoString) :
    v.Validate rt fuel (some d) lang = .ok (v1, none) := by
  unfold Validator.Validate
  simp only [hreg, hstruct]

/-- Witness of `Validate_no_violation`: the valid `User` of the test, with the
unconfigured code `es`. -/
theorem Validate_no_violation_witness :
    exValidator.registerFieldTranslations exRuntime 5 (some ⟨1, 1⟩) =
        .ok (exValidatorUser, none) ∧
      exValidatorUser.Validator.Struct ⟨1, 1⟩ = none ∧
      exValidator.Validate exRuntime 5 (some ⟨1, 1⟩) ["es".toList] =
        .ok (exValidatorUser, none) :=
  ⟨rfl, rfl, Validate_no_violation exRuntime 5 exValidator exValidatorUser ⟨1, 1⟩ rfl rfl
    ["es".toList]⟩

/-- C15 fails as stated: a `Product` on which the engine reports no violation, validated
for the first time with a translation engine that checks braces; the tag of `Title`
holds `pt:{Título`, the registration is refused and `Validate` returns that error. -/
theorem Validate_valid_data_registration_error :
    (exRuntimeBraces.types 5).Kind = Kind.Struct ∧
      exValidator.Validator.Struct ⟨5, 1⟩ = none ∧
      exValidator.Validate exRuntimeBraces 5 (some ⟨5, 1⟩) ["en".toList] =
        .ok (exValidatorProduct, some (.external ⟨"missing bracket".toList⟩)) :=
  ⟨rfl, rfl, rfl⟩

/-! ## C19: what a call leaves unchanged -/

theorem applyRegistration_keys (rt : Runtime) (trs : Translators) (r : Registration) :
    (applyRegistration rt trs r).1.map Prod.fst = trs.map Prod.fst := by
  unfold applyRegistration
  cases hl : mapLookup trs r.locale with
  | none => rfl
  | some tr =>
    simp only
    rw [keys_mapStore]
    have hmem : r.locale ∈ trs.map Prod.fst := by
      rw [← mapLookup_isSome_iff, hl]
      rfl
    simp only [hmem, if_true]

theorem applyRegistrations_keys (rt : Runtime) (trs : Translators) (regs : List Registration) :
    (applyRegistrations rt trs regs).1.map Prod.fst = trs.map Prod.fst := by
  induction regs generalizing trs with
  | nil => rfl
  | cons r regs ih =>
    unfold applyRegistrations
    have hk := applyRegistration_keys rt trs r
    rcases hr : applyRegistration rt trs r with ⟨t1, _ | e⟩
    · rw [hr] at hk
      simp only
      rw [ih t1]
      exact hk
    · rw [hr] at hk
      exact hk

theorem registerFields_keys (rt : Runtime)
    (recur : Translators → Option TypeId → Except Abort (Translators × Option ExternalError))
    (typeName : GoString)
    (hrec : ∀ trs n trs' e, recur trs (some n) = .ok (trs', e) →
      trs'.map Prod.fst = trs.map Prod.fst)
    (fields : List StructField) (trs trs' : Translators) (e : Option ExternalError)
    (h : registerFields rt recur typeName trs fields = .ok (trs', e)) :
    trs'.map Prod.fst = trs.map Prod.fst := by
  induction fields generalizing trs with
  | nil =>
    simp only [registerFields, Except.ok.injEq, Prod.mk.injEq] at h
    rw [← h.1]
  | cons field rest ih =>
    unfold registerFields at h
    rw [registerTag_eq] at h
    have hk := applyRegistrations_keys rt trs (fieldRegistrations typeName field)
    rcases ha : applyRegistrations rt trs (fieldRegistrations typeName field) with ⟨t1, _ | x⟩
    · rw [ha] at hk h
      simp only at hk h
      cases hn : nestedStruct rt.types field with
      | none =>
        rw [hn] at h
        simp only at h
        rw [ih t1 h]
        exact hk
      | some n =>
        rw [hn] at h
        simp only at h
        rcases hr : recur t1 (some n) with a | ⟨t2, _ | y⟩
        · rw [hr] at h
          cases h
        · rw [hr] at h
          simp only at h
          rw [ih t2 h, hrec t1 n t2 none hr]
          exact hk
        · rw [hr] at h
          simp only [Except.ok.injEq, Prod.mk.injEq] at h
          rw [← h.1, hrec t1 n t2 (some y) hr]
          exact hk
    · rw [ha] at hk h
      simp only [Except.ok.injEq, Prod.mk.injEq] at hk h
      rw [← h.1]
      exact hk

theorem walk_keys (rt : Runtime) (fuel : Nat) (trs trs' : Translators) (t : Option TypeId)
    (e : Option ExternalError)
    (h : registerFieldTranslationsType rt fuel trs t = .ok (trs', e)) :
    trs'.map Prod.fst = trs.map Prod.fst := by
  induction fuel generalizing trs trs' t e with
  | zero => simp [registerFieldTranslationsType] at h
  | succ fuel ih =>
    cases t with
    | none =>
      simp only [registerFieldTranslationsType, Except.ok.injEq, Prod.mk.injEq] at h
      rw [← h.1]
    | some t =>
      unfold registerFieldTranslationsType at h
      simp only at h
      generalize derefOnce rt.types t = t' at h
      by_cases hk : (rt.types t').Kind = Kind.Struct
      · simp only [hk, ne_eq, not_true_eq_false, if_false] at h
        exact registerFields_keys rt _ _ (fun trs n trs' e hr => ih trs trs' (some n) e hr)
          _ trs trs' e h
      · simp only [hk, ne_eq, not_false_eq_true, if_true, Except.ok.injEq, Prod.mk.injEq] at h
        rw [← h.1]

theorem registerFieldTranslations_invariants (rt : Runtime) (fuel : Nat)
    (v v1 : I18nValidate.Validator) (data : Option AnyValue) (e : Option GoError)
    (h : v.registerFieldTranslations rt fuel data = .ok (v1, e)) :
    v1.defaultLang = v.defaultLang ∧ v1.Validator = v.Validator ∧
      v1.translators.map Prod.fst = v.translators.map Prod.fst ∧
      (v1.registeredTypes = v.registeredTypes ∨
        ∃ t, derefAll rt.types fuel (data.map (·.typ)) = .ok (some t) ∧
          (rt.types t).Kind = Kind.Struct ∧ t ∉ v.registeredTypes ∧
          v1.registeredTypes = t :: v.registeredTypes) := by
  rcases registerFieldTranslations_cases rt fuel v data with
    ⟨a, ha⟩ | h0 | ⟨t, trs, err, h1, h2, h3, h4, h5⟩
  · rw [ha] at h; cases h
  · rw [h0] at h
    simp only [Except.ok.injEq, Prod.mk.injEq] at h
    rw [← h.1]
    exact ⟨rfl, rfl, rfl, Or.inl rfl⟩
  · rw [h5] at h
    simp only [Except.ok.injEq, Prod.mk.injEq] at h
    rw [← h.1]
    exact ⟨rfl, rfl, walk_keys rt fuel _ _ _ _ h4, Or.inr ⟨t, h1, h2, h3, rfl⟩⟩

theorem Validate_state (rt : Runtime) (fuel : Nat) (v v1 : I18nValidate.Validator)
    (data : Option AnyValue) (lang : List GoString) (e : Option GoError)
    (h : v.Validate rt fuel data lang = .ok (v1, e)) :
    ∃ e', v.registerFieldTranslations rt fuel data = .ok (v1, e') := by
  cases data with
  | none =>
    simp only [Validator.Validate, Except.ok.injEq, Prod.mk.injEq] at h
    rw [← h.1]
    exact ⟨none, by cases fuel <;> rfl⟩
  | some d =>
    unfold Validator.Validate at h
    rcases hreg : v.registerFieldTranslations rt fuel (some d) with a | ⟨w, _ | x⟩
    · simp [hreg] at h
    · simp only [hreg] at h
      refine ⟨none, ?_⟩
      rcases hs : w.Validator.Struct d with _ | verrs | y
      · simp only [hs, Except.ok.injEq, Prod.mk.injEq] at h
        rw [h.1]
      · simp only [hs] at h
        rcases hl : translateLoop (w.resolve lang) verrs [] with a | msgs
        · simp [hl] at h
        · simp only [hl, Except.ok.injEq, Prod.mk.injEq] at h
          rw [h.1]
      · simp only [hs, Except.ok.injEq, Prod.mk.injEq] at h
        rw [h.1]
    · simp only [hreg, Except.ok.injEq, Prod.mk.injEq] at h
      rw [h.1]
      exact ⟨some x, rfl⟩

/-- C19: a call of `registerFieldTranslations` or of `Validate` that returns leaves
`defaultLang`, the rule engine and the locale codes of `translators` as they were, removes
no type from `registeredTypes`, and either leaves that set as it was or adds one type to
it: the struct type the value's type leads to through pointers, which was not in the set;
the type of a nested field is never added. -/
theorem call_preserves_configuration (rt : Runtime) (fuel : Nat)
    (v v1 : I18nValidate.Validator) (data : Option AnyValue) (lang : List GoString)
    (e : Option GoError)
    (h : v.registerFieldTranslations rt fuel data = .ok (v1, e) ∨
      v.Validate rt fuel data lang = .ok (v1, e)) :
    v1.defaultLang = v.defaultLang ∧ v1.Validator = v.Validator ∧
      v1.translators.map Prod.fst = v.translators.map Prod.fst ∧
      (∀ t ∈ v.registeredTypes, t ∈ v1.registeredTypes) ∧
      (v1.registeredTypes = v.registeredTypes ∨
        ∃ t, derefAll rt.types fuel (data.map (·.typ)) = .ok (some t) ∧
          (rt.types t).Kind = Kind.Struct ∧ t ∉ v.registeredTypes ∧
          v1.registeredTypes = t :: v.registeredTypes) := by
  have hreg : ∃ e', v.registerFieldTranslations rt fuel data = .ok (v1, e') := by
    rcases h with h | h
    · exact ⟨e, h⟩
    · exact Validate_state rt fuel v v1 data lang e h
  obtain ⟨e', hreg⟩ := hreg
  obtain ⟨h1, h2, h3, h4⟩ := registerFieldTranslations_invariants rt fuel v v1 data e' hreg
  refine ⟨h1, h2, h3, ?_, h4⟩
  intro t ht
  rcases h4 with h4 | ⟨t', _, _, _, h4⟩
  · rw [h4]; exact ht
  · rw [h4]; exact List.mem_cons_of_mem _ ht

/-- Witness of `call_preserves_configuration`: the first validation of a `Customer` adds
`Customer` and not the nested `Address`. -/
theorem call_preserves_configuration_witness :
    (exValidator.registerFieldTranslations exRuntime 5 (some ⟨4, 0⟩) =
          .ok (exValidatorCustomer, none) ∨
        exValidator.Validate exRuntime 5 (some ⟨4, 0⟩) [] = .ok (exValidatorCustomer, none)) ∧
      exValidatorCustomer.registeredTypes = [4] ∧
      exValidatorCustomer.defaultLang = exValidator.defaultLang ∧
      exValidatorCustomer.Validator = exValidator.Validator ∧
      exValidatorCustomer.translators.map Prod.fst = exValidator.translators.map Prod.fst ∧
      (∀ t ∈ exValidator.registeredTypes, t ∈ exValidatorCustomer.registeredTypes) ∧
      (exValidatorCustomer.registeredTypes = exValidator.registeredTypes ∨
        ∃ t, derefAll exRuntime.types 5 ((some (AnyValue.mk 4 0)).map (·.typ)) = .ok (some t) ∧
          (exRuntime.types t).Kind = Kind.Struct ∧ t ∉ exValidator.registeredTypes ∧
          exValidatorCustomer.registeredTypes = t :: exValidator.registeredTypes) :=
  ⟨Or.inl rfl, rfl,
    call_preserves_configuration exRuntime 5 exValidator exValidatorCustomer (some ⟨4, 0⟩) []
      none (Or.inl rfl)⟩

/-! ## C18: the contexts of a Validator built by `New` -/

theorem newLoop_keys (dl : GoString) (rest : List Translator) (i : Nat)
    (v : validator.Validate) (uni : ut.UniversalTranslator)
    (m : List (GoString × ut.Translator)) (calls : List (Nat × Option ExternalError))
    (hfound : ∀ t ∈ rest, (uni.GetTranslator t.Locale).isSome)
    (val : I18nValidate.Validator)
    (h : (newLoop dl rest i v uni m calls).validator = some val) :
    val.defaultLang = dl ∧ val.registeredTypes = [] ∧
      ∀ k, k ∈ val.translators.map Prod.fst ↔
        k ∈ m.map Prod.fst ∨ ∃ t ∈ rest, t.Locale = k := by
  induction rest generalizing i v uni m calls with
  | nil =>
    simp only [newLoop, Option.some.injEq] at h
    subst h
    refine ⟨rfl, rfl, ?_⟩
    intro k
    simp only [List.not_mem_nil, false_and, exists_false, or_false]
  | cons t rest ih =>
    unfold newLoop at h
    have hsome := hfound t (List.mem_cons_self _ _)
    cases hg : uni.GetTranslator t.Locale with
    | none => rw [hg] at hsome; cases hsome
    | some tr =>
      rw [hg] at h
      simp only at h
      rcases hcb : t.RegisterTranslations v tr with ⟨v', tr', _ | err⟩
      · rw [hcb] at h
        simp only at h
        obtain ⟨h1, h2, h3⟩ := ih (i + 1) v' ⟨mapStore uni.translators t.Locale tr'⟩
          (mapStore m t.Locale tr') (calls ++ [(i, none)])
          (fun x hx => GetTranslator_mapStore_isSome uni t.Locale x.Locale tr'
            (hfound x (List.mem_cons_of_mem _ hx))) h
        refine ⟨h1, h2, ?_⟩
        intro k
        rw [h3 k, mem_keys_mapStore]
        constructor
        · rintro ((hk | hk) | ⟨x, hx, hk⟩)
          · exact Or.inr ⟨t, List.mem_cons_self _ _, hk.symm⟩
          · exact Or.inl hk
          · exact Or.inr ⟨x, List.mem_cons_of_mem _ hx, hk⟩
        · rintro (hk | ⟨x, hx, hk⟩)
          · exact Or.inl (Or.inr hk)
          · rcases List.mem_cons.mp hx with e | e
            · subst e; exact Or.inl (Or.inl hk.symm)
            · exact Or.inr ⟨x, e, hk⟩
      · rw [hcb] at h
        simp only at h
        cases h

theorem resolve_isSome (w : I18nValidate.Validator) (lang : List GoString)
    (h : (mapLookup w.translators w.defaultLang).isSome) : (w.resolve lang).isSome := by
  unfold Validator.resolve
  simp only
  split
  · rfl
  · exact h

/-- C18: a Validator that `New` returns has `defaultLang` as given, an empty set of
registered types, a context for `defaultLang`, and as locale codes of `translators`
exactly the locale codes of the supplied entries; so `Validate` resolves a non-nil
context for every locale argument, and so does every Validator with the same
`defaultLang` and the same locale codes, which is what later calls leave. -/
theorem New_translators (v0 : validator.Validate) (defaultLang : GoString)
    (translators : List Translator) (val : I18nValidate.Validator)
    (h : (New v0 defaultLang translators).validator = some val) :
    val.defaultLang = defaultLang ∧ val.registeredTypes = [] ∧
      (mapLookup val.translators defaultLang).isSome ∧
      (∀ k, k ∈ val.translators.map Prod.fst ↔ ∃ t ∈ translators, t.Locale = k) ∧
      (∀ lang, (val.resolve lang).isSome) ∧
      ∀ w : I18nValidate.Validator, w.defaultLang = defaultLang →
        w.translators.map Prod.fst = val.translators.map Prod.fst →
        ∀ lang, (w.resolve lang).isSome := by
  by_cases hlen : translators.length = 0
  · unfold New at h
    simp only [hlen, if_true] at h
    cases h
  · cases hfind : translators.find? (fun t => decide (t.Locale = defaultLang)) with
    | none =>
      unfold New at h
      simp only [hlen, if_false, hfind] at h
      cases h
    | some fallback =>
      have hN : New v0 defaultLang translators =
          newLoop defaultLang translators 0 v0
            (ut.New ((fallback.Locale :: translators.map (·.Locale)).headD [])
              (fallback.Locale :: translators.map (·.Locale))) [] [] := by
        unfold New
        simp only [hlen, if_false, hfind]
      rw [hN] at h
      obtain ⟨h1, h2, h3⟩ := newLoop_keys defaultLang translators 0 v0 _ [] []
        (fun x hx => ut_New_found _ _ x.Locale
          (List.mem_cons_of_mem _ (List.mem_map.mpr ⟨x, hx, rfl⟩))) val h
      have hkeys : ∀ k, k ∈ val.translators.map Prod.fst ↔ ∃ t ∈ translators, t.Locale = k := by
        intro k
        rw [h3 k]
        simp only [List.map_nil, List.not_mem_nil, false_or]
      have hfb : fallback ∈ translators ∧ fallback.Locale = defaultLang := by
        have hm := List.mem_of_find?_eq_some hfind
        have hp := List.find?_some hfind
        exact ⟨hm, of_decide_eq_true hp⟩
      have hdef : (mapLookup val.translators defaultLang).isSome := by
        rw [mapLookup_isSome_iff, hkeys]
        exact ⟨fallback, hfb.1, hfb.2⟩
      refine ⟨h1, h2, hdef, hkeys, ?_, ?_⟩
      · intro lang
        apply resolve_isSome
        rw [h1]
        exact hdef
      · intro w hw1 hw2 lang
        apply resolve_isSome
        rw [hw1, mapLookup_isSome_iff, hw2, ← mapLookup_isSome_iff]
        exact hdef

/-- Witness of `New_translators`: the Validator of the test, `New("en", en, pt)`. -/
theorem New_translators_witness :
    (New exEngine "en".toList exEntries).validator = some exValidator ∧
      exValidator.defaultLang = "en".toList ∧ exValidator.registeredTypes = [] ∧
      (mapLookup exValidator.translators "en".toList).isSome ∧
      (∀ k, k ∈ exValidator.translators.map Prod.fst ↔ ∃ t ∈ exEntries, t.Locale = k) ∧
      (∀ lang, (exValidator.resolve lang).isSome) ∧
      ∀ w : I18nValidate.Validator, w.defaultLang = "en".toList →
        w.translators.map Prod.fst = exValidator.translators.map Prod.fst →
        ∀ lang, (w.resolve lang).isSome :=
  ⟨rfl, New_translators exEngine "en".toList exEntries exValidator rfl⟩

/-! ## C16: `Error()` -/

theorem foldl_append_messages (order : List (GoString × GoString)) (acc : List GoString) :
    order.foldl (fun msgs entry => msgs ++ [entry.2]) acc = acc ++ order.map Prod.snd := by
  induction order generalizing acc with
  | nil => simp only [List.foldl_nil, List.map_nil, List.append_nil]
  | cons e order ih =>
    simp only [List.foldl_cons, ih, List.map_cons, List.append_assoc, List.singleton_append]

theorem Join_length (l : List GoString) (sep : GoString) (h : l ≠ []) :
    (Join l sep).length = (l.map List.length).sum + sep.length * (l.length - 1) := by
  induction l with
  | nil => exact absurd rfl h
  | cons a l ih =>
    cases l with
    | nil => simp [Join]
    | cons b rest =>
      have ih' := ih (List.cons_ne_nil _ _)
      simp only [Join, List.length_append, ih', List.map_cons, List.sum_cons, List.length_cons,
        Nat.add_sub_cancel]
      ring

theorem mem_of_mapLookup {β : Type} (m : List (GoString × β)) (k : GoString) (b : β)
    (h : mapLookup m k = some b) : (k, b) ∈ m := by
  induction m with
  | nil => simp only [mapLookup] at h; cases h
  | cons p m ih =>
    obtain ⟨k0, b0⟩ := p
    by_cases hk : k0 = k
    · simp only [mapLookup, hk, if_true, Option.some.injEq] at h
      subst hk; subst h
      exact List.mem_cons_self _ _
    · simp only [mapLookup, hk, if_false] at h
      exact List.mem_cons_of_mem _ (ih h)

/-- C16: for every `ValidationErrors` and every order in which the iteration yields the
entries of `TranslatedErrors`, `Error()` is the messages in that order joined with
`"; "`; the messages are those of the map, as often as the map has them, and when no key
is twice in the map no key is yielded twice and the entry of each key is yielded; the result is empty for
the empty map, the message itself for a map of one entry, and for a non-empty map as long
as the messages together plus two for each entry but one. The receiver is unchanged. -/
theorem Error_joins_messages (v : I18nValidate.ValidationErrors)
    (order : List (GoString × GoString)) (hperm : order.Perm v.TranslatedErrors) :
    (v.Error order).1 = Join (order.map Prod.snd) "; ".toList ∧
      (order.map Prod.snd).Perm (v.TranslatedErrors.map Prod.snd) ∧
      ((v.TranslatedErrors.map Prod.fst).Nodup →
        (order.map Prod.fst).Nodup ∧
        ∀ k msg, mapLookup v.TranslatedErrors k = some msg → (k, msg) ∈ order) ∧
      (v.TranslatedErrors = [] → (v.Error order).1 = []) ∧
      (∀ k msg, v.TranslatedErrors = [(k, msg)] → (v.Error order).1 = msg) ∧
      (v.TranslatedErrors ≠ [] →
        (v.Error order).1.length =
          (v.TranslatedErrors.map (fun e => e.2.length)).sum +
            2 * (v.TranslatedErrors.length - 1)) ∧
      (v.Error order).2 = v := by
  have hE : (v.Error order).1 = Join (order.map Prod.snd) "; ".toList := by
    simp only [ValidationErrors.Error, foldl_append_messages, List.nil_append]
  refine ⟨hE, hperm.map _, ?_, ?_, ?_, ?_, rfl⟩
  · intro hnd
    refine ⟨((hperm.map Prod.fst).nodup_iff).mpr hnd, ?_⟩
    intro k msg hl
    exact hperm.mem_iff.mpr (mem_of_mapLookup _ _ _ hl)
  · intro hnil
    rw [hnil] at hperm
    rw [hE, List.perm_nil.mp hperm]
    rfl
  · intro k msg hone
    rw [hone] at hperm
    rw [hE, List.perm_singleton.mp hperm]
    rfl
  · intro hne
    have hone : order ≠ [] := by
      intro h0
      rw [h0] at hperm
      exact hne (List.nil_perm.mp hperm)
    have hmap : order.map Prod.snd ≠ [] := by
      intro h0
      exact hone (List.map_eq_nil_iff.mp h0)
    rw [hE, Join_length _ _ hmap, List.map_map, List.length_map, hperm.length_eq]
    have hsum : (order.map (List.length ∘ Prod.snd)).sum =
        (v.TranslatedErrors.map (fun e => e.2.length)).sum :=
      (hperm.map (List.length ∘ Prod.snd)).sum_eq
    rw [hsum]
    rfl

/-- Witness of `Error_joins_messages`: the two messages of the zero `User`, yielded in
the reverse order. -/
theorem Error_joins_messages_witness :
    List.Perm
        [("User.Email".toList, "Email is a required field".toList),
         ("User.FirstName".toList, "First Name is a required field".toList)]
        (ValidationErrors.mk exUserViolations
          [("User.FirstName".toList, "First Name is a required field".toList),
           ("User.Email".toList, "Email is a required field".toList)]).TranslatedErrors ∧
      ((ValidationErrors.mk exUserViolations
          [("User.FirstName".toList, "First Name is a required field".toList),
           ("User.Email".toList, "Email is a required field".toList)]).Error
          [("User.Email".toList, "Email is a required field".toList),
           ("User.FirstName".toList, "First Name is a required field".toList)]).1 =
        "Email is a required field; First Name is a required field".toList :=
  ⟨List.Perm.swap _ _ _,
    ((Error_joins_messages
      (ValidationErrors.mk exUserViolations
        [("User.FirstName".toList, "First Name is a required field".toList),
         ("User.Email".toList, "Email is a required field".toList)])
      [("User.Email".toList, "Email is a required field".toList),
       ("User.FirstName".toList, "First Name is a required field".toList)]
      (List.Perm.swap _ _ _)).1).trans (by decide)⟩

/-! ## C11: a refused registration -/

theorem mapStore_self {β : Type} (m : List (GoString × β)) (k : GoString) (b : β)
    (h : mapLookup m k = some b) : mapStore m k b = m := by
  induction m with
  | nil => simp only [mapLookup] at h; cases h
  | cons p m ih =>
    obtain ⟨k0, b0⟩ := p
    by_cases hk : k0 = k
    · simp only [mapLookup, hk, if_true, Option.some.injEq] at h
      subst hk; subst h
      simp only [mapStore, if_true]
    · simp only [mapLookup, hk, if_false] at h
      simp only [mapStore, hk, if_false, ih h]

theorem registerFieldTranslations_registered (rt : Runtime) (fuel : Nat)
    (w : I18nValidate.Validator) (d : AnyValue) (t : TypeId)
    (hderef : derefAll rt.types fuel (some d.typ) = .ok (some t))
    (hreg : t ∈ w.registeredTypes) :
    w.registerFieldTranslations rt fuel (some d) = .ok (w, none) := by
  unfold Validator.registerFieldTranslations
  simp only [Option.map_some', hderef, hreg, if_true, ite_self]

theorem registerFields_of_attempts (rt : Runtime)
    (recur : Translators → Option TypeId → Except Abort (Translators × Option ExternalError))
    (recurAtt : TypeId → List Registration × Bool) (typeName : GoString)
    (hrec : ∀ n trs, recur trs (some n) =
      match applyRegistrations rt trs (recurAtt n).1 with
      | (trs', some e) => .ok (trs', some e)
      | (trs', none) => if (recurAtt n).2 then .ok (trs', none) else .error .outOfFuel)
    (fields : List StructField) (trs : Translators) :
    registerFields rt recur typeName trs fields =
      match applyRegistrations rt trs (fieldsAttempts rt.types recurAtt typeName fields).1 with
      | (trs', some e) => .ok (trs', some e)
      | (trs', none) =>
        if (fieldsAttempts rt.types recurAtt typeName fields).2 then .ok (trs', none)
        else .error .outOfFuel := by
  induction fields generalizing trs with
  | nil => rfl
  | cons field rest ih =>
    unfold fieldsAttempts
    unfold registerFields
    rw [registerTag_eq]
    cases hn : nestedStruct rt.types field with
    | none =>
      simp only [applyRegistrations_append]
      rcases applyRegistrations rt trs (fieldRegistrations typeName field) with ⟨t1, _ | e⟩
      · exact ih t1
      · rfl
    | some n =>
      simp only []
      by_cases hdone : (recurAtt n).2 = true
      · simp only [hdone, if_true, applyRegistrations_append]
        rcases applyRegistrations rt trs (fieldRegistrations typeName field) with ⟨t1, _ | e⟩
        · simp only [hrec n t1, hdone, if_true]
          rcases applyRegistrations rt t1 (recurAtt n).1 with ⟨t2, _ | e⟩
          · exact ih t2
          · rfl
        · rfl
      · simp only [hdone, if_false, applyRegistrations_append, Bool.false_eq_true]
        rcases applyRegistrations rt trs (fieldRegistrations typeName field) with ⟨t1, _ | e⟩
        · simp only [hrec n t1, hdone, if_false, Bool.false_eq_true]
          rcases applyRegistrations rt t1 (recurAtt n).1 with ⟨t2, _ | e⟩
          · rfl
          · rfl
        · rfl

/-- The walk is the attempt of its registrations in walk order, stopped at the first
refusal; without a refusal it returns when the registrations are the whole walk. -/
theorem walk_of_attempts (rt : Runtime) (fuel : Nat) (t : TypeId) (trs : Translators) :
    registerFieldTranslationsType rt fuel trs (some t) =
      match applyRegistrations rt trs (walkAttempts rt.types fuel t).1 with
      | (trs', some e) => .ok (trs', some e)
      | (trs', none) =>
        if (walkAttempts rt.types fuel t).2 then .ok (trs', none) else .error .outOfFuel := by
  induction fuel generalizing t trs with
  | zero => rfl
  | succ fuel ih =>
    unfold walkAttempts
    unfold registerFieldTranslationsType
    generalize derefOnce rt.types t = t'
    by_cases hk : (rt.types t').Kind = Kind.Struct
    · simp only [hk, ne_eq, not_true_eq_false, if_false]
      exact registerFields_of_attempts rt _ _ _ (fun n trs => ih n trs) _ trs
    · simp only [hk, ne_eq, not_false_eq_true, if_true]
      rfl

theorem applyRegistration_refused (rt : Runtime) (trs trs' : Translators) (r : Registration)
    (e : ExternalError) (h : applyRegistration rt trs r = (trs', some e)) :
    trs' = trs ∧ ∃ tr, mapLookup trs r.locale = some tr ∧
      rt.refuse tr r.id r.name true = some e := by
  unfold applyRegistration at h
  cases hl : mapLookup trs r.locale with
  | none =>
    rw [hl] at h
    have := (Prod.mk.inj h).2
    cases this
  | some tr =>
    rw [hl] at h
    simp only [ut.Translator.Add] at h
    cases hr : rt.refuse tr r.id r.name true with
    | some e' =>
      simp only [hr, Prod.mk.injEq, Option.some.injEq] at h
      refine ⟨?_, tr, rfl, ?_⟩
      · rw [← h.1, mapStore_self trs r.locale tr hl]
      · rw [hr, h.2]
    | none =>
      simp only [hr] at h
      have := (Prod.mk.inj h).2
      cases this

/-- A run of registrations that ends in a refusal has a first refused registration: those
before it were accepted, and the engine refused it on the context of its locale. -/
theorem applyRegistrations_refused (rt : Runtime) (trs trs' : Translators)
    (regs : List Registration) (e : ExternalError)
    (h : applyRegistrations rt trs regs = (trs', some e)) :
    ∃ pre r post tr, regs = pre ++ r :: post ∧
      applyRegistrations rt trs pre = (trs', none) ∧
      mapLookup trs' r.locale = some tr ∧ rt.refuse tr r.id r.name true = some e := by
  induction regs generalizing trs with
  | nil =>
    have := (Prod.mk.inj h).2
    cases this
  | cons r regs ih =>
    unfold applyRegistrations at h
    rcases hr : applyRegistration rt trs r with ⟨t1, _ | e1⟩
    · rw [hr] at h
      obtain ⟨pre, r', post, tr, h1, h2, h3, h4⟩ := ih t1 h
      refine ⟨r :: pre, r', post, tr, by rw [h1]; rfl, ?_, h3, h4⟩
      unfold applyRegistrations
      rw [hr]
      exact h2
    · rw [hr] at h
      simp only [Prod.mk.injEq, Option.some.injEq] at h
      obtain ⟨h1, h2⟩ := h
      subst h1; subst h2
      obtain ⟨ht, tr, hl, hf⟩ := applyRegistration_refused rt trs t1 r e1 hr
      subst ht
      exact ⟨[], r, regs, tr, rfl, rfl, hl, hf⟩

/-- Whenever the walk returns an error, one of the registrations it attempts was refused
with that error by `trans.Add`, after the registrations before it were accepted. -/
theorem walk_error_refused (rt : Runtime) (fuel : Nat) (t : TypeId)
    (trs trs' : Translators) (e : ExternalError)
    (h : registerFieldTranslationsType rt fuel trs (some t) = .ok (trs', some e)) :
    ∃ pre r post tr, (walkAttempts rt.types fuel t).1 = pre ++ r :: post ∧
      applyRegistrations rt trs pre = (trs', none) ∧
      mapLookup trs' r.locale = some tr ∧ rt.refuse tr r.id r.name true = some e := by
  rw [walk_of_attempts] at h
  rcases ha : applyRegistrations rt trs (walkAttempts rt.types fuel t).1 with ⟨t1, _ | e1⟩
  · rw [ha] at h
    simp only at h
    split at h <;> simp at h
  · rw [ha] at h
    simp only [Except.ok.injEq, Prod.mk.injEq, Option.some.injEq] at h
    obtain ⟨h1, h2⟩ := h
    subst h1; subst h2
    exact applyRegistrations_refused rt trs t1 _ e1 ha

/-- C11: when the first `registerFieldTranslations` call for a record type `t` (not yet in
the registered-type set) attempts, in walk order, the registrations `pre` and then `r`,
those of `pre` are accepted and `trans.Add` refuses `r` with the error `e`, then the call
returns `e` as it is; the contexts hold the registrations of `pre` and nothing of `r` or
of what the walk would attempt after it; `t` is in the registered-type set afterwards;
and on every Validator that has `t` in that set a call for a value of type `t` returns
nil and changes nothing. The walk need not be finite: `walkAttempts` follows it as far
as `fuel` allows, which for a type that reaches itself is a beginning of it. -/
theorem registration_failure_marks_type (rt : Runtime) (fuel : Nat)
    (v : I18nValidate.Validator) (d : AnyValue) (t : TypeId)
    (pre post : List Registration) (r : Registration) (trs1 : Translators)
    (tr : ut.Translator) (e : ExternalError)
    (hderef : derefAll rt.types fuel (some d.typ) = .ok (some t))
    (hstruct : (rt.types t).Kind = Kind.Struct)
    (hnew : t ∉ v.registeredTypes)
    (hregs : (walkAttempts rt.types fuel t).1 = pre ++ r :: post)
    (hpre : applyRegistrations rt v.translators pre = (trs1, none))
    (hlook : mapLookup trs1 r.locale = some tr)
    (hfail : rt.refuse tr r.id r.name true = some e) :
    v.registerFieldTranslations rt fuel (some d) =
        .ok (⟨v.Validator, trs1, v.defaultLang, t :: v.registeredTypes⟩,
          some (.external e)) ∧
      trs1 = pre.foldl storeRegistration v.translators ∧
      t ∈ (t :: v.registeredTypes) ∧
      ∀ (w : I18nValidate.Validator) (fuel' : Nat) (d' : AnyValue),
        t ∈ w.registeredTypes → derefAll rt.types fuel' (some d'.typ) = .ok (some t) →
        w.registerFieldTranslations rt fuel' (some d') = .ok (w, none) := by
  have hwalk := walk_of_attempts rt fuel t v.translators
  have happ : applyRegistrations rt v.translators (pre ++ r :: post) = (trs1, some e) := by
    rw [applyRegistrations_append, hpre]
    simp only [applyRegistrations, applyRegistration, hlook, ut.Translator.Add, hfail,
      mapStore_self trs1 r.locale tr hlook]
  rw [hregs, happ] at hwalk
  refine ⟨?_, applyRegistrations_success rt _ _ pre hpre, List.mem_cons_self _ _, ?_⟩
  · unfold Validator.registerFieldTranslations
    simp only [Option.map_some', hderef, hstruct, hnew, ne_eq, not_true_eq_false, if_false,
      hwalk, Option.map_some']
  · intro w fuel' d' hw hd'
    exact registerFieldTranslations_registered rt fuel' w d' t hd' hw

/-- Witness of `registration_failure_marks_type`, with a translation engine that checks
braces. The first registration of `Product`: `pt:{Título` is refused after the English
name of `Title` was stored and before `Price` is reached. The first registration of
`BadNode`, which holds a `*BadNode` and so has a walk without end: the first
registration the walk attempts, `en:{Label`, is refused. -/
theorem registration_failure_marks_type_witness :
    (derefAll exRuntimeBraces.types 5 (some (AnyValue.mk 5 1).typ) = .ok (some 5) ∧
      (exRuntimeBraces.types 5).Kind = Kind.Struct ∧
      5 ∉ exValidator.registeredTypes ∧
      (walkAttempts exRuntimeBraces.types 5 5).1 =
        [⟨"en".toList, "Product.Title".toList, "Title".toList⟩] ++
          ⟨"pt".toList, "Product.Title".toList, "\x7bTítulo".toList⟩ ::
          [⟨"en".toList, "Product.Price".toList, "Price".toList⟩] ∧
      applyRegistrations exRuntimeBraces exValidator.translators
          [⟨"en".toList, "Product.Title".toList, "Title".toList⟩] =
        (exValidatorProduct.translators, none) ∧
      mapLookup exValidatorProduct.translators "pt".toList = some exPortuguese ∧
      exRuntimeBraces.refuse exPortuguese "Product.Title".toList "\x7bTítulo".toList true =
        some ⟨"missing bracket".toList⟩ ∧
      exValidator.registerFieldTranslations exRuntimeBraces 5 (some ⟨5, 1⟩) =
        .ok (exValidatorProduct, some (.external ⟨"missing bracket".toList⟩))) ∧
    (derefAll exRuntimeBraces.types 3 (some (AnyValue.mk 9 1).typ) = .ok (some 8) ∧
      (exRuntimeBraces.types 8).Kind = Kind.Struct ∧
      8 ∉ exValidator.registeredTypes ∧
      (walkAttempts exRuntimeBraces.types 3 8).1 =
        [] ++ ⟨"en".toList, "BadNode.Label".toList, "\x7bLabel".toList⟩ ::
          [⟨"en".toList, "BadNode.Label".toList, "\x7bLabel".toList⟩,
           ⟨"en".toList, "BadNode.Label".toList, "\x7bLabel".toList⟩] ∧
      (walkAttempts exRuntimeBraces.types 3 8).2 = false ∧
      exValidator.registerFieldTranslations exRuntimeBraces 3 (some ⟨9, 1⟩) =
        .ok (exValidatorBadNode, some (.external ⟨"missing bracket".toList⟩)) ∧
      exValidatorBadNode.registerFieldTranslations exRuntimeBraces 3 (some ⟨9, 1⟩) =
        .ok (exValidatorBadNode, none)) :=
  ⟨⟨rfl, rfl, by decide, by decide, by decide, by decide, by decide,
    (registration_failure_marks_type exRuntimeBraces 5 exValidator ⟨5, 1⟩ 5
      [⟨"en".toList, "Product.Title".toList, "Title".toList⟩]
      [⟨"en".toList, "Product.Price".toList, "Price".toList⟩]
      ⟨"pt".toList, "Product.Title".toList, "\x7bTítulo".toList⟩
      exValidatorProduct.translators exPortuguese ⟨"missing bracket".toList⟩
      rfl rfl (by decide) (by decide) (by decide) (by decide) (by decide)).1⟩,
   ⟨rfl, rfl, by decide, by decide, by decide,
    (registration_failure_marks_type exRuntimeBraces 3 exValidator ⟨9, 1⟩ 8
      []
      [⟨"en".toList, "BadNode.Label".toList, "\x7bLabel".toList⟩,
       ⟨"en".toList, "BadNode.Label".toList, "\x7bLabel".toList⟩]
      ⟨"en".toList, "BadNode.Label".toList, "\x7bLabel".toList⟩
      exValidator.translators
      ⟨"en".toList, [("required".toList, "{0} is a required field".toList)]⟩
      ⟨"missing bracket".toList⟩
      rfl rfl (by decide) (by decide) (by decide) (by decide) (by decide)).1,
    (registration_failure_marks_type exRuntimeBraces 3 exValidator ⟨9, 1⟩ 8
      []
      [⟨"en".toList, "BadNode.Label".toList, "\x7bLabel".toList⟩,
       ⟨"en".toList, "BadNode.Label".toList, "\x7bLabel".toList⟩]
      ⟨"en".toList, "BadNode.Label".toList, "\x7bLabel".toList⟩
      exValidator.translators
      ⟨"en".toList, [("required".toList, "{0} is a required field".toList)]⟩
      ⟨"missing bracket".toList⟩
      rfl rfl (by decide) (by decide) (by decide) (by decide) (by decide)).2.2.2
      exValidatorBadNode 3 ⟨9, 1⟩ (by decide) rfl⟩⟩

/-! ## C12: registering a type again -/

theorem call_registered (rt : Runtime) (fuel : Nat) (w w1 : I18nValidate.Validator)
    (t : TypeId) (c : Call) (res : Option GoError) (hreg : t ∈ w.registeredTypes)
    (hderef : derefAll rt.types fuel (some c.data.typ) = .ok (some t))
    (h : w.call rt fuel c = .ok (w1, res)) :
    w1 = w ∧ ∀ d, c = .register d → res = none := by
  cases c with
  | register d =>
    have hr := registerFieldTranslations_registered rt fuel w d t hderef hreg
    simp only [Validator.call, hr, Except.ok.injEq, Prod.mk.injEq] at h
    exact ⟨h.1.symm, fun _ _ => h.2.symm⟩
  | validate d lang =>
    have hr := registerFieldTranslations_registered rt fuel w d t hderef hreg
    obtain ⟨e', he'⟩ := Validate_state rt fuel w w1 (some d) lang res h
    rw [hr] at he'
    simp only [Except.ok.injEq, Prod.mk.injEq] at he'
    exact ⟨he'.1.symm, fun _ hc => by cases hc⟩

theorem runCalls_registered (rt : Runtime) (fuel : Nat) (w w' : I18nValidate.Validator)
    (t : TypeId) (hreg : t ∈ w.registeredTypes) (calls : List Call)
    (results : List (Option GoError))
    (hcalls : ∀ c ∈ calls, derefAll rt.types fuel (some c.data.typ) = .ok (some t))
    (h : runCalls rt fuel w calls = .ok (w', results)) :
    w' = w ∧ List.Forall₂
      (fun c res => w.call rt fuel c = .ok (w, res) ∧ ∀ d, c = .register d → res = none)
      calls results := by
  induction calls generalizing results w' with
  | nil =>
    simp only [runCalls, Except.ok.injEq, Prod.mk.injEq] at h
    rw [← h.1, ← h.2]
    exact ⟨rfl, List.Forall₂.nil⟩
  | cons c rest ih =>
    unfold runCalls at h
    rcases hc : w.call rt fuel c with a | ⟨w1, res⟩
    · simp [hc] at h
    · simp only [hc] at h
      obtain ⟨hw1, hres⟩ := call_registered rt fuel w w1 t c res hreg
        (hcalls c (List.mem_cons_self _ _)) hc
      subst hw1
      rcases hr : runCalls rt fuel w1 rest with a | ⟨w2, rs⟩
      · simp [hr] at h
      · simp only [hr, Except.ok.injEq, Prod.mk.injEq] at h
        obtain ⟨h1, h2⟩ := ih w2 rs (fun c' hc' => hcalls c' (List.mem_cons_of_mem _ hc')) hr
        rw [← h.1, ← h.2]
        exact ⟨h1, List.Forall₂.cons ⟨hc, hres⟩ h2⟩

/-- C12, as amended: on a Validator that has the record type `t` in its registered-type
set, a registration of a value of type `t` returns nil and changes nothing; a sequence of
`registerFieldTranslations` and `Validate` calls on values of type `t` that returns
leaves the Validator as it was, each call returning what it returns on that Validator
and each registration nil, so a `Validate` call after the sequence returns what it
returns before it. And a `Validate` call that performs the first registration of a type
with success returns what every later one on the same data and locale returns. -/
theorem registered_type_calls (rt : Runtime) (w : I18nValidate.Validator) (t : TypeId)
    (hreg : t ∈ w.registeredTypes) :
    (∀ fuel d, derefAll rt.types fuel (some d.typ) = .ok (some t) →
        w.registerFieldTranslations rt fuel (some d) = .ok (w, none)) ∧
      (∀ fuel calls w' results,
        (∀ c ∈ calls, derefAll rt.types fuel (some c.data.typ) = .ok (some t)) →
        runCalls rt fuel w calls = .ok (w', results) →
        w' = w ∧
        List.Forall₂
          (fun c res => w.call rt fuel c = .ok (w, res) ∧ ∀ d, c = .register d → res = none)
          calls results ∧
        ∀ x lang, w'.Validate rt fuel x lang = w.Validate rt fuel x lang) ∧
      ∀ (v v1 : I18nValidate.Validator) (fuel : Nat) (d : AnyValue) (lang : List GoString),
        v.registerFieldTranslations rt fuel (some d) = .ok (v1, none) →
        v1.registerFieldTranslations rt fuel (some d) = .ok (v1, none) ∧
        v1.Validate rt fuel (some d) lang = v.Validate rt fuel (some d) lang := by
  refine ⟨?_, ?_, ?_⟩
  · intro fuel d hd
    exact registerFieldTranslations_registered rt fuel w d t hd hreg
  · intro fuel calls w' results hcalls h
    obtain ⟨h1, h2⟩ := runCalls_registered rt fuel w w' t hreg calls results hcalls h
    exact ⟨h1, h2, fun x lang => by rw [h1]⟩
  · intro v v1 fuel d lang hv
    have h1 : v1.registerFieldTranslations rt fuel (some d) = .ok (v1, none) := by
      rcases registerFieldTranslations_cases rt fuel v (some d) with
        ⟨a, ha⟩ | h0 | ⟨t', trs, err, h1, _, _, _, h5⟩
      · rw [ha] at hv; cases hv
      · rw [h0] at hv
        simp only [Except.ok.injEq, Prod.mk.injEq, and_true] at hv
        rw [← hv]
        exact h0
      · rw [h5] at hv
        simp only [Except.ok.injEq, Prod.mk.injEq] at hv
        apply registerFieldTranslations_registered rt fuel v1 d t' h1
        rw [← hv.1]
        exact List.mem_cons_self _ _
    refine ⟨h1, ?_⟩
    unfold Validator.Validate
    simp only [h1, hv]

/-- Witness of `registered_type_calls`: `Product` is marked in the Validator left by its
failed first registration. -/
theorem registered_type_calls_witness :
    5 ∈ exValidatorProduct.registeredTypes ∧
      exValidatorProduct.registerFieldTranslations exRuntimeBraces 5 (some ⟨5, 1⟩) =
        .ok (exValidatorProduct, none) :=
  ⟨by decide,
    (registered_type_calls exRuntimeBraces exValidatorProduct 5 (by decide)).1 5 ⟨5, 1⟩ rfl⟩

/-- C12 fails as stated: with a translation engine that checks braces, the first
`Validate` of a valid `Product` returns the error of the refused registration of
`pt:{Título`, and the same call on the Validator it leaves returns nil. -/
theorem Validate_first_registration_differs :
    exValidator.Validate exRuntimeBraces 5 (some ⟨5, 1⟩) ["en".toList] =
        .ok (exValidatorProduct, some (.external ⟨"missing bracket".toList⟩)) ∧
      exValidatorProduct.Validate exRuntimeBraces 5 (some ⟨5, 1⟩) ["en".toList] =
        .ok (exValidatorProduct, none) :=
  ⟨rfl, rfl⟩

/-! ## C20: termination of the walk -/

theorem fieldsRegistrations_of_visits (env : TypeEnv)
    (recurV : TypeId → Option (List (TypeId × StructField)))
    (recurR : TypeId → Option (List Registration)) (t : TypeId)
    (hrec : ∀ n, recurR n = (recurV n).map
      (fun vs => vs.flatMap (fun p => fieldRegistrations (env p.1).Name p.2)))
    (fields : List StructField) :
    fieldsRegistrations env recurR (env t).Name fields =
      (fieldsVisits env recurV t fields).map
        (fun vs => vs.flatMap (fun p => fieldRegistrations (env p.1).Name p.2)) := by
  induction fields with
  | nil => rfl
  | cons field rest ih =>
    unfold fieldsRegistrations fieldsVisits
    cases hn : nestedStruct env field with
    | none =>
      simp only [ih]
      cases fieldsVisits env recurV t rest with
      | none => rfl
      | some vs => simp only [Option.map_some', List.flatMap_cons]
    | some n =>
      simp only [ih, hrec n]
      cases recurV n with
      | none => rfl
      | some a =>
        cases fieldsVisits env recurV t rest with
        | none => rfl
        | some b =>
          simp only [Option.map_some', List.flatMap_cons, List.flatMap_append,
            List.append_assoc]

theorem walkRegistrations_of_visits (env : TypeEnv) (fuel : Nat) (t : TypeId) :
    walkRegistrations env fuel t = (walkVisits env fuel t).map
      (fun vs => vs.flatMap (fun p => fieldRegistrations (env p.1).Name p.2)) := by
  induction fuel generalizing t with
  | zero => rfl
  | succ fuel ih =>
    unfold walkRegistrations walkVisits
    simp only
    generalize derefOnce env t = t'
    by_cases hk : (env t').Kind = Kind.Struct
    · simp only [hk, ne_eq, not_true_eq_false, if_false]
      exact fieldsRegistrations_of_visits env _ _ t' (fun n => ih n) _
    · simp only [hk, ne_eq, not_false_eq_true, if_true]
      rfl

theorem fieldsVisits_count (env : TypeEnv)
    (recurV : TypeId → Option (List (TypeId × StructField))) (t s : TypeId)
    (f : StructField) (P : TypeId → Nat) (c : Nat) (fields : List StructField)
    (vs : List (TypeId × StructField))
    (hrec : ∀ g ∈ fields, ∀ n vsn, nestedStruct env g = some n → recurV n = some vsn →
      vsn.countP (fun p => decide (p = (s, f))) = P n * c)
    (h : fieldsVisits env recurV t fields = some vs) :
    vs.countP (fun p => decide (p = (s, f))) =
      (if t = s then fields.countP (fun g => decide (g = f)) else 0) +
        ((fields.filterMap (nestedStruct env)).map P).sum * c := by
  induction fields generalizing vs with
  | nil =>
    simp only [fieldsVisits, Option.some.injEq] at h
    subst h
    simp
  | cons g rest ih =>
    have ih' := fun vs' hv' => ih vs' (fun g' hg' => hrec g' (List.mem_cons_of_mem _ hg')) hv'
    have hhead : (if decide ((t, g) = (s, f)) = true then 1 else 0) =
        (if t = s then (if decide (g = f) = true then 1 else 0) else 0) := by
      by_cases hts : t = s
      · by_cases hgf : g = f
        · simp [hts, hgf]
        · simp [hts, hgf]
      · simp [hts]
    unfold fieldsVisits at h
    cases hn : nestedStruct env g with
    | none =>
      rw [hn] at h
      simp only [Option.map_eq_some'] at h
      obtain ⟨vs', hvs', hvs⟩ := h
      subst hvs
      have h1 := ih' vs' hvs'
      simp only [List.countP_cons, List.filterMap_cons, hn, h1, hhead]
      by_cases hts : t = s
      · simp only [hts, if_true]; omega
      · simp only [hts, if_false]; omega
    | some n =>
      rw [hn] at h
      cases ha : recurV n with
      | none => simp [ha] at h
      | some a =>
        cases hb : fieldsVisits env recurV t rest with
        | none => simp [ha, hb] at h
        | some b =>
          simp only [ha, hb, Option.some.injEq] at h
          subst h
          have hcount := hrec g (List.mem_cons_self _ _) n a hn ha
          have h1 := ih' b hb
          simp only [List.countP_cons, List.countP_append, List.filterMap_cons, hn,
            List.map_cons, List.sum_cons, hcount, h1, hhead, Nat.add_mul]
          by_cases hts : t = s
          · simp only [hts, if_true]; omega
          · simp only [hts, if_false]; omega

theorem walkVisits_count (env : TypeEnv) (fuel : Nat) (t s : TypeId) (f : StructField)
    (vs : List (TypeId × StructField)) (hk : (env t).Kind = Kind.Struct)
    (h : walkVisits env fuel t = some vs) :
    vs.countP (fun p => decide (p = (s, f))) =
      countPaths env fuel t s * (env s).Fields.countP (fun g => decide (g = f)) := by
  induction fuel generalizing t vs with
  | zero => simp [walkVisits] at h
  | succ fuel ih =>
    unfold walkVisits at h
    rw [derefOnce_struct env t hk] at h
    simp only [hk, ne_eq, not_true_eq_false, if_false] at h
    rw [fieldsVisits_count env (walkVisits env fuel) t s f (fun n => countPaths env fuel n s)
      ((env s).Fields.countP (fun g => decide (g = f))) (env t).Fields vs
      (fun g _ n vsn hn hv => ih n vsn (nestedStruct_kind env g n hn) hv) h]
    have hcp : countPaths env (fuel + 1) t s = (if t = s then 1 else 0) +
        (((env t).Fields.filterMap (nestedStruct env)).map
          (fun n => countPaths env fuel n s)).sum := rfl
    rw [hcp]
    by_cases hts : t = s
    · subst hts
      simp only [if_true, Nat.add_mul, Nat.one_mul]
    · simp only [hts, if_false, Nat.zero_add]

theorem Reaches_step (env : TypeEnv) (t s n : TypeId) (field : StructField)
    (h : Reaches env t s) (hf : field ∈ (env s).Fields)
    (hn : nestedStruct env field = some n) : Reaches env t n := by
  induction h with
  | here t => exact Reaches.through t field n n hf hn (Reaches.here n)
  | through t g m s hg hm _ ih => exact Reaches.through t g m n hg hm (ih hf)

theorem fieldsVisits_some (env : TypeEnv)
    (recurV : TypeId → Option (List (TypeId × StructField))) (t : TypeId)
    (fields : List StructField)
    (h : ∀ g ∈ fields, ∀ n, nestedStruct env g = some n → ∃ a, recurV n = some a) :
    ∃ vs, fieldsVisits env recurV t fields = some vs := by
  induction fields with
  | nil => exact ⟨[], rfl⟩
  | cons g rest ih =>
    obtain ⟨b, hb⟩ := ih (fun g' hg' => h g' (List.mem_cons_of_mem _ hg'))
    unfold fieldsVisits
    cases hn : nestedStruct env g with
    | none => exact ⟨(t, g) :: b, by simp only [hb, Option.map_some']⟩
    | some n =>
      obtain ⟨a, ha⟩ := h g (List.mem_cons_self _ _) n hn
      exact ⟨(t, g) :: a ++ b, by simp only [ha, hb]⟩

theorem walkVisits_of_rank (env : TypeEnv) (t : TypeId) (rank : TypeId → Nat)
    (hrank : ∀ s field n, Reaches env t s → field ∈ (env s).Fields →
      nestedStruct env field = some n → rank n < rank s)
    (fuel : Nat) (s : TypeId) (hs : Reaches env t s) (hk : (env s).Kind = Kind.Struct)
    (hfuel : rank s < fuel) : ∃ vs, walkVisits env fuel s = some vs := by
  induction fuel generalizing s with
  | zero => omega
  | succ fuel ih =>
    unfold walkVisits
    rw [derefOnce_struct env s hk]
    simp only [hk, ne_eq, not_true_eq_false, if_false]
    apply fieldsVisits_some
    intro g hg n hn
    have hlt := hrank s g n hs hg hn
    exact ih n (Reaches_step env t s n g hs hg hn) (nestedStruct_kind env g n hn) (by omega)

theorem fieldsRegistrations_children (env : TypeEnv)
    (recurR : TypeId → Option (List Registration)) (typeName : GoString)
    (fields : List StructField) (regs : List Registration)
    (h : fieldsRegistrations env recurR typeName fields = some regs) :
    ∀ g ∈ fields, ∀ n, nestedStruct env g = some n → ∃ a, recurR n = some a := by
  induction fields generalizing regs with
  | nil =>
    intro g hg
    exact absurd hg (List.not_mem_nil _)
  | cons g0 rest ih =>
    unfold fieldsRegistrations at h
    cases hn0 : nestedStruct env g0 with
    | none =>
      rw [hn0] at h
      simp only [Option.map_eq_some'] at h
      obtain ⟨regs', hrest, _⟩ := h
      intro g hg n hn
      rcases List.mem_cons.mp hg with e | e
      · subst e
        rw [hn0] at hn
        cases hn
      · exact ih regs' hrest g e n hn
    | some n0 =>
      rw [hn0] at h
      cases ha : recurR n0 with
      | none => simp [ha] at h
      | some a =>
        cases hb : fieldsRegistrations env recurR typeName rest with
        | none => simp [ha, hb] at h
        | some b =>
          intro g hg n hn
          rcases List.mem_cons.mp hg with e | e
          · subst e
            rw [hn0] at hn
            cases hn
            exact ⟨a, ha⟩
          · exact ih b hb g e n hn

theorem Reaches_cycle_edge (env : TypeEnv) (s t : TypeId) (h : Reaches env s t)
    (hcyc : ReachesItself env t) :
    ∃ field n, field ∈ (env s).Fields ∧ nestedStruct env field = some n ∧ Reaches env n t := by
  cases h with
  | here => exact hcyc
  | through _ field n _ hf hn hr => exact ⟨field, n, hf, hn, hr⟩

theorem walkRegistrations_cyclic (env : TypeEnv) (t : TypeId) (hcyc : ReachesItself env t)
    (fuel : Nat) (s : TypeId) (hk : (env s).Kind = Kind.Struct) (hs : Reaches env s t) :
    walkRegistrations env fuel s = none := by
  induction fuel generalizing s with
  | zero => rfl
  | succ fuel ih =>
    cases hw : walkRegistrations env (fuel + 1) s with
    | none => rfl
    | some regs =>
      exfalso
      unfold walkRegistrations at hw
      rw [derefOnce_struct env s hk] at hw
      simp only [hk, ne_eq, not_true_eq_false, if_false] at hw
      obtain ⟨field, n, hf, hn, hr⟩ := Reaches_cycle_edge env s t hs hcyc
      obtain ⟨a, ha⟩ := fieldsRegistrations_children env _ _ _ regs hw field hf n hn
      rw [ih n (nestedStruct_kind env field n hn) hr] at ha
      cases ha

theorem applyRegistrations_no_refusal (rt : Runtime)
    (hno : ∀ tr id name o, rt.refuse tr id name o = none) (trs : Translators)
    (regs : List Registration) : (applyRegistrations rt trs regs).2 = none := by
  induction regs generalizing trs with
  | nil => rfl
  | cons r regs ih =>
    unfold applyRegistrations
    have h1 : (applyRegistration rt trs r).2 = none := by
      unfold applyRegistration
      cases mapLookup trs r.locale with
      | none => rfl
      | some tr => simp only [ut.Translator.Add, hno]
    rcases hr : applyRegistration rt trs r with ⟨t1, _ | e⟩
    · exact ih t1
    · rw [hr] at h1
      cases h1

theorem registerFields_shape (rt : Runtime)
    (hno : ∀ tr id name o, rt.refuse tr id name o = none)
    (recur : Translators → Option TypeId → Except Abort (Translators × Option ExternalError))
    (typeName : GoString)
    (hrec : ∀ trs n, recur trs (some n) = .error .outOfFuel ∨
      ∃ trs', recur trs (some n) = .ok (trs', none))
    (fields : List StructField) (trs : Translators) :
    registerFields rt recur typeName trs fields = .error .outOfFuel ∨
      ∃ trs', registerFields rt recur typeName trs fields = .ok (trs', none) := by
  induction fields generalizing trs with
  | nil => exact Or.inr ⟨trs, rfl⟩
  | cons field rest ih =>
    unfold registerFields
    rw [registerTag_eq]
    have h1 := applyRegistrations_no_refusal rt hno trs (fieldRegistrations typeName field)
    rcases ha : applyRegistrations rt trs (fieldRegistrations typeName field) with ⟨t1, _ | e⟩
    · simp only
      cases hn : nestedStruct rt.types field with
      | none => exact ih t1
      | some n =>
        simp only
        rcases hrec t1 n with hr | ⟨t2, hr⟩
        · rw [hr]
          exact Or.inl rfl
        · rw [hr]
          exact ih t2
    · rw [ha] at h1
      cases h1

theorem walk_shape (rt : Runtime) (hno : ∀ tr id name o, rt.refuse tr id name o = none)
    (fuel : Nat) (trs : Translators) (t : Option TypeId) :
    registerFieldTranslationsType rt fuel trs t = .error .outOfFuel ∨
      ∃ trs', registerFieldTranslationsType rt fuel trs t = .ok (trs', none) := by
  induction fuel generalizing trs t with
  | zero => exact Or.inl rfl
  | succ fuel ih =>
    cases t with
    | none => exact Or.inr ⟨trs, rfl⟩
    | some t =>
      unfold registerFieldTranslationsType
      simp only
      generalize derefOnce rt.types t = t'
      by_cases hk : (rt.types t').Kind = Kind.Struct
      · simp only [hk, ne_eq, not_true_eq_false, if_false]
        exact registerFields_shape rt hno _ _ (fun trs n => ih trs (some n)) _ trs
      · simp only [hk, ne_eq, not_false_eq_true, if_true]
        exact Or.inr ⟨trs, rfl⟩

/-- C20, as amended: for a record type whose field graph is acyclic the walk returns
once the fuel covers the depth of the graph: it attempts the registrations of the fields
it visits, in order, and it visits a field of a record type once for every path from
the root to that record type. For a record type that reaches itself the walk never
returns nil, and when no registration is refused it never returns at all: no depth
bound or visited set stops it. -/
theorem walk_termination (rt : Runtime) (t : TypeId)
    (hk : (rt.types t).Kind = Kind.Struct) :
    (Acyclic rt.types t →
        ∃ fuel0, ∀ fuel, fuel0 ≤ fuel →
          ∃ vs, walkVisits rt.types fuel t = some vs ∧
            (∀ trs, registerFieldTranslationsType rt fuel trs (some t) =
              .ok (applyRegistrations rt trs
                (vs.flatMap (fun p => fieldRegistrations (rt.types p.1).Name p.2)))) ∧
            ∀ s f, vs.countP (fun p => decide (p = (s, f))) =
              countPaths rt.types fuel t s *
                (rt.types s).Fields.countP (fun g => decide (g = f))) ∧
      (ReachesItself rt.types t →
        (∀ fuel trs trs',
          registerFieldTranslationsType rt fuel trs (some t) ≠ .ok (trs', none)) ∧
        ((∀ tr id name o, rt.refuse tr id name o = none) →
          ∀ fuel trs, registerFieldTranslationsType rt fuel trs (some t) =
            .error .outOfFuel)) := by
  constructor
  · rintro ⟨rank, hrank⟩
    refine ⟨rank t + 1, ?_⟩
    intro fuel hfuel
    obtain ⟨vs, hvs⟩ := walkVisits_of_rank rt.types t rank hrank fuel t (Reaches.here t) hk
      (by omega)
    refine ⟨vs, hvs, ?_, ?_⟩
    · intro trs
      apply walk_of_registrations
      rw [walkRegistrations_of_visits, hvs]
      rfl
    · intro s f
      exact walkVisits_count rt.types fuel t s f vs hk hvs
  · intro hcyc
    have hnone : ∀ fuel, walkRegistrations rt.types fuel t = none :=
      fun fuel => walkRegistrations_cyclic rt.types t hcyc fuel t hk (Reaches.here t)
    refine ⟨fun fuel trs trs' => walk_no_success rt fuel t (hnone fuel) trs trs', ?_⟩
    intro hno fuel trs
    rcases walk_shape rt hno fuel trs (some t) with h | ⟨trs', h⟩
    · exact h
    · exact absurd h (walk_no_success rt fuel t (hnone fuel) trs trs')

theorem exReaches_Customer (t0 s : TypeId) (h : Reaches exTypes2 t0 s) :
    (t0 = 4 → s = 4 ∨ s = 3) ∧ (t0 = 3 → s = 3) := by
  induction h with
  | here t => exact ⟨fun h => Or.inl h, fun h => h⟩
  | through t field n s hf hn _ ih =>
    constructor
    · intro ht
      subst ht
      have hF : (exTypes2 4).Fields =
          [⟨"Name".toList, "en:Full Name".toList, 0⟩, ⟨"Address".toList, [], 3⟩] := rfl
      rw [hF] at hf
      rcases List.mem_cons.mp hf with e | e
      · subst e
        have : nestedStruct exTypes2 ⟨"Name".toList, "en:Full Name".toList, 0⟩ = none := rfl
        rw [this] at hn
        cases hn
      · rw [List.mem_singleton] at e
        subst e
        have : nestedStruct exTypes2 ⟨"Address".toList, [], 3⟩ = some 3 := rfl
        rw [this] at hn
        cases hn
        exact Or.inr (ih.2 rfl)
    · intro ht
      subst ht
      have hF : (exTypes2 3).Fields = [⟨"Street".toList, "en:Street Name".toList, 0⟩] := rfl
      rw [hF, List.mem_singleton] at hf
      subst hf
      have : nestedStruct exTypes2 ⟨"Street".toList, "en:Street Name".toList, 0⟩ = none := rfl
      rw [this] at hn
      cases hn

theorem exCustomer_Acyclic : Acyclic exRuntime2.types 4 := by
  show Acyclic exTypes2 4
  refine ⟨fun n => if n = 4 then 1 else 0, ?_⟩
  intro s field n hs hf hn
  have hn3 : (exTypes2 n).Kind = Kind.Struct := nestedStruct_kind exTypes2 field n hn
  rcases (exReaches_Customer 4 s hs).1 rfl with e | e
  · subst e
    have hn' := (exReaches_Customer 4 n
      (Reaches_step exTypes2 4 4 n field hs hf hn)).1 rfl
    rcases hn' with e' | e'
    · exfalso
      subst e'
      have hF : (exTypes2 4).Fields =
          [⟨"Name".toList, "en:Full Name".toList, 0⟩, ⟨"Address".toList, [], 3⟩] := rfl
      rw [hF] at hf
      rcases List.mem_cons.mp hf with e | e
      · subst e
        have : nestedStruct exTypes2 ⟨"Name".toList, "en:Full Name".toList, 0⟩ = none := rfl
        rw [this] at hn
        cases hn
      · rw [List.mem_singleton] at e
        subst e
        have : nestedStruct exTypes2 ⟨"Address".toList, [], 3⟩ = some 3 := rfl
        rw [this] at hn
        cases hn
    · subst e'
      decide
  · exfalso
    subst e
    have hF : (exTypes2 3).Fields = [⟨"Street".toList, "en:Street Name".toList, 0⟩] := rfl
    rw [hF, List.mem_singleton] at hf
    subst hf
    have : nestedStruct exTypes2 ⟨"Street".toList, "en:Street Name".toList, 0⟩ = none := rfl
    rw [this] at hn
    cases hn

theorem exNode_ReachesItself : ReachesItself exRuntime2.types 6 :=
  ⟨⟨"Next".toList, [], 7⟩, 6, by decide, rfl, Reaches.here 6⟩

/-- Witness of `walk_termination`: `Customer`, which holds an `Address`, is acyclic and
its walk returns from fuel 2 on; `Node`, which holds a `*Node`, reaches itself and its
walk returns for no fuel when nothing is refused. -/
theorem walk_termination_witness :
    (exRuntime2.types 4).Kind = Kind.Struct ∧ Acyclic exRuntime2.types 4 ∧
      (∃ fuel0, ∀ fuel, fuel0 ≤ fuel →
        ∃ vs, walkVisits exRuntime2.types fuel 4 = some vs ∧
          (∀ trs, registerFieldTranslationsType exRuntime2 fuel trs (some 4) =
            .ok (applyRegistrations exRuntime2 trs
              (vs.flatMap (fun p => fieldRegistrations (exRuntime2.types p.1).Name p.2)))) ∧
          ∀ s f, vs.countP (fun p => decide (p = (s, f))) =
            countPaths exRuntime2.types fuel 4 s *
              (exRuntime2.types s).Fields.countP (fun g => decide (g = f))) ∧
      (exRuntime2.types 6).Kind = Kind.Struct ∧ ReachesItself exRuntime2.types 6 ∧
      ∀ fuel trs, registerFieldTranslationsType exRuntime2 fuel trs (some 6) =
        .error .outOfFuel :=
  ⟨rfl, exCustomer_Acyclic, (walk_termination exRuntime2 4 rfl).1 exCustomer_Acyclic,
    rfl, exNode_ReachesItself,
    ((walk_termination exRuntime2 6 rfl).2 exNode_ReachesItself).2 (fun _ _ _ _ => rfl)⟩

/-- C20 fails as stated: `BadNode` holds a `*BadNode`, so it reaches itself, but its first
field has the display name `{Label`; with a translation engine that checks braces the
walk returns the error of that refused registration for every fuel from 1 on. -/
theorem walk_of_BadNode_returns :
    (exRuntimeBraces.types 8).Kind = Kind.Struct ∧
      ReachesItself exRuntimeBraces.types 8 ∧
      ∀ fuel, registerFieldTranslationsType exRuntimeBraces (fuel + 1) exValidator.translators
          (some 8) =
        .ok (exValidator.translators, some ⟨"missing bracket".toList⟩) :=
  ⟨rfl, ⟨⟨"Next".toList, [], 9⟩, 8, by decide, rfl, Reaches.here 8⟩, fun _ => rfl⟩

end I18nValidate
